import Mathlib

/-! # Octree spatial index (`Octree.h` / `Octree.cpp`)

A shallow embedding of the octree used by the scene manager for region
queries, followed by the properties proved about it.

Modelling conventions.

* A `float` is a rational number; the arithmetic the code does on node
  geometry (`center ± halfSize`, `center + offset`, `±0.5f * halfSize`,
  `halfSize * 0.5f`) is IEEE-754 binary32 arithmetic: the exact result rounded
  to the nearest representable value, ties to the even significand
  (`Float32.round`).  The code only compares positions, so positions are never
  rounded.  Infinities and NaN are outside the model: `Float32.round` rounds as
  if the exponent range had no upper end, which is what a `float` operation
  does as long as its result stays below `2^128`; the geometries for which
  exactness is assumed (`ExactTree`) are confined to that range.
* `int` identifiers and depths are `Int`; the only integer arithmetic is
  `m_depth + 1`, executed when `m_depth < m_maxDepth`, so it cannot overflow.
* `std::unique_ptr<Octree>` is the type `Octree`: either `null` or an owned
  `node` carrying the six data members.  A member function called through a
  guarded pointer (`if (child) child->f(..)`, `if (m_octree) m_octree->f(..)`)
  is the function `f` with `null` mapped to "nothing happens".
* `void` member functions that mutate the node return the new node;
  `query`, which appends to `results`, returns the new `results`.
-/

/-! ## Arithmetic on `float` -/

namespace Float32

/-- Rounding of a rational to the nearest integer, a tie going to the even
neighbour. -/
def roundHalfEven (z : ℚ) : ℤ :=
  let f := ⌊z⌋
  let r := z - f
  if r < 1 / 2 then f else if 1 / 2 < r then f + 1 else if f % 2 = 0 then f else f + 1

/-- The exponent of the unit in the last place of the binary32 format at `x`:
`e - 23` for `2^e ≤ |x| < 2^(e+1)`, and `-149` in the subnormal range below
`2^-126`. -/
def ulpExp (x : ℚ) : ℤ := max (Int.log 2 |x|) (-126) - 23

/-- The binary32 value nearest to `x`, ties to even: what a `float` operation
stores when its exact result is `x`. -/
def round (x : ℚ) : ℚ := roundHalfEven (x / 2 ^ ulpExp x) * 2 ^ ulpExp x

/-- The `float` sum `a + b`. -/
def add (a b : ℚ) : ℚ := round (a + b)

/-- The `float` difference `a - b`. -/
def sub (a b : ℚ) : ℚ := round (a - b)

/-- The `float` product `a * b`. -/
def mul (a b : ℚ) : ℚ := round (a * b)

end Float32

/-- The three `float` components of a `glm::vec3`. -/
structure Vec3 where
  x : ℚ
  y : ℚ
  z : ℚ
deriving DecidableEq

namespace Vec3

/-- The constructor `glm::vec3(s)`: all three components equal `s`. -/
def splat (s : ℚ) : Vec3 := ⟨s, s, s⟩

/-- Component-wise `a + b` of `glm::vec3`, in `float` arithmetic. -/
def add (a b : Vec3) : Vec3 := ⟨Float32.add a.x b.x, Float32.add a.y b.y, Float32.add a.z b.z⟩

/-- Component-wise `a - b` of `glm::vec3`, in `float` arithmetic. -/
def sub (a b : Vec3) : Vec3 := ⟨Float32.sub a.x b.x, Float32.sub a.y b.y, Float32.sub a.z b.z⟩

end Vec3

/-- The struct `SceneObject` of `Octree.h`. -/
structure SceneObject where
  position : Vec3
  boundingRadius : ℚ
  id : Int
deriving DecidableEq

/-- A `std::unique_ptr<Octree>`: `null`, or a node with the data members
`m_center`, `m_halfSize`, `m_depth`, `m_maxDepth`, `m_objects` and the
eight-slot array `m_children`. -/
inductive Octree where
  | null : Octree
  | node (m_center : Vec3) (m_halfSize : ℚ) (m_depth : Int) (m_maxDepth : Int)
      (m_objects : List SceneObject) (m_children : Fin 8 → Octree) : Octree

namespace Octree

/-- The constructor `Octree::Octree(center, halfSize, depth, maxDepth)`: the
four scalars are stored, the object list is empty and all eight children are
null. -/
def ctor (center : Vec3) (halfSize : ℚ) (depth : Int) (maxDepth : Int) : Octree :=
  node center halfSize depth maxDepth [] (fun _ => null)

/-- The member `Octree::clear`: every child pointer is reset and the object list is
emptied; the scalars stay. -/
def clear : Octree → Octree
  | null => null
  | node c h d m _ _ => node c h d m [] (fun _ => null)

/-- The member `Octree::isLeaf`, as a function of the two members it reads. -/
def isLeaf (m_depth m_maxDepth : Int) : Bool := decide (m_depth ≥ m_maxDepth)

/-- The member `Octree::getChildIndex`, as a function of `m_center` and `pos`. -/
def getChildIndex (m_center pos : Vec3) : Nat :=
  let idx := 0
  let idx := if pos.x > m_center.x then idx ||| 1 else idx
  let idx := if pos.y > m_center.y then idx ||| 2 else idx
  let idx := if pos.z > m_center.z then idx ||| 4 else idx
  idx

/-- The vector `offset` computed in `Octree::insert` for the child `idx`. -/
def childOffset (m_halfSize : ℚ) (idx : Nat) : Vec3 :=
  ⟨Float32.mul (if idx &&& 1 ≠ 0 then (1 / 2 : ℚ) else -(1 / 2 : ℚ)) m_halfSize,
   Float32.mul (if idx &&& 2 ≠ 0 then (1 / 2 : ℚ) else -(1 / 2 : ℚ)) m_halfSize,
   Float32.mul (if idx &&& 4 ≠ 0 then (1 / 2 : ℚ) else -(1 / 2 : ℚ)) m_halfSize⟩

/-- The child that `Octree::insert` creates in an empty slot `idx`:
`make_unique<Octree>(m_center + offset, m_halfSize * 0.5f, m_depth + 1, m_maxDepth)`. -/
def newChild (m_center : Vec3) (m_halfSize : ℚ) (m_depth m_maxDepth : Int) (idx : Nat) : Octree :=
  ctor (m_center.add (childOffset m_halfSize idx)) (Float32.mul m_halfSize (1 / 2)) (m_depth + 1)
    m_maxDepth

/-- A termination measure for `insert`: the remaining depth budget of a node
plus the height of what hangs below it. -/
def potential : Octree → Nat
  | null => 0
  | node _ _ d m _ ch =>
    (m - d).toNat + 1 + ((List.finRange 8).map (fun i => potential (ch i))).foldr max 0

/-- The member `Octree::insert`.  Indexing `m_children[idx]` outside `0..7` is undefined
in C++; the model leaves the node as it is there (`getChildIndex` never produces
such an index). -/
def insert (t : Octree) (obj : SceneObject) : Octree :=
  match t with
  | null => null
  | node c h d m objs ch =>
    if isLeaf d m then node c h d m (objs ++ [obj]) ch
    else
      let idx := getChildIndex c obj.position
      if hidx : idx < 8 then
        let child := match ch ⟨idx, hidx⟩ with
          | null => newChild c h d m idx
          | t => t
        node c h d m objs (Function.update ch ⟨idx, hidx⟩ (insert child obj))
      else node c h d m objs ch
termination_by potential t
decreasing_by
  rename_i objs ch hleaf
  have hdm : d < m := by simpa [isLeaf] using hleaf
  have hmax : ∀ (l : List (Fin 8)) (i : Fin 8), i ∈ l →
      potential (ch i) ≤ (l.map (fun i => potential (ch i))).foldr max 0 := by
    intro l i
    induction l with
    | nil => simp
    | cons a l ih =>
      intro hi
      simp only [List.map_cons, List.foldr_cons]
      rcases List.mem_cons.1 hi with h | h
      · subst h; exact le_max_left _ _
      · exact le_trans (ih h) (le_max_right _ _)
  have hi := hmax (List.finRange 8) ⟨idx, hidx⟩ (List.mem_finRange _)
  cases hc : ch ⟨idx, hidx⟩ with
  | null =>
    simp only [newChild, ctor, potential]
    have : ((List.finRange 8).map (fun _ : Fin 8 => 0)).foldr max 0 = 0 := by decide
    rw [this]
    omega
  | node c2 h2 d2 m2 o2 ch2 =>
    rw [hc] at hi
    simp only [potential] at hi ⊢
    omega

/-- The member `Octree::remove`: erase-remove of the objects with the given id, then the
same on every non-null child. -/
def remove : Octree → Int → Octree
  | null, _ => null
  | node c h d m objs ch, objectId =>
    node c h d m (objs.filter (fun o => !decide (o.id = objectId))) (fun i => remove (ch i) objectId)

/-- The rejection test at the head of `Octree::query`: the node's cube
`m_center ± m_halfSize` misses the box on some axis. -/
def outside (m_center : Vec3) (m_halfSize : ℚ) (min max : Vec3) : Prop :=
  let nodeMin := m_center.sub (Vec3.splat m_halfSize)
  let nodeMax := m_center.add (Vec3.splat m_halfSize)
  nodeMax.x < min.x ∨ nodeMin.x > max.x ∨ nodeMax.y < min.y ∨ nodeMin.y > max.y ∨
    nodeMax.z < min.z ∨ nodeMin.z > max.z

instance (c : Vec3) (h : ℚ) (min max : Vec3) : Decidable (outside c h min max) := by
  unfold outside; infer_instance

/-- The containment test of `Octree::query` on a position. -/
def inBox (min max pos : Vec3) : Prop :=
  pos.x ≥ min.x ∧ pos.x ≤ max.x ∧ pos.y ≥ min.y ∧ pos.y ≤ max.y ∧
    pos.z ≥ min.z ∧ pos.z ≤ max.z

instance (min max pos : Vec3) : Decidable (inBox min max pos) := by
  unfold inBox; infer_instance

/-- The member `Octree::query`: rejection test, then the node's own objects in list
order, then the children in slot order. -/
def query : Octree → Vec3 → Vec3 → List Int → List Int
  | null, _, _, results => results
  | node c h _ _ objs ch, min, max, results =>
    if outside c h min max then results
    else
      let results := objs.foldl
        (fun r obj => if inBox min max obj.position then r ++ [obj.id] else r) results
      (List.finRange 8).foldl (fun r i => query (ch i) min max r) results

/-- A call on the root made by the owner of the tree. -/
inductive Op where
  | insert (obj : SceneObject) : Op
  | remove (objectId : Int) : Op

/-- One call applied to the tree. -/
def step (t : Octree) : Op → Octree
  | Op.insert obj => t.insert obj
  | Op.remove objectId => t.remove objectId

/-- A sequence of calls applied in order. -/
def run (t : Octree) (ops : List Op) : Octree := ops.foldl step t

/-- All objects stored in the subtree, in the order `query` visits them. -/
def allObjects : Octree → List SceneObject
  | null => []
  | node _ _ _ _ objs ch => objs ++ ((List.finRange 8).map (fun i => allObjects (ch i))).flatten

/-- The closed cube `center ± halfSize` of a node, with the bounds `nodeMin` and
`nodeMax` that `Octree::query` computes for it, as a predicate on positions. -/
def inCube (center : Vec3) (halfSize : ℚ) (pos : Vec3) : Prop :=
  inBox (center.sub (Vec3.splat halfSize)) (center.add (Vec3.splat halfSize)) pos

instance (c : Vec3) (h : ℚ) (pos : Vec3) : Decidable (inCube c h pos) := by
  unfold inCube; infer_instance

/-- Number of levels of the tree: `0` for a null pointer, one more than the
deepest child otherwise. -/
def levels : Octree → Nat
  | null => 0
  | node _ _ _ _ _ ch => 1 + ((List.finRange 8).map (fun i => levels (ch i))).foldr max 0

/-- A property of the data members holds at every node of the tree. -/
def AllNodes (P : Vec3 → ℚ → Int → Int → List SceneObject → (Fin 8 → Octree) → Prop) :
    Octree → Prop
  | null => True
  | node c h d m objs ch => P c h d m objs ch ∧ ∀ i, AllNodes P (ch i)

/-- The tree below a pointer is laid out the way `insert` builds it from a
node with the given four scalars: every child in slot `i` has the scalars that
`newChild` gives it, and a leaf has no children. -/
def Shaped : Octree → Vec3 → ℚ → Int → Int → Prop
  | null, _, _, _, _ => True
  | node c h d m _ ch, c0, h0, d0, m0 =>
    c = c0 ∧ h = h0 ∧ d = d0 ∧ m = m0 ∧ (d ≥ m → ∀ i, ch i = null) ∧
      ∀ i : Fin 8, Shaped (ch i) (c0.add (childOffset h0 i.val)) (Float32.mul h0 (1 / 2)) (d0 + 1) m0

/-- The signed half-step of a child along one axis: `+h/2` when the bit of the
slot index is set, `-h/2` otherwise. -/
def signedHalf (i bit : Nat) (h : ℚ) : ℚ := (if i &&& bit ≠ 0 then 1 else -1) * h / 2

/-- The bounds `nodeMin`, `nodeMax` that `Octree::query` computes for a node are
the exact `center - halfSize` and `center + halfSize`: no rounding occurs. -/
def ExactBounds (c : Vec3) (h : ℚ) : Prop :=
  c.sub (Vec3.splat h) = ⟨c.x - h, c.y - h, c.z - h⟩ ∧
    c.add (Vec3.splat h) = ⟨c.x + h, c.y + h, c.z + h⟩

instance (c : Vec3) (h : ℚ) : Decidable (ExactBounds c h) := by
  unfold ExactBounds; infer_instance

/-- Every value the code computes from a node's center and half size (the
bounds `center ± halfSize`, the offsets `±halfSize / 2`, the child centers
`center ± halfSize / 2`) is below `2^128` in absolute value, the end of the
finite range of `float`. -/
def InRange (c : Vec3) (h : ℚ) : Prop :=
  |c.x| + |h| < 2 ^ 128 ∧ |c.y| + |h| < 2 ^ 128 ∧ |c.z| + |h| < 2 ^ 128

instance (c : Vec3) (h : ℚ) : Decidable (InRange c h) := by
  unfold InRange; infer_instance

/-- The geometry of a node and of everything `insert` can build below it within
`n` further levels is computed without rounding and without overflow: the
node's bounds are exact and in range, and, when a level remains,
`halfSize * 0.5f` is `halfSize / 2`, each of the eight child centers
`center + offset` is `center ± halfSize / 2`, and the same holds for each child
with one level less. -/
def ExactTree : Nat → Vec3 → ℚ → Prop
  | 0, c, h => ExactBounds c h ∧ InRange c h
  | n + 1, c, h =>
    ExactBounds c h ∧ InRange c h ∧ Float32.mul h (1 / 2) = h / 2 ∧
      ∀ i : Fin 8,
        c.add (childOffset h i.val) =
            ⟨c.x + signedHalf i.val 1 h, c.y + signedHalf i.val 2 h, c.z + signedHalf i.val 4 h⟩ ∧
          ExactTree n (c.add (childOffset h i.val)) (Float32.mul h (1 / 2))

/-- The exactness of a geometry can be checked by computing it. -/
def decExactTree : (n : Nat) → (c : Vec3) → (h : ℚ) → Decidable (ExactTree n c h)
  | 0, c, h => by unfold ExactTree; infer_instance
  | n + 1, c, h => by
    unfold ExactTree
    have := fun i : Fin 8 => decExactTree n (c.add (childOffset h i.val)) (Float32.mul h (1 / 2))
    infer_instance

instance (n : Nat) (c : Vec3) (h : ℚ) : Decidable (ExactTree n c h) := decExactTree n c h

/-- Every object stored below a node lies in that node's cube, at every node. -/
def Bounded : Octree → Prop
  | null => True
  | node c h d m objs ch =>
    (∀ o ∈ allObjects (node c h d m objs ch), inCube c h o.position) ∧ ∀ i, Bounded (ch i)

/-- The object is stored in the tree at the end of a path of nodes whose cubes
all contain its position. -/
def Located : Octree → SceneObject → Prop
  | null, _ => False
  | node c h _ _ objs ch, o => inCube c h o.position ∧ (o ∈ objs ∨ ∃ i, Located (ch i) o)

/-- The linear scan that the octree replaces: the ids of the objects of a
flat list whose position lies in the closed box, in list order. -/
def linearScan (objs : List SceneObject) (min max : Vec3) : List Int :=
  (objs.filter (fun o => decide (inBox min max o.position))).map (fun o => o.id)

/-- The flat list of registered objects after a sequence of calls: `insert`
appends the object, `remove` deletes every object with the id. -/
def linearModel (ops : List Op) : List SceneObject :=
  ops.foldl (fun l op =>
    match op with
    | Op.insert obj => l ++ [obj]
    | Op.remove objectId => l.filter (fun o => !decide (o.id = objectId))) []

/-- How many objects with the given id were inserted after the last `remove`
of that id in the sequence of calls. -/
def insertedAfterLastRemove (ops : List Op) (id : Int) : Nat :=
  ops.foldl (fun n op =>
    match op with
    | Op.insert obj => if obj.id = id then n + 1 else n
    | Op.remove objectId => if objectId = id then 0 else n) 0

end Octree

/-! ## Facts about `float` rounding -/

namespace Float32

theorem roundHalfEven_intCast (n : ℤ) : roundHalfEven (n : ℚ) = n := by
  simp [roundHalfEven]

theorem roundHalfEven_of_lt (z : ℚ) (n : ℤ) (h1 : (n : ℚ) - 1 / 2 < z) (h2 : z < n + 1 / 2) :
    roundHalfEven z = n := by
  unfold roundHalfEven
  by_cases hz : (n : ℚ) ≤ z
  · have hf : ⌊z⌋ = n := Int.floor_eq_iff.2 ⟨hz, by linarith⟩
    simp only [hf]
    rw [if_pos (by linarith)]
  · have hz2 : z < n := lt_of_not_le hz
    have hf : ⌊z⌋ = n - 1 := Int.floor_eq_iff.2 ⟨by push_cast; linarith, by push_cast; linarith⟩
    simp only [hf]
    push_cast
    rw [if_neg (by linarith), if_pos (by linarith)]
    ring

theorem roundHalfEven_tie_lo (z : ℚ) (n : ℤ) (hz : z = n + 1 / 2) (he : n % 2 = 0) :
    roundHalfEven z = n := by
  unfold roundHalfEven
  have hf : ⌊z⌋ = n := Int.floor_eq_iff.2 ⟨by linarith, by linarith⟩
  simp only [hf]
  rw [if_neg (by linarith), if_neg (by linarith), if_pos he]

theorem roundHalfEven_tie_hi (z : ℚ) (n : ℤ) (hz : z = n - 1 / 2) (he : n % 2 = 0) :
    roundHalfEven z = n := by
  unfold roundHalfEven
  have hf : ⌊z⌋ = n - 1 := Int.floor_eq_iff.2 ⟨by push_cast; linarith, by push_cast; linarith⟩
  simp only [hf]
  push_cast
  have ho : ¬ (n - 1) % 2 = 0 := by omega
  rw [if_neg (by linarith), if_neg (by linarith), if_neg ho]
  ring

theorem ulpExp_of_bounds (x : ℚ) (L : ℤ) (h1 : (2 : ℚ) ^ L ≤ |x|) (h2 : |x| < 2 ^ (L + 1)) :
    ulpExp x = max L (-126) - 23 := by
  have hpos : 0 < |x| := lt_of_lt_of_le (by positivity) h1
  have hL : Int.log 2 |x| = L := by
    apply le_antisymm
    · have := (Int.lt_zpow_iff_log_lt (by norm_num : 1 < 2) hpos).1 (by exact_mod_cast h2)
      omega
    · exact (Int.zpow_le_iff_le_log (by norm_num : 1 < 2) hpos).1 (by exact_mod_cast h1)
  simp [ulpExp, hL]

/-- Evaluation of `round` at a value whose binade is known. -/
theorem round_eq (x : ℚ) (L n : ℤ) (h1 : (2 : ℚ) ^ L ≤ |x|) (h2 : |x| < 2 ^ (L + 1))
    (hn : roundHalfEven (x / 2 ^ (max L (-126) - 23)) = n) :
    round x = n * 2 ^ (max L (-126) - 23) := by
  unfold round
  rw [ulpExp_of_bounds x L h1 h2, hn]

theorem round_zero : round 0 = 0 := by
  simp [round, roundHalfEven]

/-- A multiple of `2^e` (with `e` at least the exponent of the smallest subnormal)
below `2^(e+24)` in absolute value is a binary32 value: rounding returns it. -/
theorem round_of_grid (x : ℚ) (e k : ℤ) (he : -149 ≤ e) (hx : x = k * 2 ^ e)
    (hlt : |x| < 2 ^ (e + 24)) : round x = x := by
  by_cases h0 : x = 0
  · rw [h0, round_zero]
  have hpos : 0 < |x| := abs_pos.2 h0
  have hL : Int.log 2 |x| < e + 24 :=
    (Int.lt_zpow_iff_log_lt (by norm_num : 1 < 2) hpos).1 (by exact_mod_cast hlt)
  have hE : ulpExp x ≤ e := by
    unfold ulpExp
    rcases max_cases (Int.log 2 |x|) (-126) with ⟨h, _⟩ | ⟨h, _⟩ <;> rw [h] <;> omega
  obtain ⟨j, hj⟩ : ∃ j : ℕ, e = ulpExp x + j := ⟨(e - ulpExp x).toNat, by omega⟩
  have h2 : (2 : ℚ) ^ ulpExp x ≠ 0 := by positivity
  have hdiv : x / 2 ^ ulpExp x = ((k * 2 ^ j : ℤ) : ℚ) := by
    rw [div_eq_iff h2]
    conv_lhs => rw [hx, hj]
    rw [zpow_add₀ (by norm_num : (2 : ℚ) ≠ 0)]
    push_cast
    rw [zpow_natCast]
    ring
  unfold round
  rw [hdiv, roundHalfEven_intCast, ← hdiv, div_mul_cancel₀ _ h2]

/-- A multiple of a coarser grid is a multiple of a finer one. -/
theorem grid_refine (x : ℚ) (e : ℤ) (n : ℕ) (k : ℤ) (hx : x = k * 2 ^ (e + n)) :
    x = ((k * 2 ^ n : ℤ) : ℚ) * 2 ^ e := by
  rw [hx, zpow_add₀ (by norm_num : (2 : ℚ) ≠ 0), zpow_natCast]
  push_cast
  ring

theorem add_of_grid (a b : ℚ) (e ka kb : ℤ) (he : -149 ≤ e) (ha : a = ka * 2 ^ e)
    (hb : b = kb * 2 ^ e) (hlt : |a + b| < 2 ^ (e + 24)) : add a b = a + b :=
  round_of_grid (a + b) e (ka + kb) he (by rw [ha, hb]; push_cast; ring) hlt

theorem sub_of_grid (a b : ℚ) (e ka kb : ℤ) (he : -149 ≤ e) (ha : a = ka * 2 ^ e)
    (hb : b = kb * 2 ^ e) (hlt : |a - b| < 2 ^ (e + 24)) : sub a b = a - b :=
  round_of_grid (a - b) e (ka - kb) he (by rw [ha, hb]; push_cast; ring) hlt

end Float32

/-! ## Geometries that are computed without rounding -/

namespace Octree

theorem abs_signedHalf (i bit : Nat) (h : ℚ) : |signedHalf i bit h| = |h| / 2 := by
  unfold signedHalf
  split_ifs
  · rw [one_mul, abs_div]; norm_num
  · rw [neg_one_mul, abs_div, abs_neg]; norm_num

theorem signedHalf_grid (i bit : Nat) (h : ℚ) (e : ℤ) (k : ℤ) (hh : h = k * 2 ^ (e + 1)) :
    ∃ j : ℤ, signedHalf i bit h = j * 2 ^ e := by
  have h2 : h / 2 = k * 2 ^ e := by
    rw [hh, zpow_add_one₀ (by norm_num : (2 : ℚ) ≠ 0)]; ring
  unfold signedHalf
  split_ifs
  · exact ⟨k, by rw [one_mul, h2]⟩
  · exact ⟨-k, by rw [neg_one_mul, neg_div, h2]; push_cast; ring⟩

/-- The product `±0.5f * halfSize` is exact when `halfSize / 2` is a binary32 value. -/
theorem offset_of_grid (i bit : Nat) (h : ℚ) (e : ℤ) (k : ℤ) (he : -149 ≤ e)
    (hh : h = k * 2 ^ (e + 1)) (hlt : |h| < 2 ^ (e + 24)) :
    Float32.mul (if i &&& bit ≠ 0 then (1 / 2 : ℚ) else -(1 / 2 : ℚ)) h = signedHalf i bit h := by
  obtain ⟨j, hj⟩ := signedHalf_grid i bit h e k hh
  have hval : (if i &&& bit ≠ 0 then (1 / 2 : ℚ) else -(1 / 2 : ℚ)) * h = signedHalf i bit h := by
    unfold signedHalf
    split_ifs <;> ring
  unfold Float32.mul
  rw [hval]
  refine Float32.round_of_grid _ e j he hj ?_
  rw [abs_signedHalf]
  have := abs_nonneg h
  linarith

theorem half_of_grid (h : ℚ) (e : ℤ) (k : ℤ) (he : -149 ≤ e)
    (hh : h = k * 2 ^ (e + 1)) (hlt : |h| < 2 ^ (e + 24)) :
    Float32.mul h (1 / 2) = h / 2 := by
  unfold Float32.mul
  have hval : h * (1 / 2) = h / 2 := by ring
  rw [hval]
  refine Float32.round_of_grid _ e k he ?_ ?_
  · rw [hh, zpow_add_one₀ (by norm_num : (2 : ℚ) ≠ 0)]; ring
  · rw [abs_div]
    have := abs_nonneg h
    norm_num
    linarith

theorem exactBounds_of_grid (c : Vec3) (h : ℚ) (e : ℤ) (he : -149 ≤ e)
    (hx : ∃ k : ℤ, c.x = k * 2 ^ e) (hy : ∃ k : ℤ, c.y = k * 2 ^ e)
    (hz : ∃ k : ℤ, c.z = k * 2 ^ e) (hh : ∃ k : ℤ, h = k * 2 ^ e)
    (bx : |c.x| + |h| < 2 ^ (e + 24)) (by1 : |c.y| + |h| < 2 ^ (e + 24))
    (bz : |c.z| + |h| < 2 ^ (e + 24)) : ExactBounds c h := by
  obtain ⟨kx, hx⟩ := hx
  obtain ⟨ky, hy⟩ := hy
  obtain ⟨kz, hz⟩ := hz
  obtain ⟨kh, hh⟩ := hh
  have hs : ∀ a : ℚ, |a - h| ≤ |a| + |h| := fun a => abs_sub a h
  have ha : ∀ a : ℚ, |a + h| ≤ |a| + |h| := fun a => abs_add a h
  unfold ExactBounds
  simp only [Vec3.sub, Vec3.add, Vec3.splat]
  rw [Float32.sub_of_grid c.x h e kx kh he hx hh (lt_of_le_of_lt (hs _) bx),
    Float32.sub_of_grid c.y h e ky kh he hy hh (lt_of_le_of_lt (hs _) by1),
    Float32.sub_of_grid c.z h e kz kh he hz hh (lt_of_le_of_lt (hs _) bz),
    Float32.add_of_grid c.x h e kx kh he hx hh (lt_of_le_of_lt (ha _) bx),
    Float32.add_of_grid c.y h e ky kh he hy hh (lt_of_le_of_lt (ha _) by1),
    Float32.add_of_grid c.z h e kz kh he hz hh (lt_of_le_of_lt (ha _) bz)]
  exact ⟨rfl, rfl⟩

theorem inRange_of_lt (c : Vec3) (h : ℚ) (e : ℤ) (he : e ≤ 104)
    (bx : |c.x| + |h| < 2 ^ (e + 24)) (by1 : |c.y| + |h| < 2 ^ (e + 24))
    (bz : |c.z| + |h| < 2 ^ (e + 24)) : InRange c h := by
  have hmono : (2 : ℚ) ^ (e + 24) ≤ 2 ^ (128 : ℤ) :=
    zpow_le_zpow_right₀ (by norm_num) (by omega)
  have h128 : (2 : ℚ) ^ (128 : ℤ) = 2 ^ 128 := by norm_cast
  rw [h128] at hmono
  exact ⟨lt_of_lt_of_le bx hmono, lt_of_lt_of_le by1 hmono, lt_of_lt_of_le bz hmono⟩

/-- A sufficient condition for exactness: the center's coordinates are multiples
of `2^e`, the half size is a multiple of `2^(e+n)`, and `|center| + |halfSize|`
stays below `2^(e+24)` on each axis, with `2^e` at least the smallest subnormal
and `2^(e+24)` at most `2^128`. -/
theorem exactTree_of_grid : ∀ (n : ℕ) (e : ℤ) (c : Vec3) (h : ℚ), -149 ≤ e → e ≤ 104 →
    (∃ k : ℤ, c.x = k * 2 ^ e) → (∃ k : ℤ, c.y = k * 2 ^ e) → (∃ k : ℤ, c.z = k * 2 ^ e) →
    (∃ k : ℤ, h = k * 2 ^ (e + n)) →
    |c.x| + |h| < 2 ^ (e + 24) → |c.y| + |h| < 2 ^ (e + 24) → |c.z| + |h| < 2 ^ (e + 24) →
    ExactTree n c h := by
  intro n
  induction n with
  | zero =>
    intro e c h he he2 hx hy hz hh bx by1 bz
    rw [ExactTree]
    refine ⟨exactBounds_of_grid c h e he hx hy hz ?_ bx by1 bz,
      inRange_of_lt c h e he2 bx by1 bz⟩
    simpa using hh
  | succ n ih =>
    intro e c h he he2 hx hy hz hh bx by1 bz
    obtain ⟨kh, hkh⟩ := hh
    have hfine : h = ((kh * 2 ^ (n + 1) : ℤ) : ℚ) * 2 ^ e :=
      Float32.grid_refine h e (n + 1) kh (by simpa using hkh)
    have hkh2 : h = kh * 2 ^ (e + n + 1) := by
      rw [hkh]; congr 2; push_cast; ring
    have hmono : (2 : ℚ) ^ (e + 24) ≤ 2 ^ (e + n + 24) :=
      zpow_le_zpow_right₀ (by norm_num) (by omega)
    have hhlt : |h| < 2 ^ (e + n + 24) := by
      have := abs_nonneg c.x
      linarith
    have hhalf : Float32.mul h (1 / 2) = h / 2 :=
      half_of_grid h (e + n) kh (by omega) hkh2 hhlt
    have hoff : ∀ i bit : Nat,
        Float32.mul (if i &&& bit ≠ 0 then (1 / 2 : ℚ) else -(1 / 2 : ℚ)) h =
          signedHalf i bit h :=
      fun i bit => offset_of_grid i bit h (e + n) kh (by omega) hkh2 hhlt
    have hsg : ∀ i bit : Nat, ∃ j : ℤ, signedHalf i bit h = j * 2 ^ e := by
      intro i bit
      obtain ⟨j, hj⟩ := signedHalf_grid i bit h (e + n) kh hkh2
      exact ⟨j * 2 ^ n, by rw [hj]; exact Float32.grid_refine _ e n j rfl⟩
    have hadd : ∀ (a : ℚ) (i bit : Nat), (∃ k : ℤ, a = k * 2 ^ e) → |a| + |h| < 2 ^ (e + 24) →
        Float32.add a (signedHalf i bit h) = a + signedHalf i bit h ∧
          (∃ k : ℤ, a + signedHalf i bit h = k * 2 ^ e) ∧
          |a + signedHalf i bit h| + |h / 2| < 2 ^ (e + 24) := by
      intro a i bit hka hb
      obtain ⟨ka, hka⟩ := hka
      obtain ⟨j, hj⟩ := hsg i bit
      have habs := abs_add a (signedHalf i bit h)
      rw [abs_signedHalf] at habs
      have hnn := abs_nonneg h
      have hh2 : |h / 2| = |h| / 2 := by rw [abs_div]; norm_num
      refine ⟨Float32.add_of_grid a _ e ka j he hka hj (by linarith), ⟨ka + j, ?_⟩, ?_⟩
      · rw [hka, hj]; push_cast; ring
      · rw [hh2]; linarith
    rw [ExactTree]
    refine ⟨exactBounds_of_grid c h e he hx hy hz ⟨_, hfine⟩ bx by1 bz,
      inRange_of_lt c h e he2 bx by1 bz, hhalf, ?_⟩
    intro i
    obtain ⟨ax, gx, lx⟩ := hadd c.x i.val 1 hx bx
    obtain ⟨ay, gy, ly⟩ := hadd c.y i.val 2 hy by1
    obtain ⟨az, gz, lz⟩ := hadd c.z i.val 4 hz bz
    have hcenter : c.add (childOffset h i.val) =
        ⟨c.x + signedHalf i.val 1 h, c.y + signedHalf i.val 2 h, c.z + signedHalf i.val 4 h⟩ := by
      simp only [Vec3.add, childOffset, hoff, ax, ay, az]
    refine ⟨hcenter, ?_⟩
    rw [hcenter, hhalf]
    refine ih e _ _ he he2 gx gy gz ⟨kh, ?_⟩ lx ly lz
    rw [hkh2, zpow_add_one₀ (by norm_num : (2 : ℚ) ≠ 0)]; ring

/-- The root the scene manager constructs, center `(0,0,0)`, half size `10`,
with five levels below it, is computed without rounding. -/
theorem exactTree_scene : ExactTree 5 ⟨0, 0, 0⟩ 10 := by
  refine exactTree_of_grid 5 (-4) ⟨0, 0, 0⟩ 10 (by norm_num) (by norm_num) ⟨0, by simp⟩ ⟨0, by simp⟩
    ⟨0, by simp⟩ ⟨5, by norm_num⟩ ?_ ?_ ?_ <;> norm_num

theorem exactTree_scene_root : ExactTree ((5 : Int) - 0).toNat ⟨0, 0, 0⟩ 10 :=
  exactTree_scene

theorem exactTree_bounds {n : ℕ} {c : Vec3} {h : ℚ} (hex : ExactTree n c h) : ExactBounds c h := by
  cases n with
  | zero => rw [ExactTree] at hex; exact hex.1
  | succ n => rw [ExactTree] at hex; exact hex.1

theorem exactTree_child {n : ℕ} {c : Vec3} {h : ℚ} (hex : ExactTree (n + 1) c h) (i : Fin 8) :
    ExactTree n (c.add (childOffset h i.val)) (Float32.mul h (1 / 2)) := by
  rw [ExactTree] at hex
  exact (hex.2.2.2 i).2

/-- With exact bounds, the cube of a node is the set of positions within
`halfSize` of the center on each axis. -/
theorem inCube_iff {c : Vec3} {h : ℚ} (hex : ExactBounds c h) (p : Vec3) :
    inCube c h p ↔
      c.x - h ≤ p.x ∧ p.x ≤ c.x + h ∧ c.y - h ≤ p.y ∧ p.y ≤ c.y + h ∧
        c.z - h ≤ p.z ∧ p.z ≤ c.z + h := by
  unfold inCube
  rw [hex.1, hex.2]
  simp only [inBox, ge_iff_le]

/-- The cube of the scene manager's root is `[-10, 10]` on each axis. -/
theorem inCube_scene (p : Vec3) :
    inCube ⟨0, 0, 0⟩ 10 p ↔
      -10 ≤ p.x ∧ p.x ≤ 10 ∧ -10 ≤ p.y ∧ p.y ≤ 10 ∧ -10 ≤ p.z ∧ p.z ≤ 10 := by
  rw [inCube_iff (exactTree_bounds exactTree_scene)]
  norm_num

theorem outside_iff {c : Vec3} {h : ℚ} (hex : ExactBounds c h) (min max : Vec3) :
    outside c h min max ↔
      c.x + h < min.x ∨ c.x - h > max.x ∨ c.y + h < min.y ∨ c.y - h > max.y ∨
        c.z + h < min.z ∨ c.z - h > max.z := by
  unfold outside
  simp only [hex.1, hex.2]

end Octree

/-! ## Basic facts about the operations -/

namespace Octree

theorem foldl_hits (min max : Vec3) (objs : List SceneObject) (results : List Int) :
    objs.foldl (fun r obj => if inBox min max obj.position then r ++ [obj.id] else r) results
      = results ++ linearScan objs min max := by
  induction objs generalizing results with
  | nil => simp [linearScan]
  | cons o objs ih =>
    simp only [List.foldl_cons, ih]
    by_cases hb : inBox min max o.position
    · simp [linearScan, hb]
    · simp [linearScan, hb]

theorem foldl_children (f : Fin 8 → List Int → List Int)
    (hf : ∀ i r, f i r = r ++ f i []) (l : List (Fin 8)) (results : List Int) :
    l.foldl (fun r i => f i r) results = results ++ (l.map (fun i => f i [])).flatten := by
  induction l generalizing results with
  | nil => simp
  | cons a l ih =>
    simp only [List.foldl_cons, List.map_cons, List.flatten_cons]
    rw [ih, hf a results, List.append_assoc]

/-- The results passed in are kept, in front of what the call appends. -/
theorem query_append (t : Octree) (min max : Vec3) (results : List Int) :
    query t min max results = results ++ query t min max [] := by
  induction t generalizing results with
  | null => simp [query]
  | node c h d m objs ch ih =>
    simp only [query]
    by_cases ho : outside c h min max
    · simp [ho]
    · simp only [ho, if_false]
      rw [foldl_children (fun i r => query (ch i) min max r) (fun i r => ih i r),
        foldl_children (fun i r => query (ch i) min max r) (fun i r => ih i r),
        foldl_hits, foldl_hits]
      simp

/-- What a call on a node appends: nothing when the cube misses the box,
otherwise the hits among its own objects followed by the children's results
in slot order. -/
theorem query_node (c : Vec3) (h : ℚ) (d m : Int) (objs : List SceneObject)
    (ch : Fin 8 → Octree) (min max : Vec3) :
    query (node c h d m objs ch) min max [] =
      if outside c h min max then []
      else linearScan objs min max ++
        ((List.finRange 8).map (fun i => query (ch i) min max [])).flatten := by
  simp only [query]
  by_cases ho : outside c h min max
  · simp [ho]
  · simp only [ho, if_false]
    rw [foldl_children (fun i r => query (ch i) min max r) (fun i r => query_append _ _ _ r),
      foldl_hits]
    simp

theorem mem_linearScan {objs : List SceneObject} {min max : Vec3} {id : Int} :
    id ∈ linearScan objs min max ↔ ∃ o ∈ objs, inBox min max o.position ∧ o.id = id := by
  simp [linearScan, and_assoc]

theorem mem_allObjects_node {c : Vec3} {h : ℚ} {d m : Int} {objs : List SceneObject}
    {ch : Fin 8 → Octree} {o : SceneObject} :
    o ∈ allObjects (node c h d m objs ch) ↔ o ∈ objs ∨ ∃ i, o ∈ allObjects (ch i) := by
  simp [allObjects]

theorem mem_query_node {c : Vec3} {h : ℚ} {d m : Int} {objs : List SceneObject}
    {ch : Fin 8 → Octree} {min max : Vec3} {id : Int} :
    id ∈ query (node c h d m objs ch) min max [] ↔
      ¬ outside c h min max ∧
        (id ∈ linearScan objs min max ∨ ∃ i, id ∈ query (ch i) min max []) := by
  rw [query_node]
  by_cases ho : outside c h min max
  · simp [ho]
  · simp [ho]

/-- Every id a query yields belongs to a stored object inside the box. -/
theorem mem_query_sound (t : Octree) (min max : Vec3) (id : Int)
    (hid : id ∈ query t min max []) :
    ∃ o ∈ allObjects t, o.id = id ∧ inBox min max o.position := by
  induction t with
  | null => simp [query] at hid
  | node c h d m objs ch ih =>
    rcases mem_query_node.1 hid with ⟨_, hown | ⟨i, hi⟩⟩
    · obtain ⟨o, ho, hb, hoid⟩ := mem_linearScan.1 hown
      exact ⟨o, mem_allObjects_node.2 (Or.inl ho), hoid, hb⟩
    · obtain ⟨o, ho, hoid, hb⟩ := ih i hi
      exact ⟨o, mem_allObjects_node.2 (Or.inr ⟨i, ho⟩), hoid, hb⟩

end Octree

/-! ## Removal -/

namespace Octree

theorem linearScan_filter (objs : List SceneObject) (min max : Vec3) (p : Int → Bool) :
    linearScan (objs.filter (fun o => p o.id)) min max = (linearScan objs min max).filter p := by
  simp only [linearScan, List.filter_map, List.filter_filter]
  congr 2
  funext o
  simp [Bool.and_comm]

theorem remove_node (c : Vec3) (h : ℚ) (d m : Int) (objs : List SceneObject)
    (ch : Fin 8 → Octree) (objectId : Int) :
    remove (node c h d m objs ch) objectId =
      node c h d m (objs.filter (fun o => !decide (o.id = objectId)))
        (fun i => remove (ch i) objectId) := by
  simp [remove]

/-- A query after `remove` yields what it yielded before without the removed id. -/
theorem query_remove (t : Octree) (objectId : Int) (min max : Vec3) :
    query (remove t objectId) min max [] =
      (query t min max []).filter (fun i => !decide (i = objectId)) := by
  induction t with
  | null => simp [remove, query]
  | node c h d m objs ch ih =>
    rw [remove_node, query_node, query_node]
    by_cases ho : outside c h min max
    · simp [ho]
    · simp only [ho, if_false, List.filter_append, List.filter_flatten, List.map_map]
      rw [linearScan_filter objs min max (fun i => !decide (i = objectId))]
      congr 2
      apply List.map_congr_left
      intro i _
      simp [ih i]

theorem allObjects_remove (t : Octree) (objectId : Int) :
    allObjects (remove t objectId) =
      (allObjects t).filter (fun o => !decide (o.id = objectId)) := by
  induction t with
  | null => simp [remove, allObjects]
  | node c h d m objs ch ih =>
    rw [remove_node]
    simp only [allObjects, List.filter_append, List.filter_flatten, List.map_map]
    congr 2
    apply List.map_congr_left
    intro i _
    simp [ih i]

/-- Removing an id that no stored object carries changes nothing. -/
theorem remove_absent (t : Octree) (objectId : Int)
    (habs : ∀ o ∈ allObjects t, o.id ≠ objectId) : remove t objectId = t := by
  induction t with
  | null => simp [remove]
  | node c h d m objs ch ih =>
    rw [remove_node]
    have hobjs : objs.filter (fun o => !decide (o.id = objectId)) = objs := by
      rw [List.filter_eq_self]
      intro o ho
      simpa using habs o (mem_allObjects_node.2 (Or.inl ho))
    have hch : (fun i => remove (ch i) objectId) = ch := by
      funext i
      exact ih i (fun o ho => habs o (mem_allObjects_node.2 (Or.inr ⟨i, ho⟩)))
    rw [hobjs, hch]

end Octree

/-! ## Insertion -/

namespace Octree

theorem getChildIndex_cases (c p : Vec3) :
    getChildIndex c p =
      (if p.x > c.x then 1 else 0) + (if p.y > c.y then 2 else 0) + (if p.z > c.z then 4 else 0) := by
  unfold getChildIndex
  by_cases hx : p.x > c.x <;> by_cases hy : p.y > c.y <;> by_cases hz : p.z > c.z <;>
    simp [hx, hy, hz]

theorem getChildIndex_lt (c p : Vec3) : getChildIndex c p < 8 := by
  rw [getChildIndex_cases]
  split_ifs <;> omega

theorem getChildIndex_bit1 (c p : Vec3) : getChildIndex c p &&& 1 ≠ 0 ↔ p.x > c.x := by
  unfold getChildIndex
  by_cases hx : p.x > c.x <;> by_cases hy : p.y > c.y <;> by_cases hz : p.z > c.z <;>
    simp [hx, hy, hz]

theorem getChildIndex_bit2 (c p : Vec3) : getChildIndex c p &&& 2 ≠ 0 ↔ p.y > c.y := by
  unfold getChildIndex
  by_cases hx : p.x > c.x <;> by_cases hy : p.y > c.y <;> by_cases hz : p.z > c.z <;>
    simp [hx, hy, hz] <;> decide

theorem getChildIndex_bit4 (c p : Vec3) : getChildIndex c p &&& 4 ≠ 0 ↔ p.z > c.z := by
  unfold getChildIndex
  by_cases hx : p.x > c.x <;> by_cases hy : p.y > c.y <;> by_cases hz : p.z > c.z <;>
    simp [hx, hy, hz] <;> decide

/-- The slot `insert` routes a position to, as an index of the child array. -/
def slot (c p : Vec3) : Fin 8 := ⟨getChildIndex c p, getChildIndex_lt c p⟩

/-- The node `insert` descends into: the child in the slot, or the one it
creates there when the slot is empty. -/
def target (c : Vec3) (h : ℚ) (d m : Int) (ch : Fin 8 → Octree) (p : Vec3) : Octree :=
  match ch (slot c p) with
  | null => newChild c h d m (getChildIndex c p)
  | t => t

theorem insert_null (obj : SceneObject) : insert null obj = null := by
  rw [insert]

theorem insert_leaf (c : Vec3) (h : ℚ) (d m : Int) (objs : List SceneObject)
    (ch : Fin 8 → Octree) (obj : SceneObject) (hd : d ≥ m) :
    insert (node c h d m objs ch) obj = node c h d m (objs ++ [obj]) ch := by
  rw [insert]
  simp [isLeaf, hd]

theorem insert_inner (c : Vec3) (h : ℚ) (d m : Int) (objs : List SceneObject)
    (ch : Fin 8 → Octree) (obj : SceneObject) (hd : d < m) :
    insert (node c h d m objs ch) obj =
      node c h d m objs
        (Function.update ch (slot c obj.position) (insert (target c h d m ch obj.position) obj)) := by
  rw [insert]
  have hnl : ¬ (m ≤ d) := not_le.2 hd
  simp only [isLeaf, ge_iff_le, hnl, decide_False, Bool.false_eq_true, if_false,
    getChildIndex_lt, dite_true]
  rfl

end Octree

namespace Octree

/-- Induction along the path `insert` follows for a given object. -/
theorem insert_induction (obj : SceneObject) (motive : Octree → Prop)
    (hnull : motive null)
    (hleaf : ∀ c h d m objs ch, d ≥ m → motive (node c h d m objs ch))
    (hinner : ∀ c h d m objs ch, d < m → motive (target c h d m ch obj.position) →
      motive (node c h d m objs ch)) :
    ∀ t, motive t := by
  intro t
  induction t, obj using insert.induct with
  | case1 obj => exact hnull
  | case2 obj c h d m objs ch hd =>
    exact hleaf c h d m objs ch (by simpa [isLeaf] using hd)
  | case3 obj c h d m objs ch hd idx hidx child ih =>
    exact hinner c h d m objs ch (by simpa [isLeaf] using hd) (ih hinner)
  | case4 obj c h d m objs ch hd idx hidx =>
    exact absurd (getChildIndex_lt c obj.position) hidx

theorem target_cases (c : Vec3) (h : ℚ) (d m : Int) (ch : Fin 8 → Octree) (p : Vec3) :
    (ch (slot c p) = null ∧ target c h d m ch p = newChild c h d m (getChildIndex c p)) ∨
      (ch (slot c p) ≠ null ∧ target c h d m ch p = ch (slot c p)) := by
  unfold target
  cases hc : ch (slot c p) with
  | null => exact Or.inl ⟨rfl, rfl⟩
  | node c2 h2 d2 m2 o2 ch2 => exact Or.inr ⟨by simp, rfl⟩

theorem target_ne_null (c : Vec3) (h : ℚ) (d m : Int) (ch : Fin 8 → Octree) (p : Vec3) :
    target c h d m ch p ≠ null := by
  rcases target_cases c h d m ch p with ⟨_, ht⟩ | ⟨hn, ht⟩
  · rw [ht]; simp [newChild, ctor]
  · rw [ht]; exact hn

theorem allObjects_target (c : Vec3) (h : ℚ) (d m : Int) (ch : Fin 8 → Octree) (p : Vec3) :
    allObjects (target c h d m ch p) = allObjects (ch (slot c p)) := by
  rcases target_cases c h d m ch p with ⟨hn, ht⟩ | ⟨_, ht⟩
  · rw [ht, hn]; simp [newChild, ctor, allObjects]
  · rw [ht]

theorem insert_ne_null (t : Octree) (obj : SceneObject) (ht : t ≠ null) :
    insert t obj ≠ null := by
  cases t with
  | null => exact absurd rfl ht
  | node c h d m objs ch =>
    by_cases hd : d ≥ m
    · rw [insert_leaf _ _ _ _ _ _ _ hd]; simp
    · rw [insert_inner _ _ _ _ _ _ _ (not_le.1 hd)]; simp

theorem remove_ne_null (t : Octree) (objectId : Int) (ht : t ≠ null) :
    remove t objectId ≠ null := by
  cases t with
  | null => exact absurd rfl ht
  | node c h d m objs ch => rw [remove_node]; simp

theorem perm_flatten_update {α β : Type} (g : β → List α) (ch : Fin 8 → β) (i : Fin 8)
    (new : β) (x : α) (hnew : (g new).Perm (x :: g (ch i))) (l : List (Fin 8))
    (hl : l.Nodup) (hi : i ∈ l) :
    ((l.map (fun j => g (Function.update ch i new j))).flatten).Perm
      (x :: (l.map (fun j => g (ch j))).flatten) := by
  induction l with
  | nil => simp at hi
  | cons a l ih =>
    have hnd := List.nodup_cons.1 hl
    simp only [List.map_cons, List.flatten_cons]
    by_cases ha : a = i
    · subst ha
      have hrest : l.map (fun j => g (Function.update ch a new j)) = l.map (fun j => g (ch j)) := by
        apply List.map_congr_left
        intro j hj
        have hja : j ≠ a := fun e => hnd.1 (e ▸ hj)
        simp [Function.update_noteq hja]
      rw [hrest, Function.update_same]
      exact (hnew.append_right _)
    · have hil : i ∈ l := by
        rcases List.mem_cons.1 hi with e | e
        · exact absurd e.symm ha
        · exact e
      rw [Function.update_noteq ha]
      exact ((ih hnd.2 hil).append_left _).trans List.perm_middle

/-- The objects stored after `insert` are the ones stored before plus the new one. -/
theorem allObjects_insert (obj : SceneObject) (t : Octree) (ht : t ≠ null) :
    (allObjects (insert t obj)).Perm (obj :: allObjects t) := by
  revert ht
  refine insert_induction obj (fun t => t ≠ null → (allObjects (insert t obj)).Perm (obj :: allObjects t))
    ?_ ?_ ?_ t
  · intro h; exact absurd rfl h
  · intro c h d m objs ch hd _
    rw [insert_leaf _ _ _ _ _ _ _ hd]
    simp only [allObjects, List.append_assoc, List.singleton_append]
    exact List.perm_middle
  · intro c h d m objs ch hd ih _
    rw [insert_inner _ _ _ _ _ _ _ hd]
    have ih2 := ih (target_ne_null _ _ _ _ _ _)
    rw [allObjects_target] at ih2
    simp only [allObjects]
    have := perm_flatten_update allObjects ch (slot c obj.position) _ obj ih2 (List.finRange 8)
      (List.nodup_finRange 8) (List.mem_finRange _)
    exact (this.append_left objs).trans List.perm_middle

end Octree

/-! ## Layout of the trees that `insert` and `remove` build -/

namespace Octree

theorem shaped_node {c : Vec3} {h : ℚ} {d m : Int} {objs : List SceneObject}
    {ch : Fin 8 → Octree} {c0 : Vec3} {h0 : ℚ} {d0 m0 : Int} :
    Shaped (node c h d m objs ch) c0 h0 d0 m0 ↔
      c = c0 ∧ h = h0 ∧ d = d0 ∧ m = m0 ∧ (d ≥ m → ∀ i, ch i = null) ∧
        ∀ i : Fin 8, Shaped (ch i) (c0.add (childOffset h0 i.val)) (Float32.mul h0 (1 / 2)) (d0 + 1) m0 := by
  simp [Shaped]

theorem shaped_ctor (c : Vec3) (h : ℚ) (d m : Int) : Shaped (ctor c h d m) c h d m := by
  simp [ctor, Shaped]

theorem shaped_target {c : Vec3} {h : ℚ} {d m : Int} {ch : Fin 8 → Octree}
    (hch : ∀ i : Fin 8, Shaped (ch i) (c.add (childOffset h i.val)) (Float32.mul h (1 / 2)) (d + 1) m)
    (p : Vec3) :
    Shaped (target c h d m ch p) (c.add (childOffset h (getChildIndex c p)))
      (Float32.mul h (1 / 2)) (d + 1) m := by
  rcases target_cases c h d m ch p with ⟨_, ht⟩ | ⟨_, ht⟩
  · rw [ht]; exact shaped_ctor _ _ _ _
  · rw [ht]; exact hch (slot c p)

/-- The layout survives `insert`. -/
theorem shaped_insert (obj : SceneObject) (t : Octree) :
    ∀ c0 h0 d0 m0, Shaped t c0 h0 d0 m0 → Shaped (insert t obj) c0 h0 d0 m0 := by
  refine insert_induction obj
    (fun t => ∀ c0 h0 d0 m0, Shaped t c0 h0 d0 m0 → Shaped (insert t obj) c0 h0 d0 m0) ?_ ?_ ?_ t
  · intro c0 h0 d0 m0 _
    rw [insert_null]; simp [Shaped]
  · intro c h d m objs ch hd c0 h0 d0 m0 hs
    rw [insert_leaf _ _ _ _ _ _ _ hd]
    exact shaped_node.2 (shaped_node.1 hs)
  · intro c h d m objs ch hd ih c0 h0 d0 m0 hs
    rw [insert_inner _ _ _ _ _ _ _ hd]
    obtain ⟨rfl, rfl, rfl, rfl, _, hch⟩ := shaped_node.1 hs
    refine shaped_node.2 ⟨rfl, rfl, rfl, rfl, fun hge => absurd hd (not_lt.2 hge), ?_⟩
    intro i
    by_cases hi : i = slot c obj.position
    · subst hi
      rw [Function.update_same]
      exact ih _ _ _ _ (shaped_target hch obj.position)
    · rw [Function.update_noteq hi]
      exact hch i

/-- The layout survives `remove`. -/
theorem shaped_remove (objectId : Int) (t : Octree) :
    ∀ c0 h0 d0 m0, Shaped t c0 h0 d0 m0 → Shaped (remove t objectId) c0 h0 d0 m0 := by
  induction t with
  | null => intro c0 h0 d0 m0 _; simp [remove, Shaped]
  | node c h d m objs ch ih =>
    intro c0 h0 d0 m0 hs
    rw [remove_node]
    obtain ⟨rfl, rfl, rfl, rfl, hleaf, hch⟩ := shaped_node.1 hs
    refine shaped_node.2 ⟨rfl, rfl, rfl, rfl, ?_, fun i => ih i _ _ _ _ (hch i)⟩
    intro hge i
    rw [hleaf hge i]; simp [remove]

theorem run_append (t : Octree) (ops : List Op) (op : Op) :
    run t (ops ++ [op]) = step (run t ops) op := by
  simp [run, List.foldl_append]

theorem run_ne_null (t : Octree) (ht : t ≠ null) (ops : List Op) : run t ops ≠ null := by
  induction ops using List.reverseRecOn with
  | nil => simpa [run] using ht
  | append_singleton ops op ih =>
    rw [run_append]
    cases op with
    | insert obj => exact insert_ne_null _ _ ih
    | remove objectId => exact remove_ne_null _ _ ih

/-- Every tree reached from a freshly constructed root has the layout. -/
theorem shaped_run (c : Vec3) (h : ℚ) (d m : Int) (ops : List Op) :
    Shaped (run (ctor c h d m) ops) c h d m := by
  induction ops using List.reverseRecOn with
  | nil => simpa [run] using shaped_ctor c h d m
  | append_singleton ops op ih =>
    rw [run_append]
    cases op with
    | insert obj => exact shaped_insert obj _ _ _ _ _ ih
    | remove objectId => exact shaped_remove objectId _ _ _ _ _ ih

theorem foldr_max_le (f : Fin 8 → Nat) (b : Nat) (hf : ∀ i, f i ≤ b) (l : List (Fin 8)) :
    (l.map f).foldr max 0 ≤ b := by
  induction l with
  | nil => simp
  | cons a l ih =>
    simp only [List.map_cons, List.foldr_cons]
    exact max_le (hf a) ih

/-- A tree with the layout has at most `maxDepth - depth + 1` levels. -/
theorem levels_le_of_shaped (t : Octree) :
    ∀ c0 h0 d0 m0, Shaped t c0 h0 d0 m0 → levels t ≤ (m0 - d0).toNat + 1 := by
  induction t with
  | null => intro c0 h0 d0 m0 _; simp [levels]
  | node c h d m objs ch ih =>
    intro c0 h0 d0 m0 hs
    obtain ⟨rfl, rfl, rfl, rfl, hleaf, hch⟩ := shaped_node.1 hs
    simp only [levels]
    by_cases hd : d ≥ m
    · have : ((List.finRange 8).map (fun i => levels (ch i))).foldr max 0 ≤ 0 := by
        apply foldr_max_le
        intro i
        rw [hleaf hd i]; simp [levels]
      omega
    · have : ((List.finRange 8).map (fun i => levels (ch i))).foldr max 0 ≤ (m - (d + 1)).toNat + 1 := by
        apply foldr_max_le
        intro i
        exact ih i _ _ _ _ (hch i)
      omega

theorem allNodes_node {P : Vec3 → ℚ → Int → Int → List SceneObject → (Fin 8 → Octree) → Prop}
    {c : Vec3} {h : ℚ} {d m : Int} {objs : List SceneObject} {ch : Fin 8 → Octree} :
    AllNodes P (node c h d m objs ch) ↔ P c h d m objs ch ∧ ∀ i, AllNodes P (ch i) := by
  rw [AllNodes]

/-- In a tree with the layout every node carries the root's `maxDepth`, has a
depth from the root's depth up to `maxDepth` (when the root has), and has no
child once its depth has reached `maxDepth`. -/
theorem allNodes_of_shaped (lo : Int) (t : Octree) :
    ∀ c0 h0 d0 m0, Shaped t c0 h0 d0 m0 → lo ≤ d0 → d0 ≤ m0 →
      AllNodes (fun _ _ d m _ ch => m = m0 ∧ lo ≤ d ∧ d ≤ m0 ∧ (d ≥ m → ∀ i, ch i = null)) t := by
  induction t with
  | null => intro c0 h0 d0 m0 _ _ _; simp [AllNodes]
  | node c h d m objs ch ih =>
    intro c0 h0 d0 m0 hs hlo hle
    obtain ⟨rfl, rfl, rfl, rfl, hleaf, hch⟩ := shaped_node.1 hs
    refine allNodes_node.2 ⟨⟨rfl, hlo, hle, hleaf⟩, ?_⟩
    intro i
    by_cases hd : d ≥ m
    · rw [hleaf hd i]; simp [AllNodes]
    · exact ih i _ _ _ _ (hch i) (by omega) (by omega)

end Octree

/-! ## Objects stay inside the cubes of the nodes above them -/

namespace Octree

/-- When the geometry is computed without rounding, a position in the cube of
a node lies in the cube of the octant `getChildIndex` selects for it. -/
theorem inCube_child {n : ℕ} (c : Vec3) (h : ℚ) (p : Vec3) (hex : ExactTree (n + 1) c h)
    (hp : inCube c h p) :
    inCube (c.add (childOffset h (getChildIndex c p))) (Float32.mul h (1 / 2)) p := by
  have hcb := exactTree_bounds (exactTree_child hex (slot c p))
  rw [inCube_iff (exactTree_bounds hex)] at hp
  rw [ExactTree] at hex
  have hcen : c.add (childOffset h (getChildIndex c p)) = _ := (hex.2.2.2 (slot c p)).1
  have hval : (slot c p).val = getChildIndex c p := rfl
  rw [hval] at hcb hcen
  rw [inCube_iff hcb, hcen, hex.2.2.1]
  simp only [signedHalf]
  obtain ⟨h1, h2, h3, h4, h5, h6⟩ := hp
  by_cases hx : p.x > c.x <;> by_cases hy : p.y > c.y <;> by_cases hz : p.z > c.z <;>
    simp only [getChildIndex_bit1, getChildIndex_bit2, getChildIndex_bit4, hx, hy, hz,
      if_true, if_false] <;>
    (simp only [gt_iff_lt, not_lt] at hx hy hz) <;>
    (refine ⟨?_, ?_, ?_, ?_, ?_, ?_⟩ <;> linarith)

theorem toNat_succ_of_lt {d m : Int} (hd : d < m) : (m - d).toNat = (m - (d + 1)).toNat + 1 := by
  omega

theorem not_inBox_of_outside {c : Vec3} {h : ℚ} {min max p : Vec3}
    (ho : outside c h min max) (hp : inCube c h p) : ¬ inBox min max p := by
  simp only [outside, inCube, inBox, Vec3.add, Vec3.sub, Vec3.splat] at ho hp ⊢
  intro hb
  obtain ⟨h1, h2, h3, h4, h5, h6⟩ := hp
  obtain ⟨b1, b2, b3, b4, b5, b6⟩ := hb
  rcases ho with ho | ho | ho | ho | ho | ho <;> linarith

theorem bounded_node {c : Vec3} {h : ℚ} {d m : Int} {objs : List SceneObject}
    {ch : Fin 8 → Octree} :
    Bounded (node c h d m objs ch) ↔
      (∀ o ∈ allObjects (node c h d m objs ch), inCube c h o.position) ∧ ∀ i, Bounded (ch i) := by
  rw [Bounded]

theorem bounded_ctor (c : Vec3) (h : ℚ) (d m : Int) : Bounded (ctor c h d m) := by
  unfold ctor
  refine bounded_node.2 ⟨?_, fun i => by simp [Bounded]⟩
  intro o ho
  rcases mem_allObjects_node.1 ho with ho | ⟨i, ho⟩
  · simp at ho
  · simp [allObjects] at ho

theorem bounded_target {c : Vec3} {h : ℚ} {d m : Int} {ch : Fin 8 → Octree}
    (hch : ∀ i, Bounded (ch i)) (p : Vec3) : Bounded (target c h d m ch p) := by
  rcases target_cases c h d m ch p with ⟨_, ht⟩ | ⟨_, ht⟩
  · rw [ht]; exact bounded_ctor _ _ _ _
  · rw [ht]; exact hch _

/-- Inserting an object that lies in the cube of a node keeps every object
inside the cubes of the nodes above it. -/
theorem bounded_insert (obj : SceneObject) (t : Octree) :
    ∀ c0 h0 d0 m0, Shaped t c0 h0 d0 m0 → ExactTree (m0 - d0).toNat c0 h0 → Bounded t →
      inCube c0 h0 obj.position → Bounded (insert t obj) := by
  refine insert_induction obj
    (fun t => ∀ c0 h0 d0 m0, Shaped t c0 h0 d0 m0 → ExactTree (m0 - d0).toNat c0 h0 →
      Bounded t → inCube c0 h0 obj.position → Bounded (insert t obj)) ?_ ?_ ?_ t
  · intro c0 h0 d0 m0 _ _ _ _
    rw [insert_null]; simp [Bounded]
  · intro c h d m objs ch hd c0 h0 d0 m0 hs _ hb hin
    obtain ⟨rfl, rfl, rfl, rfl, _, _⟩ := shaped_node.1 hs
    have hperm := allObjects_insert obj (node c h d m objs ch) (by simp)
    rw [insert_leaf _ _ _ _ _ _ _ hd] at hperm ⊢
    obtain ⟨hall, hch⟩ := bounded_node.1 hb
    refine bounded_node.2 ⟨?_, hch⟩
    intro o ho
    rcases List.mem_cons.1 (hperm.mem_iff.1 ho) with e | e
    · rw [e]; exact hin
    · exact hall o e
  · intro c h d m objs ch hd ih c0 h0 d0 m0 hs hex hb hin
    obtain ⟨rfl, rfl, rfl, rfl, _, hsch⟩ := shaped_node.1 hs
    rw [toNat_succ_of_lt hd] at hex
    have hperm := allObjects_insert obj (node c h d m objs ch) (by simp)
    rw [insert_inner _ _ _ _ _ _ _ hd] at hperm ⊢
    obtain ⟨hall, hch⟩ := bounded_node.1 hb
    refine bounded_node.2 ⟨?_, ?_⟩
    · intro o ho
      rcases List.mem_cons.1 (hperm.mem_iff.1 ho) with e | e
      · rw [e]; exact hin
      · exact hall o e
    · intro i
      by_cases hi : i = slot c obj.position
      · subst hi
        rw [Function.update_same]
        exact ih _ _ _ _ (shaped_target hsch obj.position)
          (exactTree_child hex (slot c obj.position)) (bounded_target hch obj.position)
          (inCube_child c h obj.position hex hin)
      · rw [Function.update_noteq hi]
        exact hch i

theorem bounded_remove (objectId : Int) (t : Octree) (hb : Bounded t) :
    Bounded (remove t objectId) := by
  induction t with
  | null => simp [remove, Bounded]
  | node c h d m objs ch ih =>
    obtain ⟨hall, hch⟩ := bounded_node.1 hb
    have hobj := allObjects_remove (node c h d m objs ch) objectId
    rw [remove_node] at hobj ⊢
    refine bounded_node.2 ⟨?_, fun i => ih i (hch i)⟩
    intro o ho
    rw [hobj] at ho
    exact hall o (List.mem_filter.1 ho).1

/-- When every inserted position lies in the root's cube, every object of a
reached tree lies inside the cubes of the nodes above it. -/
theorem bounded_run (c : Vec3) (h : ℚ) (d m : Int) (ops : List Op)
    (hex : ExactTree (m - d).toNat c h)
    (hin : ∀ obj, Op.insert obj ∈ ops → inCube c h obj.position) :
    Bounded (run (ctor c h d m) ops) := by
  induction ops using List.reverseRecOn with
  | nil => simpa [run] using bounded_ctor c h d m
  | append_singleton ops op ih =>
    have ih2 := ih (fun obj ho => hin obj (List.mem_append_left _ ho))
    rw [run_append]
    cases op with
    | insert obj =>
      exact bounded_insert obj _ _ _ _ _ (shaped_run c h d m ops) hex ih2
        (hin obj (by simp))
    | remove objectId => exact bounded_remove objectId _ ih2

theorem linearScan_append (l1 l2 : List SceneObject) (min max : Vec3) :
    linearScan (l1 ++ l2) min max = linearScan l1 min max ++ linearScan l2 min max := by
  simp [linearScan]

theorem linearScan_flatten (L : List (List SceneObject)) (min max : Vec3) :
    linearScan L.flatten min max = (L.map (fun l => linearScan l min max)).flatten := by
  simp [linearScan, List.map_flatten, List.filter_flatten, Function.comp_def]

theorem linearScan_eq_nil {objs : List SceneObject} {min max : Vec3}
    (hn : ∀ o ∈ objs, ¬ inBox min max o.position) : linearScan objs min max = [] := by
  simp only [linearScan, List.map_eq_nil_iff, List.filter_eq_nil_iff]
  intro o ho
  simpa using hn o ho

/-- On a tree whose objects lie inside the cubes of the nodes above them, the
pruned traversal yields exactly what a scan of all stored objects yields. -/
theorem query_eq_linearScan (t : Octree) (min max : Vec3) (hb : Bounded t) :
    query t min max [] = linearScan (allObjects t) min max := by
  induction t with
  | null => simp [query, allObjects, linearScan]
  | node c h d m objs ch ih =>
    obtain ⟨hall, hch⟩ := bounded_node.1 hb
    rw [query_node]
    by_cases ho : outside c h min max
    · rw [if_pos ho]
      exact (linearScan_eq_nil (fun o hmem => not_inBox_of_outside ho (hall o hmem))).symm
    · rw [if_neg ho]
      simp only [allObjects, linearScan_append, linearScan_flatten, List.map_map]
      congr 2
      apply List.map_congr_left
      intro i _
      simp [ih i (hch i)]

end Octree

/-! ## The tree against the flat list of registered objects -/

namespace Octree

theorem linearModel_append (ops : List Op) (op : Op) :
    linearModel (ops ++ [op]) =
      match op with
      | Op.insert obj => linearModel ops ++ [obj]
      | Op.remove objectId => (linearModel ops).filter (fun o => !decide (o.id = objectId)) := by
  simp [linearModel, List.foldl_append]

theorem insertedAfterLastRemove_append (ops : List Op) (op : Op) (id : Int) :
    insertedAfterLastRemove (ops ++ [op]) id =
      match op with
      | Op.insert obj =>
        if obj.id = id then insertedAfterLastRemove ops id + 1 else insertedAfterLastRemove ops id
      | Op.remove objectId => if objectId = id then 0 else insertedAfterLastRemove ops id := by
  simp [insertedAfterLastRemove, List.foldl_append]

/-- The objects stored in a reached tree are, up to order, the flat list of
registered objects. -/
theorem allObjects_run (c : Vec3) (h : ℚ) (d m : Int) (ops : List Op) :
    (allObjects (run (ctor c h d m) ops)).Perm (linearModel ops) := by
  induction ops using List.reverseRecOn with
  | nil => simp [run, ctor, allObjects, linearModel]
  | append_singleton ops op ih =>
    rw [run_append, linearModel_append]
    cases op with
    | insert obj =>
      have hne : run (ctor c h d m) ops ≠ null := run_ne_null _ (by simp [ctor]) ops
      refine (allObjects_insert obj _ hne).trans ?_
      exact ((List.Perm.cons obj ih).trans (List.perm_append_singleton obj _).symm)
    | remove objectId =>
      simp only [step]
      rw [allObjects_remove]
      exact ih.filter _

/-- The flat list holds an id as often as it was inserted after its last removal. -/
theorem count_linearModel (ops : List Op) (id : Int) :
    ((linearModel ops).map (fun o => o.id)).count id = insertedAfterLastRemove ops id := by
  induction ops using List.reverseRecOn with
  | nil => simp [linearModel, insertedAfterLastRemove]
  | append_singleton ops op ih =>
    rw [linearModel_append, insertedAfterLastRemove_append]
    cases op with
    | insert obj =>
      by_cases hid : obj.id = id
      · simp [hid, ih]
      · simp [hid, ih, List.count_cons]
    | remove objectId =>
      by_cases hid : objectId = id
      · subst hid
        simp only [if_true]
        rw [List.count_eq_zero]
        simp
      · simp only [hid, if_false]
        rw [← ih]
        have hmap : ((linearModel ops).filter (fun o => !decide (o.id = objectId))).map (fun o => o.id)
            = ((linearModel ops).map (fun o => o.id)).filter (fun i => !decide (i = objectId)) := by
          rw [List.filter_map]; rfl
        rw [hmap]
        exact List.count_filter (by simpa using fun e => hid e.symm)

theorem linearScan_eq_map {objs : List SceneObject} {min max : Vec3}
    (hall : ∀ o ∈ objs, inBox min max o.position) :
    linearScan objs min max = objs.map (fun o => o.id) := by
  unfold linearScan
  rw [List.filter_eq_self.2]
  intro o ho
  simpa using hall o ho

end Octree

/-! ## Objects reachable through cubes that contain them -/

namespace Octree

theorem located_node {c : Vec3} {h : ℚ} {d m : Int} {objs : List SceneObject}
    {ch : Fin 8 → Octree} {o : SceneObject} :
    Located (node c h d m objs ch) o ↔
      inCube c h o.position ∧ (o ∈ objs ∨ ∃ i, Located (ch i) o) := by
  rw [Located]

theorem not_outside_of_mem {c : Vec3} {h : ℚ} {min max p : Vec3}
    (hc : inCube c h p) (hb : inBox min max p) : ¬ outside c h min max :=
  fun ho => not_inBox_of_outside ho hc hb

/-- A located object inside the box is found by the query. -/
theorem mem_query_of_located (t : Octree) (o : SceneObject) (min max : Vec3)
    (hl : Located t o) (hb : inBox min max o.position) : o.id ∈ query t min max [] := by
  induction t with
  | null => simp [Located] at hl
  | node c h d m objs ch ih =>
    obtain ⟨hc, hwhere⟩ := located_node.1 hl
    refine mem_query_node.2 ⟨not_outside_of_mem hc hb, ?_⟩
    rcases hwhere with hown | ⟨i, hi⟩
    · exact Or.inl (mem_linearScan.2 ⟨o, hown, hb, rfl⟩)
    · exact Or.inr ⟨i, ih i hi⟩

/-- An object inserted at a node whose cube contains it is located afterwards. -/
theorem located_insert_self (obj : SceneObject) (t : Octree) :
    ∀ c0 h0 d0 m0, t ≠ null → Shaped t c0 h0 d0 m0 → ExactTree (m0 - d0).toNat c0 h0 →
      inCube c0 h0 obj.position → Located (insert t obj) obj := by
  refine insert_induction obj
    (fun t => ∀ c0 h0 d0 m0, t ≠ null → Shaped t c0 h0 d0 m0 →
      ExactTree (m0 - d0).toNat c0 h0 → inCube c0 h0 obj.position →
      Located (insert t obj) obj) ?_ ?_ ?_ t
  · intro c0 h0 d0 m0 hne _ _ _
    exact absurd rfl hne
  · intro c h d m objs ch hd c0 h0 d0 m0 _ hs _ hin
    obtain ⟨rfl, rfl, rfl, rfl, _, _⟩ := shaped_node.1 hs
    rw [insert_leaf _ _ _ _ _ _ _ hd]
    exact located_node.2 ⟨hin, Or.inl (by simp)⟩
  · intro c h d m objs ch hd ih c0 h0 d0 m0 _ hs hex hin
    obtain ⟨rfl, rfl, rfl, rfl, _, hsch⟩ := shaped_node.1 hs
    rw [toNat_succ_of_lt hd] at hex
    rw [insert_inner _ _ _ _ _ _ _ hd]
    refine located_node.2 ⟨hin, Or.inr ⟨slot c obj.position, ?_⟩⟩
    rw [Function.update_same]
    exact ih _ _ _ _ (target_ne_null _ _ _ _ _ _) (shaped_target hsch obj.position)
      (exactTree_child hex (slot c obj.position)) (inCube_child c h obj.position hex hin)

theorem located_target {c : Vec3} {h : ℚ} {d m : Int} {ch : Fin 8 → Octree} {p : Vec3}
    {o : SceneObject} (hl : Located (ch (slot c p)) o) : Located (target c h d m ch p) o := by
  rcases target_cases c h d m ch p with ⟨hn, _⟩ | ⟨_, ht⟩
  · rw [hn] at hl; simp [Located] at hl
  · rw [ht]; exact hl

/-- A located object stays located when another object is inserted. -/
theorem located_insert_other (obj o : SceneObject) (t : Octree) :
    Located t o → Located (insert t obj) o := by
  refine insert_induction obj (fun t => Located t o → Located (insert t obj) o) ?_ ?_ ?_ t
  · intro hl; simp [Located] at hl
  · intro c h d m objs ch hd hl
    rw [insert_leaf _ _ _ _ _ _ _ hd]
    obtain ⟨hc, hwhere⟩ := located_node.1 hl
    refine located_node.2 ⟨hc, ?_⟩
    rcases hwhere with hown | hchild
    · exact Or.inl (List.mem_append_left _ hown)
    · exact Or.inr hchild
  · intro c h d m objs ch hd ih hl
    rw [insert_inner _ _ _ _ _ _ _ hd]
    obtain ⟨hc, hwhere⟩ := located_node.1 hl
    refine located_node.2 ⟨hc, ?_⟩
    rcases hwhere with hown | ⟨i, hi⟩
    · exact Or.inl hown
    · refine Or.inr ⟨i, ?_⟩
      by_cases his : i = slot c obj.position
      · subst his
        rw [Function.update_same]
        exact ih (located_target hi)
      · rw [Function.update_noteq his]
        exact hi

/-- A located object stays located when a different id is removed. -/
theorem located_remove (objectId : Int) (o : SceneObject) (t : Octree)
    (hid : o.id ≠ objectId) (hl : Located t o) : Located (remove t objectId) o := by
  induction t with
  | null => simp [Located] at hl
  | node c h d m objs ch ih =>
    rw [remove_node]
    obtain ⟨hc, hwhere⟩ := located_node.1 hl
    refine located_node.2 ⟨hc, ?_⟩
    rcases hwhere with hown | ⟨i, hi⟩
    · exact Or.inl (List.mem_filter.2 ⟨hown, by simpa using hid⟩)
    · exact Or.inr ⟨i, ih i hi⟩

/-- A located object stays located through calls that do not remove its id. -/
theorem located_run (o : SceneObject) (t : Octree) (ops : List Op)
    (hkeep : Op.remove o.id ∉ ops) (hl : Located t o) : Located (run t ops) o := by
  induction ops using List.reverseRecOn with
  | nil => simpa [run] using hl
  | append_singleton ops op ih =>
    have ih2 := ih (fun hm => hkeep (List.mem_append_left _ hm))
    rw [run_append]
    cases op with
    | insert obj => exact located_insert_other obj o _ ih2
    | remove objectId =>
      refine located_remove objectId o _ ?_ ih2
      intro e
      exact hkeep (by simp [e])

theorem run_split (t : Octree) (pre post : List Op) (op : Op) :
    run t (pre ++ op :: post) = run (step (run t pre) op) post := by
  simp [run, List.foldl_append]

end Octree

/-! ## Evaluation of the operations on concrete roots

Two roots whose child centers are rounded sums, and the trees `insert` builds
from them, computed step by step. -/

namespace Float32

/-- Evaluation of `round` at a binary32 value given as a multiple of `2^e`. -/
theorem round_exact (x : ℚ) (e k : ℤ) (he : -149 ≤ e) (hx : x = k * 2 ^ e)
    (h1 : -(2 : ℚ) ^ (e + 24) < x) (h2 : x < 2 ^ (e + 24)) : round x = x :=
  round_of_grid x e k he hx (abs_lt.2 ⟨h1, h2⟩)

/-- Evaluation of `round` at a positive value whose binade is known. -/
theorem round_eq_pos (x v : ℚ) (L n : ℤ) (h1 : (2 : ℚ) ^ L ≤ x) (h2 : x < 2 ^ (L + 1))
    (hn : roundHalfEven (x / 2 ^ (max L (-126) - 23)) = n)
    (hv : v = n * 2 ^ (max L (-126) - 23)) : round x = v := by
  have hpos : 0 < x := lt_of_lt_of_le (by positivity) h1
  rw [hv]
  exact round_eq x L n (by rwa [abs_of_pos hpos]) (by rwa [abs_of_pos hpos]) hn

end Float32

namespace Octree

theorem target_empty (c : Vec3) (h : ℚ) (d m : Int) (p : Vec3) :
    target c h d m (fun _ => null) p = newChild c h d m (getChildIndex c p) := rfl

theorem insert_ctor_inner (c : Vec3) (h : ℚ) (d m : Int) (obj : SceneObject) (hd : d < m) :
    insert (ctor c h d m) obj =
      node c h d m [] (Function.update (fun _ => null) (slot c obj.position)
        (insert (newChild c h d m (getChildIndex c obj.position)) obj)) := by
  unfold ctor
  rw [insert_inner _ _ _ _ _ _ _ hd, target_empty]

theorem insert_ctor_leaf (c : Vec3) (h : ℚ) (d m : Int) (obj : SceneObject) (hd : d ≥ m) :
    insert (ctor c h d m) obj = node c h d m [obj] (fun _ => null) := by
  unfold ctor
  rw [insert_leaf _ _ _ _ _ _ _ hd]
  rfl

theorem flatten_single (g : Octree → List Int) (hg : g null = []) (i : Fin 8) (t : Octree) :
    ∀ l : List (Fin 8), l.Nodup →
      (l.map (fun j => g (Function.update (fun _ => null) i t j))).flatten =
        if i ∈ l then g t else [] := by
  intro l
  induction l with
  | nil => intro _; simp
  | cons a l ih =>
    intro hl
    obtain ⟨ha, hl2⟩ := List.nodup_cons.1 hl
    rw [List.map_cons, List.flatten_cons, ih hl2]
    by_cases hai : a = i
    · subst hai
      simp [ha]
    · have hia : ¬ i = a := fun e => hai e.symm
      simp [Function.update_noteq hai, hg, hia]

theorem query_single_child (c : Vec3) (h : ℚ) (d m : Int) (i : Fin 8) (t : Octree)
    (min max : Vec3) :
    query (node c h d m [] (Function.update (fun _ => null) i t)) min max [] =
      if outside c h min max then [] else query t min max [] := by
  rw [query_node]
  by_cases ho : outside c h min max
  · simp [ho]
  · simp only [ho, if_false]
    rw [flatten_single (fun t => query t min max []) (by simp [query]) i t _
      (List.nodup_finRange 8)]
    simp [linearScan]

theorem query_leaf (c : Vec3) (h : ℚ) (d m : Int) (objs : List SceneObject) (min max : Vec3) :
    query (node c h d m objs (fun _ => null)) min max [] =
      if outside c h min max then [] else linearScan objs min max := by
  rw [query_node]
  by_cases ho : outside c h min max
  · simp [ho]
  · simp [ho, query]

end Octree

namespace Float32

theorem mul_eval (a b v : ℚ) (e k : ℤ) (he : -149 ≤ e) (hv : a * b = v) (hx : v = k * 2 ^ e)
    (h1 : -(2 : ℚ) ^ (e + 24) < v) (h2 : v < 2 ^ (e + 24)) : mul a b = v := by
  unfold mul
  rw [hv]
  exact round_exact v e k he hx h1 h2

theorem add_eval (a b v : ℚ) (e k : ℤ) (he : -149 ≤ e) (hv : a + b = v) (hx : v = k * 2 ^ e)
    (h1 : -(2 : ℚ) ^ (e + 24) < v) (h2 : v < 2 ^ (e + 24)) : add a b = v := by
  unfold add
  rw [hv]
  exact round_exact v e k he hx h1 h2

theorem sub_eval (a b v : ℚ) (e k : ℤ) (he : -149 ≤ e) (hv : a - b = v) (hx : v = k * 2 ^ e)
    (h1 : -(2 : ℚ) ^ (e + 24) < v) (h2 : v < 2 ^ (e + 24)) : sub a b = v := by
  unfold sub
  rw [hv]
  exact round_exact v e k he hx h1 h2

theorem add_eval_round (a b v : ℚ) (L n : ℤ) (h1 : (2 : ℚ) ^ L ≤ a + b)
    (h2 : a + b < 2 ^ (L + 1)) (hn : roundHalfEven ((a + b) / 2 ^ (max L (-126) - 23)) = n)
    (hv : v = n * 2 ^ (max L (-126) - 23)) : add a b = v :=
  round_eq_pos (a + b) v L n h1 h2 hn hv

theorem sub_eval_round (a b v : ℚ) (L n : ℤ) (h1 : (2 : ℚ) ^ L ≤ a - b)
    (h2 : a - b < 2 ^ (L + 1)) (hn : roundHalfEven ((a - b) / 2 ^ (max L (-126) - 23)) = n)
    (hv : v = n * 2 ^ (max L (-126) - 23)) : sub a b = v :=
  round_eq_pos (a - b) v L n h1 h2 hn hv

end Float32

namespace Octree

/-- A root at `(2^24, 0, 0)` with half size `2` and one level below it. -/
def roundingRoot : Octree := ctor ⟨16777216, 0, 0⟩ 2 0 1

/-- An object on the face `x = 2^24 + 2` of the cube of `roundingRoot`. -/
def roundingObject : SceneObject := ⟨⟨16777218, 0, 0⟩, 1, 1⟩

/-- The child that `insert` creates for `roundingObject`: the sum `2^24 + 1` is
not a binary32 value and rounds to `2^24`. -/
theorem newChild_rounding :
    newChild ⟨16777216, 0, 0⟩ 2 0 1 1 = ctor ⟨16777216, -1, -1⟩ 1 1 1 := by
  have m1 : Float32.mul (1 / 2) 2 = 1 :=
    Float32.mul_eval _ _ _ 0 1 (by norm_num) (by norm_num) (by norm_num) (by norm_num)
      (by norm_num)
  have m2 : Float32.mul (-(1 / 2)) 2 = -1 :=
    Float32.mul_eval _ _ _ 0 (-1) (by norm_num) (by norm_num) (by norm_num) (by norm_num)
      (by norm_num)
  have m3 : Float32.mul 2 (1 / 2) = 1 :=
    Float32.mul_eval _ _ _ 0 1 (by norm_num) (by norm_num) (by norm_num) (by norm_num)
      (by norm_num)
  have a1 : Float32.add 16777216 1 = 16777216 :=
    Float32.add_eval_round _ _ _ 24 8388608 (by norm_num) (by norm_num)
      (Float32.roundHalfEven_tie_lo _ _ (by norm_num) (by decide)) (by norm_num)
  have a2 : Float32.add 0 (-1) = -1 :=
    Float32.add_eval _ _ _ 0 (-1) (by norm_num) (by norm_num) (by norm_num) (by norm_num)
      (by norm_num)
  have b1 : (if (1 &&& 1 : Nat) ≠ 0 then (1 / 2 : ℚ) else -(1 / 2 : ℚ)) = 1 / 2 :=
    if_pos (by decide)
  have b2 : (if (1 &&& 2 : Nat) ≠ 0 then (1 / 2 : ℚ) else -(1 / 2 : ℚ)) = -(1 / 2) :=
    if_neg (by decide)
  have b4 : (if (1 &&& 4 : Nat) ≠ 0 then (1 / 2 : ℚ) else -(1 / 2 : ℚ)) = -(1 / 2) :=
    if_neg (by decide)
  simp only [newChild, childOffset, Vec3.add, b1, b2, b4, m1, m2, m3, a1, a2]
  norm_num

theorem index_rounding : getChildIndex ⟨16777216, 0, 0⟩ roundingObject.position = 1 := by
  simp only [getChildIndex, roundingObject]
  norm_num

/-- The center and half size of the child that `insert` creates for
`roundingObject`. -/
theorem child_rounding :
    (⟨16777216, 0, 0⟩ : Vec3).add (childOffset 2 1) = ⟨16777216, -1, -1⟩ ∧
      Float32.mul 2 (1 / 2) = 1 := by
  have hnew := newChild_rounding
  simp only [newChild, ctor, node.injEq] at hnew
  exact ⟨hnew.1, hnew.2.1⟩

theorem insert_rounding :
    insert roundingRoot roundingObject =
      node ⟨16777216, 0, 0⟩ 2 0 1 [] (Function.update (fun _ => null) 1
        (node ⟨16777216, -1, -1⟩ 1 1 1 [roundingObject] (fun _ => null))) := by
  have hidx : getChildIndex ⟨16777216, 0, 0⟩ roundingObject.position = 1 := by
    simp only [getChildIndex, roundingObject]
    norm_num
  have hslot : slot ⟨16777216, 0, 0⟩ roundingObject.position = 1 := Fin.ext hidx
  unfold roundingRoot
  rw [insert_ctor_inner _ _ _ _ _ (by norm_num), hidx, hslot, newChild_rounding,
    insert_ctor_leaf _ _ _ _ _ (by norm_num)]

theorem exactBounds_rounding : ExactBounds ⟨16777216, 0, 0⟩ 2 := by
  refine exactBounds_of_grid _ _ 1 (by norm_num) ⟨8388608, by norm_num⟩ ⟨0, by simp⟩
    ⟨0, by simp⟩ ⟨1, by norm_num⟩ ?_ ?_ ?_ <;> norm_num

/-- The object lies in the cube `2^24 - 2 .. 2^24 + 2` by `-2..2` by `-2..2` of
`roundingRoot`, whose bounds are binary32 values. -/
theorem inCube_rounding : inCube ⟨16777216, 0, 0⟩ 2 roundingObject.position := by
  rw [inCube_iff exactBounds_rounding]
  simp only [roundingObject]
  norm_num

/-- The leaf that holds the object has the computed upper bound `2^24` on the
`x` axis, below the object's position. -/
theorem add_rounding_leaf : Float32.add 16777216 1 = 16777216 :=
  Float32.add_eval_round _ _ _ 24 8388608 (by norm_num) (by norm_num)
    (Float32.roundHalfEven_tie_lo _ _ (by norm_num) (by decide)) (by norm_num)

theorem outside_rounding_leaf :
    outside ⟨16777216, -1, -1⟩ 1 ⟨16777218, 0, 0⟩ ⟨16777218, 0, 0⟩ := by
  simp only [outside, Vec3.sub, Vec3.add, Vec3.splat, add_rounding_leaf]
  exact Or.inl (by norm_num)

theorem not_inCube_rounding_leaf : ¬ inCube ⟨16777216, -1, -1⟩ 1 roundingObject.position := by
  intro hc
  have hx := hc.2.1
  simp only [Vec3.add, Vec3.splat, add_rounding_leaf, roundingObject] at hx
  norm_num at hx

/-- The query of the box that is the object's own position misses it. -/
theorem query_rounding :
    query (insert roundingRoot roundingObject) ⟨16777218, 0, 0⟩ ⟨16777218, 0, 0⟩ [] = [] := by
  have hroot : ¬ outside ⟨16777216, 0, 0⟩ 2 ⟨16777218, 0, 0⟩ ⟨16777218, 0, 0⟩ := by
    rw [outside_iff exactBounds_rounding]
    norm_num
  rw [insert_rounding, query_single_child, if_neg hroot, query_leaf,
    if_pos outside_rounding_leaf]

end Octree

namespace Octree

/-- A root at `(16777220, 0, 0)` with half size `6` and four levels below it;
its cube spans `16777214 .. 16777226` on the `x` axis, both binary32 values. -/
def driftRoot : Octree := ctor ⟨16777220, 0, 0⟩ 6 0 4

/-- An object at the corner `(16777214, -6, -6)` of the cube of `driftRoot`. -/
def driftObject : SceneObject := ⟨⟨16777214, -6, -6⟩, 1, 1⟩

theorem newChild_drift1 :
    newChild ⟨16777220, 0, 0⟩ 6 0 4 0 = ctor ⟨16777216, -3, -3⟩ 3 1 4 := by
  have m1 : Float32.mul (-(1 / 2)) 6 = -3 :=
    Float32.mul_eval _ _ _ 0 (-3) (by norm_num) (by norm_num) (by norm_num) (by norm_num)
      (by norm_num)
  have m2 : Float32.mul 6 (1 / 2) = 3 :=
    Float32.mul_eval _ _ _ 0 3 (by norm_num) (by norm_num) (by norm_num) (by norm_num)
      (by norm_num)
  have a1 : Float32.add 16777220 (-3) = 16777216 :=
    Float32.add_eval_round _ _ _ 24 8388608 (by norm_num) (by norm_num)
      (Float32.roundHalfEven_tie_lo _ _ (by norm_num) (by decide)) (by norm_num)
  have a2 : Float32.add 0 (-3) = -3 :=
    Float32.add_eval _ _ _ 0 (-3) (by norm_num) (by norm_num) (by norm_num) (by norm_num)
      (by norm_num)
  have b1 : (if (0 &&& 1 : Nat) ≠ 0 then (1 / 2 : ℚ) else -(1 / 2 : ℚ)) = -(1 / 2) :=
    if_neg (by decide)
  have b2 : (if (0 &&& 2 : Nat) ≠ 0 then (1 / 2 : ℚ) else -(1 / 2 : ℚ)) = -(1 / 2) :=
    if_neg (by decide)
  have b4 : (if (0 &&& 4 : Nat) ≠ 0 then (1 / 2 : ℚ) else -(1 / 2 : ℚ)) = -(1 / 2) :=
    if_neg (by decide)
  simp only [newChild, childOffset, Vec3.add, b1, b2, b4, m1, m2, a1, a2]
  norm_num

theorem newChild_drift2 :
    newChild ⟨16777216, -3, -3⟩ 3 1 4 0 = ctor ⟨16777214, -9 / 2, -9 / 2⟩ (3 / 2) 2 4 := by
  have m1 : Float32.mul (-(1 / 2)) 3 = -3 / 2 :=
    Float32.mul_eval _ _ _ (-1) (-3) (by norm_num) (by norm_num) (by norm_num) (by norm_num)
      (by norm_num)
  have m2 : Float32.mul 3 (1 / 2) = 3 / 2 :=
    Float32.mul_eval _ _ _ (-1) 3 (by norm_num) (by norm_num) (by norm_num) (by norm_num)
      (by norm_num)
  have a1 : Float32.add 16777216 (-3 / 2) = 16777214 :=
    Float32.add_eval_round _ _ _ 23 16777214 (by norm_num) (by norm_num)
      (Float32.roundHalfEven_tie_lo _ _ (by norm_num) (by decide)) (by norm_num)
  have a2 : Float32.add (-3) (-3 / 2) = -9 / 2 :=
    Float32.add_eval _ _ _ (-1) (-9) (by norm_num) (by norm_num) (by norm_num) (by norm_num)
      (by norm_num)
  have b1 : (if (0 &&& 1 : Nat) ≠ 0 then (1 / 2 : ℚ) else -(1 / 2 : ℚ)) = -(1 / 2) :=
    if_neg (by decide)
  have b2 : (if (0 &&& 2 : Nat) ≠ 0 then (1 / 2 : ℚ) else -(1 / 2 : ℚ)) = -(1 / 2) :=
    if_neg (by decide)
  have b4 : (if (0 &&& 4 : Nat) ≠ 0 then (1 / 2 : ℚ) else -(1 / 2 : ℚ)) = -(1 / 2) :=
    if_neg (by decide)
  simp only [newChild, childOffset, Vec3.add, b1, b2, b4, m1, m2, a1, a2]
  norm_num

theorem newChild_drift3 :
    newChild ⟨16777214, -9 / 2, -9 / 2⟩ (3 / 2) 2 4 0 =
      ctor ⟨16777213, -21 / 4, -21 / 4⟩ (3 / 4) 3 4 := by
  have m1 : Float32.mul (-(1 / 2)) (3 / 2) = -3 / 4 :=
    Float32.mul_eval _ _ _ (-2) (-3) (by norm_num) (by norm_num) (by norm_num) (by norm_num)
      (by norm_num)
  have m2 : Float32.mul (3 / 2) (1 / 2) = 3 / 4 :=
    Float32.mul_eval _ _ _ (-2) 3 (by norm_num) (by norm_num) (by norm_num) (by norm_num)
      (by norm_num)
  have a1 : Float32.add 16777214 (-3 / 4) = 16777213 :=
    Float32.add_eval_round _ _ _ 23 16777213 (by norm_num) (by norm_num)
      (Float32.roundHalfEven_of_lt _ _ (by norm_num) (by norm_num)) (by norm_num)
  have a2 : Float32.add (-9 / 2) (-3 / 4) = -21 / 4 :=
    Float32.add_eval _ _ _ (-2) (-21) (by norm_num) (by norm_num) (by norm_num) (by norm_num)
      (by norm_num)
  have b1 : (if (0 &&& 1 : Nat) ≠ 0 then (1 / 2 : ℚ) else -(1 / 2 : ℚ)) = -(1 / 2) :=
    if_neg (by decide)
  have b2 : (if (0 &&& 2 : Nat) ≠ 0 then (1 / 2 : ℚ) else -(1 / 2 : ℚ)) = -(1 / 2) :=
    if_neg (by decide)
  have b4 : (if (0 &&& 4 : Nat) ≠ 0 then (1 / 2 : ℚ) else -(1 / 2 : ℚ)) = -(1 / 2) :=
    if_neg (by decide)
  simp only [newChild, childOffset, Vec3.add, b1, b2, b4, m1, m2, a1, a2]
  norm_num

theorem newChild_drift4 :
    newChild ⟨16777213, -21 / 4, -21 / 4⟩ (3 / 4) 3 4 1 =
      ctor ⟨16777213, -45 / 8, -45 / 8⟩ (3 / 8) 4 4 := by
  have m0 : Float32.mul (1 / 2) (3 / 4) = 3 / 8 :=
    Float32.mul_eval _ _ _ (-3) 3 (by norm_num) (by norm_num) (by norm_num) (by norm_num)
      (by norm_num)
  have m1 : Float32.mul (-(1 / 2)) (3 / 4) = -3 / 8 :=
    Float32.mul_eval _ _ _ (-3) (-3) (by norm_num) (by norm_num) (by norm_num) (by norm_num)
      (by norm_num)
  have m2 : Float32.mul (3 / 4) (1 / 2) = 3 / 8 :=
    Float32.mul_eval _ _ _ (-3) 3 (by norm_num) (by norm_num) (by norm_num) (by norm_num)
      (by norm_num)
  have a1 : Float32.add 16777213 (3 / 8) = 16777213 :=
    Float32.add_eval_round _ _ _ 23 16777213 (by norm_num) (by norm_num)
      (Float32.roundHalfEven_of_lt _ _ (by norm_num) (by norm_num)) (by norm_num)
  have a2 : Float32.add (-21 / 4) (-3 / 8) = -45 / 8 :=
    Float32.add_eval _ _ _ (-3) (-45) (by norm_num) (by norm_num) (by norm_num) (by norm_num)
      (by norm_num)
  have b1 : (if (1 &&& 1 : Nat) ≠ 0 then (1 / 2 : ℚ) else -(1 / 2 : ℚ)) = 1 / 2 :=
    if_pos (by decide)
  have b2 : (if (1 &&& 2 : Nat) ≠ 0 then (1 / 2 : ℚ) else -(1 / 2 : ℚ)) = -(1 / 2) :=
    if_neg (by decide)
  have b4 : (if (1 &&& 4 : Nat) ≠ 0 then (1 / 2 : ℚ) else -(1 / 2 : ℚ)) = -(1 / 2) :=
    if_neg (by decide)
  simp only [newChild, childOffset, Vec3.add, b1, b2, b4, m0, m1, m2, a1, a2]
  norm_num

/-- The tree after the insertion of `driftObject`: the centers of the four nodes
below the root are rounded sums, and the leaf that stores the object is
centered at `x = 16777213` with half size `3/8`. -/
theorem insert_drift :
    insert driftRoot driftObject =
      node ⟨16777220, 0, 0⟩ 6 0 4 [] (Function.update (fun _ => null) 0
        (node ⟨16777216, -3, -3⟩ 3 1 4 [] (Function.update (fun _ => null) 0
          (node ⟨16777214, -9 / 2, -9 / 2⟩ (3 / 2) 2 4 [] (Function.update (fun _ => null) 0
            (node ⟨16777213, -21 / 4, -21 / 4⟩ (3 / 4) 3 4 []
              (Function.update (fun _ => null) 1
                (node ⟨16777213, -45 / 8, -45 / 8⟩ (3 / 8) 4 4 [driftObject]
                  (fun _ => null))))))))) := by
  have i1 : getChildIndex ⟨16777220, 0, 0⟩ driftObject.position = 0 := by
    simp only [getChildIndex, driftObject]; norm_num
  have i2 : getChildIndex ⟨16777216, -3, -3⟩ driftObject.position = 0 := by
    simp only [getChildIndex, driftObject]; norm_num
  have i3 : getChildIndex ⟨16777214, -9 / 2, -9 / 2⟩ driftObject.position = 0 := by
    simp only [getChildIndex, driftObject]; norm_num
  have i4 : getChildIndex ⟨16777213, -21 / 4, -21 / 4⟩ driftObject.position = 1 := by
    simp only [getChildIndex, driftObject]; norm_num
  have s1 : slot ⟨16777220, 0, 0⟩ driftObject.position = 0 := Fin.ext i1
  have s2 : slot ⟨16777216, -3, -3⟩ driftObject.position = 0 := Fin.ext i2
  have s3 : slot ⟨16777214, -9 / 2, -9 / 2⟩ driftObject.position = 0 := Fin.ext i3
  have s4 : slot ⟨16777213, -21 / 4, -21 / 4⟩ driftObject.position = 1 := Fin.ext i4
  unfold driftRoot
  rw [insert_ctor_inner _ _ _ _ _ (by norm_num), i1, s1, newChild_drift1,
    insert_ctor_inner _ _ _ _ _ (by norm_num), i2, s2, newChild_drift2,
    insert_ctor_inner _ _ _ _ _ (by norm_num), i3, s3, newChild_drift3,
    insert_ctor_inner _ _ _ _ _ (by norm_num), i4, s4, newChild_drift4,
    insert_ctor_leaf _ _ _ _ _ (by norm_num)]

theorem exactBounds_drift : ExactBounds ⟨16777220, 0, 0⟩ 6 := by
  refine exactBounds_of_grid _ _ 1 (by norm_num) ⟨8388610, by norm_num⟩ ⟨0, by simp⟩
    ⟨0, by simp⟩ ⟨3, by norm_num⟩ ?_ ?_ ?_ <;> norm_num

/-- The bounds of the cube of `driftRoot` as `Octree::query` computes them. -/
theorem box_drift :
    (⟨16777220, 0, 0⟩ : Vec3).sub (Vec3.splat 6) = ⟨16777214, -6, -6⟩ ∧
      (⟨16777220, 0, 0⟩ : Vec3).add (Vec3.splat 6) = ⟨16777226, 6, 6⟩ := by
  rw [exactBounds_drift.1, exactBounds_drift.2]
  norm_num

theorem inCube_drift : inCube ⟨16777220, 0, 0⟩ 6 driftObject.position := by
  rw [inCube_iff exactBounds_drift]
  simp only [driftObject]
  norm_num

/-- The query of the whole cube of `driftRoot` misses the stored object: the
leaf's computed upper bound on the `x` axis, `16777213`, lies below the box. -/
theorem query_drift :
    query (insert driftRoot driftObject)
      ((⟨16777220, 0, 0⟩ : Vec3).sub (Vec3.splat 6)) ((⟨16777220, 0, 0⟩ : Vec3).add (Vec3.splat 6))
      [] = [] := by
  have n1 : Float32.sub 16777216 3 = 16777213 :=
    Float32.sub_eval _ _ _ 0 16777213 (by norm_num) (by norm_num) (by norm_num) (by norm_num)
      (by norm_num)
  have n2 : Float32.add 16777216 3 = 16777220 :=
    Float32.add_eval_round _ _ _ 24 8388610 (by norm_num) (by norm_num)
      (Float32.roundHalfEven_tie_hi _ _ (by norm_num) (by decide)) (by norm_num)
  have n3 : Float32.sub (-3) 3 = -6 :=
    Float32.sub_eval _ _ _ 0 (-6) (by norm_num) (by norm_num) (by norm_num) (by norm_num)
      (by norm_num)
  have n4 : Float32.add (-3) 3 = 0 :=
    Float32.add_eval _ _ _ 0 0 (by norm_num) (by norm_num) (by norm_num) (by norm_num)
      (by norm_num)
  have p1 : Float32.sub 16777214 (3 / 2) = 16777212 :=
    Float32.sub_eval_round _ _ _ 23 16777212 (by norm_num) (by norm_num)
      (Float32.roundHalfEven_tie_lo _ _ (by norm_num) (by decide)) (by norm_num)
  have p2 : Float32.add 16777214 (3 / 2) = 16777216 :=
    Float32.add_eval_round _ _ _ 23 16777216 (by norm_num) (by norm_num)
      (Float32.roundHalfEven_tie_hi _ _ (by norm_num) (by decide)) (by norm_num)
  have p3 : Float32.sub (-9 / 2) (3 / 2) = -6 :=
    Float32.sub_eval _ _ _ 0 (-6) (by norm_num) (by norm_num) (by norm_num) (by norm_num)
      (by norm_num)
  have p4 : Float32.add (-9 / 2) (3 / 2) = -3 :=
    Float32.add_eval _ _ _ 0 (-3) (by norm_num) (by norm_num) (by norm_num) (by norm_num)
      (by norm_num)
  have q1 : Float32.sub 16777213 (3 / 4) = 16777212 :=
    Float32.sub_eval_round _ _ _ 23 16777212 (by norm_num) (by norm_num)
      (Float32.roundHalfEven_of_lt _ _ (by norm_num) (by norm_num)) (by norm_num)
  have q2 : Float32.add 16777213 (3 / 4) = 16777214 :=
    Float32.add_eval_round _ _ _ 23 16777214 (by norm_num) (by norm_num)
      (Float32.roundHalfEven_of_lt _ _ (by norm_num) (by norm_num)) (by norm_num)
  have q3 : Float32.sub (-21 / 4) (3 / 4) = -6 :=
    Float32.sub_eval _ _ _ 0 (-6) (by norm_num) (by norm_num) (by norm_num) (by norm_num)
      (by norm_num)
  have q4 : Float32.add (-21 / 4) (3 / 4) = -9 / 2 :=
    Float32.add_eval _ _ _ (-1) (-9) (by norm_num) (by norm_num) (by norm_num) (by norm_num)
      (by norm_num)
  have l1 : Float32.add 16777213 (3 / 8) = 16777213 :=
    Float32.add_eval_round _ _ _ 23 16777213 (by norm_num) (by norm_num)
      (Float32.roundHalfEven_of_lt _ _ (by norm_num) (by norm_num)) (by norm_num)
  have hbox := box_drift
  have h0 : ¬ outside ⟨16777220, 0, 0⟩ 6 ⟨16777214, -6, -6⟩ ⟨16777226, 6, 6⟩ := by
    rw [outside_iff exactBounds_drift]
    norm_num
  have h1 : ¬ outside ⟨16777216, -3, -3⟩ 3 ⟨16777214, -6, -6⟩ ⟨16777226, 6, 6⟩ := by
    simp only [outside, Vec3.sub, Vec3.add, Vec3.splat, n1, n2, n3, n4]
    norm_num
  have h2 : ¬ outside ⟨16777214, -9 / 2, -9 / 2⟩ (3 / 2) ⟨16777214, -6, -6⟩ ⟨16777226, 6, 6⟩ := by
    simp only [outside, Vec3.sub, Vec3.add, Vec3.splat, p1, p2, p3, p4]
    norm_num
  have h3 : ¬ outside ⟨16777213, -21 / 4, -21 / 4⟩ (3 / 4) ⟨16777214, -6, -6⟩
      ⟨16777226, 6, 6⟩ := by
    simp only [outside, Vec3.sub, Vec3.add, Vec3.splat, q1, q2, q3, q4]
    norm_num
  have h4 : outside ⟨16777213, -45 / 8, -45 / 8⟩ (3 / 8) ⟨16777214, -6, -6⟩ ⟨16777226, 6, 6⟩ := by
    simp only [outside, Vec3.sub, Vec3.add, Vec3.splat, l1]
    exact Or.inl (by norm_num)
  rw [hbox.1, hbox.2, insert_drift, query_single_child, if_neg h0, query_single_child,
    if_neg h1, query_single_child, if_neg h2, query_single_child, if_neg h3, query_leaf,
    if_pos h4]

end Octree

/-! ## Region queries: soundness, completeness, pruning -/

namespace Octree

/-- A leaf root holding object `1` at `(1,1,1)` and object `2` at `(-5,-5,-5)`. -/
def sampleLeaf : Octree :=
  node ⟨0, 0, 0⟩ 10 0 0 [⟨⟨1, 1, 1⟩, 1 / 2, 1⟩, ⟨⟨-5, -5, -5⟩, 1 / 2, 2⟩] (fun _ => null)

/-- C1 (query soundness): whatever the tree, the box and the results passed in,
`query` keeps the results it was given and appends only ids of stored objects
whose position lies in the closed box; hence, for a box `B` sharing no point
with the queried box, an id all of whose stored objects lie in `B` is not
appended. -/
theorem query_soundness (t : Octree) (min max : Vec3) (results : List Int) :
    query t min max results = results ++ query t min max [] ∧
      (∀ id ∈ query t min max [],
        ∃ o ∈ allObjects t, o.id = id ∧
          min.x ≤ o.position.x ∧ o.position.x ≤ max.x ∧
          min.y ≤ o.position.y ∧ o.position.y ≤ max.y ∧
          min.z ≤ o.position.z ∧ o.position.z ≤ max.z) ∧
      (∀ bmin bmax : Vec3, (∀ p, ¬ (inBox min max p ∧ inBox bmin bmax p)) →
        ∀ id, (∀ o ∈ allObjects t, o.id = id → inBox bmin bmax o.position) →
          id ∉ query t min max []) := by
  refine ⟨query_append t min max results, ?_, ?_⟩
  · intro id hid
    obtain ⟨o, ho, hoid, hb⟩ := mem_query_sound t min max id hid
    obtain ⟨b1, b2, b3, b4, b5, b6⟩ := hb
    exact ⟨o, ho, hoid, b1, b2, b3, b4, b5, b6⟩
  · intro bmin bmax hdisj id honly hid
    obtain ⟨o, ho, hoid, hb⟩ := mem_query_sound t min max id hid
    exact hdisj o.position ⟨hb, honly o ho hoid⟩

/-- C1 at a concrete tree: object `2` lies in the box around `(-5,-5,-5)`, which
shares no point with the box `(0,0,0)..(2,2,2)`, so a query of the latter does
not yield `2`. -/
theorem query_soundness_witness :
    (2 : Int) ∉ query sampleLeaf ⟨0, 0, 0⟩ ⟨2, 2, 2⟩ [] := by
  refine (query_soundness sampleLeaf ⟨0, 0, 0⟩ ⟨2, 2, 2⟩ []).2.2 ⟨-6, -6, -6⟩ ⟨-4, -4, -4⟩ ?_ 2 ?_
  · rintro p ⟨ha, hb⟩
    simp only [inBox] at ha hb
    linarith [ha.1, hb.2.1]
  · intro o ho hoid
    simp only [sampleLeaf, allObjects, List.map_const, List.mem_append, List.mem_cons,
      List.mem_singleton] at ho
    rcases ho with (rfl | rfl | h) | h
    · simp at hoid
    · simp only [inBox]; norm_num
    · simp at h
    · simp [List.finRange] at h

/-- C2, as stated, fails on two kinds of input.  On the scene manager's root
(center `0`, half size `10`, maximal depth `5`) the object `1` inserted at
`(20,20,20)`, outside the root cube, is never removed and lies in the box
`(15,15,15)..(25,25,25)`, yet the query of that box yields nothing, because the
root's cube misses the box.  On the root `(2^24,0,0)` with half size `2` and
maximal depth `1` the object `1` inserted at `(2^24+2,0,0)`, inside the root
cube, is never removed, yet the query of the box that is its own position
yields nothing, because the center of the leaf that stores it is the rounded
sum `2^24 + 1 = 2^24` and the leaf's cube misses the box. -/
theorem query_completeness_counterexample :
    (Op.remove 1 ∉ ([] : List Op) ∧
      inBox ⟨15, 15, 15⟩ ⟨25, 25, 25⟩ (⟨20, 20, 20⟩ : Vec3) ∧
      query (run (ctor ⟨0, 0, 0⟩ 10 0 5) ([] ++ Op.insert ⟨⟨20, 20, 20⟩, 1, 1⟩ :: []))
        ⟨15, 15, 15⟩ ⟨25, 25, 25⟩ [] = []) ∧
    (Op.remove roundingObject.id ∉ ([] : List Op) ∧
      inCube ⟨16777216, 0, 0⟩ 2 roundingObject.position ∧
      inBox ⟨16777218, 0, 0⟩ ⟨16777218, 0, 0⟩ roundingObject.position ∧
      query (run (ctor ⟨16777216, 0, 0⟩ 2 0 1) ([] ++ Op.insert roundingObject :: []))
        ⟨16777218, 0, 0⟩ ⟨16777218, 0, 0⟩ [] = []) := by
  refine ⟨⟨by simp, by simp only [inBox]; norm_num, ?_⟩,
    ⟨by simp, inCube_rounding, by simp only [inBox, roundingObject]; norm_num, ?_⟩⟩
  · simp only [run, List.nil_append, List.foldl_cons, List.foldl_nil, step, ctor]
    rw [insert_inner _ _ _ _ _ _ _ (by norm_num), query_node]
    rw [if_pos]
    rw [outside_iff (exactTree_bounds exactTree_scene)]
    norm_num
  · simp only [run, List.nil_append, List.foldl_cons, List.foldl_nil, step]
    exact query_rounding

/-- C2 (query completeness, amended): on a root whose geometry is computed
without rounding, an object inserted at a position inside the root's closed
cube, and whose id is not removed afterwards, is found by every query whose
closed box contains its position. -/
theorem query_completeness (c : Vec3) (h : ℚ) (m : Int) (pre post : List Op)
    (obj : SceneObject) (min max : Vec3)
    (hex : ExactTree m.toNat c h)
    (hin : inCube c h obj.position)
    (hkeep : Op.remove obj.id ∉ post)
    (hbox : inBox min max obj.position) :
    obj.id ∈ query (run (ctor c h 0 m) (pre ++ Op.insert obj :: post)) min max [] := by
  rw [run_split]
  refine mem_query_of_located _ obj min max (located_run obj _ post hkeep ?_) hbox
  exact located_insert_self obj _ c h 0 m (run_ne_null _ (by simp [ctor]) pre)
    (shaped_run c h 0 m pre) (by simpa using hex) hin

/-- C2 at a concrete input: object `1` at `(9.9,9.9,9.9)` in the scene manager's
root, followed by the insertion of another object and the removal of id `2`. -/
theorem query_completeness_witness :
    ExactTree (5 : Int).toNat ⟨0, 0, 0⟩ 10 ∧
    (1 : Int) ∈ query (run (ctor ⟨0, 0, 0⟩ 10 0 5)
      ([] ++ Op.insert ⟨⟨99 / 10, 99 / 10, 99 / 10⟩, 1, 1⟩ ::
        [Op.insert ⟨⟨1, 1, 1⟩, 1, 2⟩, Op.remove 2])) ⟨9, 9, 9⟩ ⟨10, 10, 10⟩ [] :=
  ⟨exactTree_scene,
    query_completeness ⟨0, 0, 0⟩ 10 5 [] [Op.insert ⟨⟨1, 1, 1⟩, 1, 2⟩, Op.remove 2]
      ⟨⟨99 / 10, 99 / 10, 99 / 10⟩, 1, 1⟩ ⟨9, 9, 9⟩ ⟨10, 10, 10⟩
      exactTree_scene
      ((inCube_scene _).2 (by norm_num))
      (by simp)
      (by simp only [inBox]; norm_num)⟩

/-- The rejection test is safe at every node of the tree: a node it rejects
holds, in its whole subtree, no object inside the box. -/
def PruneSafe (min max : Vec3) (t : Octree) : Prop :=
  AllNodes (fun c h d m objs ch =>
    outside c h min max → ∀ o ∈ allObjects (node c h d m objs ch), ¬ inBox min max o.position) t

theorem pruneSafe_of_bounded (min max : Vec3) (t : Octree) (hb : Bounded t) :
    PruneSafe min max t := by
  unfold PruneSafe
  induction t with
  | null => simp [AllNodes]
  | node c h d m objs ch ih =>
    obtain ⟨hall, hch⟩ := bounded_node.1 hb
    exact allNodes_node.2
      ⟨fun ho o hmem => not_inBox_of_outside ho (hall o hmem), fun i => ih i (hch i)⟩

/-- C3, as stated, fails: the root `(2^24,0,0)` has half size `2 ≥ 0`, depth `0`
and maximal depth `1`; the only inserted position `(2^24+2,0,0)` lies in the
root's closed cube and in the box that consists of that position alone; the
linear scan of the registered objects yields `[1]`, but the query yields `[]`,
which is no permutation of it, and the rejection test discards the leaf that
holds the object. -/
theorem query_refines_linearScan_counterexample :
    (0 : ℚ) ≤ 2 ∧
      (∀ obj, Op.insert obj ∈ [Op.insert roundingObject] →
        inCube ⟨16777216, 0, 0⟩ 2 obj.position) ∧
      linearScan (linearModel [Op.insert roundingObject]) ⟨16777218, 0, 0⟩ ⟨16777218, 0, 0⟩
        = [1] ∧
      query (run (ctor ⟨16777216, 0, 0⟩ 2 0 1) [Op.insert roundingObject])
        ⟨16777218, 0, 0⟩ ⟨16777218, 0, 0⟩ [] = [] ∧
      ¬ (query (run (ctor ⟨16777216, 0, 0⟩ 2 0 1) [Op.insert roundingObject])
          ⟨16777218, 0, 0⟩ ⟨16777218, 0, 0⟩ []).Perm
        (linearScan (linearModel [Op.insert roundingObject])
          ⟨16777218, 0, 0⟩ ⟨16777218, 0, 0⟩) ∧
      ¬ PruneSafe ⟨16777218, 0, 0⟩ ⟨16777218, 0, 0⟩
        (run (ctor ⟨16777216, 0, 0⟩ 2 0 1) [Op.insert roundingObject]) := by
  have hq : query (run (ctor ⟨16777216, 0, 0⟩ 2 0 1) [Op.insert roundingObject])
      ⟨16777218, 0, 0⟩ ⟨16777218, 0, 0⟩ [] = [] := by
    simp only [run, List.foldl_cons, List.foldl_nil, step]
    exact query_rounding
  have hscan : linearScan (linearModel [Op.insert roundingObject])
      ⟨16777218, 0, 0⟩ ⟨16777218, 0, 0⟩ = [1] := by
    simp only [linearModel, List.foldl_cons, List.foldl_nil, List.nil_append, linearScan,
      inBox, roundingObject]
    norm_num
  refine ⟨by norm_num, ?_, hscan, hq, ?_, ?_⟩
  · intro obj hobj
    simp only [List.mem_singleton, Op.insert.injEq] at hobj
    rw [hobj]
    exact inCube_rounding
  · rw [hq, hscan]
    simp
  · intro hsafe
    have hrun : run (ctor ⟨16777216, 0, 0⟩ 2 0 1) [Op.insert roundingObject] =
        insert roundingRoot roundingObject := rfl
    rw [hrun, insert_rounding] at hsafe
    unfold PruneSafe at hsafe
    have hchild := (allNodes_node.1 hsafe).2 1
    rw [Function.update_same] at hchild
    have hleaf := (allNodes_node.1 hchild).1 outside_rounding_leaf roundingObject
      (by simp [allObjects])
    exact hleaf (by simp only [inBox, roundingObject]; norm_num)

/-- C3 (pruning is equivalent to a linear scan, amended): on a root whose
geometry is computed without rounding, in every state reached from the fresh
root by `insert` and `remove` calls whose inserted positions lie in the root's
closed cube, a query on an empty results list yields the linear scan of the
stored objects, which is, as a multiset, the linear scan of the flat list of
registered objects; and the rejection test discards no node whose subtree
holds an object inside the box. -/
theorem query_refines_linearScan (c : Vec3) (h : ℚ) (m : Int) (ops : List Op)
    (min max : Vec3)
    (hex : ExactTree m.toNat c h)
    (hin : ∀ obj, Op.insert obj ∈ ops → inCube c h obj.position) :
    query (run (ctor c h 0 m) ops) min max [] =
        linearScan (allObjects (run (ctor c h 0 m) ops)) min max ∧
      (query (run (ctor c h 0 m) ops) min max []).Perm (linearScan (linearModel ops) min max) ∧
      PruneSafe min max (run (ctor c h 0 m) ops) := by
  have hb := bounded_run c h 0 m ops (by simpa using hex) hin
  have heq := query_eq_linearScan _ min max hb
  refine ⟨heq, ?_, pruneSafe_of_bounded min max _ hb⟩
  rw [heq]
  exact ((allObjects_run c h 0 m ops).filter _).map _

/-- C3 at a concrete input: two insertions and a removal on the scene manager's
root, queried with the box `(0,0,0)..(10,10,10)`. -/
theorem query_refines_linearScan_witness :
    ExactTree (5 : Int).toNat ⟨0, 0, 0⟩ 10 ∧
    (query (run (ctor ⟨0, 0, 0⟩ 10 0 5)
        [Op.insert ⟨⟨99 / 10, 99 / 10, 99 / 10⟩, 1, 1⟩, Op.insert ⟨⟨-1, 2, 3⟩, 1, 2⟩,
          Op.remove 2]) ⟨0, 0, 0⟩ ⟨10, 10, 10⟩ []).Perm
      (linearScan (linearModel
        [Op.insert ⟨⟨99 / 10, 99 / 10, 99 / 10⟩, 1, 1⟩, Op.insert ⟨⟨-1, 2, 3⟩, 1, 2⟩,
          Op.remove 2]) ⟨0, 0, 0⟩ ⟨10, 10, 10⟩) := by
  refine ⟨exactTree_scene,
    (query_refines_linearScan ⟨0, 0, 0⟩ 10 5 _ ⟨0, 0, 0⟩ ⟨10, 10, 10⟩ exactTree_scene ?_).2.1⟩
  intro obj hobj
  simp only [List.mem_cons, Op.insert.injEq, List.mem_singleton, List.not_mem_nil, or_false,
    reduceCtorEq] at hobj
  rcases hobj with rfl | rfl <;> exact (inCube_scene _).2 (by norm_num)

end Octree

/-! ## Whole-cube queries and removal -/

namespace Octree

theorem mem_linearModel (ops : List Op) (o : SceneObject) (ho : o ∈ linearModel ops) :
    Op.insert o ∈ ops := by
  induction ops using List.reverseRecOn with
  | nil => simp [linearModel] at ho
  | append_singleton ops op ih =>
    rw [linearModel_append] at ho
    cases op with
    | insert obj =>
      rcases List.mem_append.1 ho with h1 | h1
      · exact List.mem_append_left _ (ih h1)
      · rw [List.mem_singleton.1 h1]; simp
    | remove objectId =>
      exact List.mem_append_left _ (ih (List.mem_filter.1 ho).1)

/-- C4, as stated, fails: the root `(16777220,0,0)` has half size `6 ≥ 0`, depth
`0` and maximal depth `4`, and its cube `16777214..16777226` by `-6..6` by
`-6..6` has binary32 bounds; the object `1` inserted at the corner
`(16777214,-6,-6)` of that cube is never removed, so it was inserted once
after the last `remove`, but the query of the whole root cube yields it zero
times: the centers below the root are rounded sums and the leaf that stores
the object ends with the computed `x` bounds `16777213..16777213`. -/
theorem whole_cube_query_counts_counterexample :
    (0 : ℚ) ≤ 6 ∧
      (∀ obj, Op.insert obj ∈ [Op.insert driftObject] →
        inCube ⟨16777220, 0, 0⟩ 6 obj.position) ∧
      (⟨16777220, 0, 0⟩ : Vec3).sub (Vec3.splat 6) = ⟨16777214, -6, -6⟩ ∧
      (⟨16777220, 0, 0⟩ : Vec3).add (Vec3.splat 6) = ⟨16777226, 6, 6⟩ ∧
      insertedAfterLastRemove [Op.insert driftObject] 1 = 1 ∧
      (query (run (ctor ⟨16777220, 0, 0⟩ 6 0 4) [Op.insert driftObject])
        ((⟨16777220, 0, 0⟩ : Vec3).sub (Vec3.splat 6))
        ((⟨16777220, 0, 0⟩ : Vec3).add (Vec3.splat 6)) []).count 1 = 0 := by
  refine ⟨by norm_num, ?_, box_drift.1, box_drift.2, ?_, ?_⟩
  · intro obj hobj
    simp only [List.mem_singleton, Op.insert.injEq] at hobj
    rw [hobj]
    exact inCube_drift
  · simp [insertedAfterLastRemove, driftObject]
  · have hrun : run (ctor ⟨16777220, 0, 0⟩ 6 0 4) [Op.insert driftObject] =
        insert driftRoot driftObject := rfl
    rw [hrun, query_drift]
    simp

/-- C4 (partition invariant, amended): on a root whose geometry is computed
without rounding, after any sequence of `insert` and `remove` calls whose
inserted positions lie in the root's closed cube, the query of the whole root
cube yields each id exactly as many times as objects with that id were inserted
after the last `remove` of that id. -/
theorem whole_cube_query_counts (c : Vec3) (h : ℚ) (m : Int) (ops : List Op) (id : Int)
    (hex : ExactTree m.toNat c h)
    (hin : ∀ obj, Op.insert obj ∈ ops → inCube c h obj.position) :
    (query (run (ctor c h 0 m) ops) (c.sub (Vec3.splat h)) (c.add (Vec3.splat h)) []).count id =
      insertedAfterLastRemove ops id := by
  have hperm := allObjects_run c h 0 m ops
  rw [query_eq_linearScan _ _ _ (bounded_run c h 0 m ops (by simpa using hex) hin),
    linearScan_eq_map]
  · rw [(hperm.map (fun o => o.id)).count_eq]
    exact count_linearModel ops id
  · intro o ho
    exact hin o (mem_linearModel ops o (hperm.mem_iff.1 ho))

/-- C4 at a concrete input: id `1` is inserted, removed, and inserted twice; the
query of the whole cube of the scene manager's root yields it twice. -/
theorem whole_cube_query_counts_witness :
    ExactTree (5 : Int).toNat ⟨0, 0, 0⟩ 10 ∧
    (query (run (ctor ⟨0, 0, 0⟩ 10 0 5)
        [Op.insert ⟨⟨1, 1, 1⟩, 1, 1⟩, Op.remove 1, Op.insert ⟨⟨1, 1, 1⟩, 1, 1⟩,
          Op.insert ⟨⟨-3, 4, 10⟩, 1, 1⟩])
        ((⟨0, 0, 0⟩ : Vec3).sub (Vec3.splat 10)) ((⟨0, 0, 0⟩ : Vec3).add (Vec3.splat 10)) []).count 1
      = 2 := by
  refine ⟨exactTree_scene, ?_⟩
  rw [whole_cube_query_counts ⟨0, 0, 0⟩ 10 5 _ 1 exactTree_scene ?_]
  · simp [insertedAfterLastRemove]
  · intro obj hobj
    simp only [List.mem_cons, Op.insert.injEq, List.mem_singleton, List.not_mem_nil, or_false,
      reduceCtorEq, false_or] at hobj
    rcases hobj with rfl | rfl | rfl <;> exact (inCube_scene _).2 (by norm_num)

/-- C5 (removal): after `remove(id)` no stored object carries the id, wherever
its copies were stored and however many there were, and for every box and every
results list a query appends no occurrence of the id. -/
theorem query_after_remove (t : Octree) (objectId : Int) (min max : Vec3)
    (results : List Int) :
    (∀ o ∈ allObjects (remove t objectId), o.id ≠ objectId) ∧
      query (remove t objectId) min max results =
        results ++ query (remove t objectId) min max [] ∧
      objectId ∉ query (remove t objectId) min max [] := by
  refine ⟨?_, query_append _ _ _ _, ?_⟩
  · intro o ho
    rw [allObjects_remove] at ho
    simpa using (List.mem_filter.1 ho).2
  · rw [query_remove]
    intro hmem
    simpa using (List.mem_filter.1 hmem).2

/-- C6 (frame of `remove`): for every box the query after `remove(id)` yields
what it yielded before with the occurrences of the id deleted, in the same
order; and when no stored object carries the id, `remove(id)` returns the tree
unchanged. -/
theorem remove_frame (t : Octree) (objectId : Int) (min max : Vec3) :
    query (remove t objectId) min max [] =
        (query t min max []).filter (fun i => decide (i ≠ objectId)) ∧
      ((∀ o ∈ allObjects t, o.id ≠ objectId) → remove t objectId = t) := by
  refine ⟨?_, remove_absent t objectId⟩
  rw [query_remove]
  congr 1
  funext i
  simp

/-- C6 at a concrete tree: no object of the sample leaf carries id `7`, so
removing `7` leaves it as it is. -/
theorem remove_frame_witness : remove sampleLeaf 7 = sampleLeaf := by
  refine (remove_frame sampleLeaf 7 ⟨0, 0, 0⟩ ⟨1, 1, 1⟩).2 ?_
  intro o ho
  simp only [sampleLeaf, allObjects, List.map_const, List.mem_append, List.mem_cons,
    List.mem_singleton] at ho
  rcases ho with (rfl | rfl | h) | h
  · simp
  · simp
  · simp at h
  · simp [List.finRange] at h

end Octree

/-! ## Routing, depth bound, scenario, clear -/

namespace Octree

/-- The test `!m_children[idx]` of `Octree::insert`: the pointer owns no node. -/
def isNull : Octree → Bool
  | null => true
  | node _ _ _ _ _ _ => false

theorem isNull_iff (t : Octree) : t.isNull = true ↔ t = null := by
  cases t <;> simp [isNull]

/-- C7 (octant routing): on a node that is not a leaf, `insert` leaves the
node's scalars and own object list as they are and hands the object to the
child in slot `(x > cx ? 1 : 0) + (y > cy ? 2 : 0) + (z > cz ? 4 : 0)`, a valid
index of the eight-slot array: that slot then holds the result of inserting
into the child that was there (or into a freshly created one), which stores
the object; every other slot is untouched; and a position equal to the center
goes to slot `0`. -/
theorem insert_routes_to_octant (c : Vec3) (h : ℚ) (d m : Int) (objs : List SceneObject)
    (ch : Fin 8 → Octree) (obj : SceneObject) (hd : d < m) :
    getChildIndex c obj.position =
        (if obj.position.x > c.x then 1 else 0) + (if obj.position.y > c.y then 2 else 0) +
          (if obj.position.z > c.z then 4 else 0) ∧
      getChildIndex c obj.position < 8 ∧
      (obj.position = c → getChildIndex c obj.position = 0) ∧
      ∃ ch2 : Fin 8 → Octree,
        insert (node c h d m objs ch) obj = node c h d m objs ch2 ∧
        (∀ j : Fin 8, j.val = getChildIndex c obj.position →
          ch2 j = insert (if (ch j).isNull then newChild c h d m j.val else ch j) obj ∧
            obj ∈ allObjects (ch2 j)) ∧
        (∀ j : Fin 8, j.val ≠ getChildIndex c obj.position → ch2 j = ch j) := by
  refine ⟨getChildIndex_cases c obj.position, getChildIndex_lt c obj.position, ?_, ?_⟩
  · intro hpos
    rw [getChildIndex_cases, hpos]
    simp
  · refine ⟨_, insert_inner c h d m objs ch obj hd, ?_, ?_⟩
    · intro j hj
      have hjs : j = slot c obj.position := Fin.ext hj
      subst hjs
      rw [Function.update_same]
      have htarget : target c h d m ch obj.position =
          (if (ch (slot c obj.position)).isNull then newChild c h d m (slot c obj.position).val
            else ch (slot c obj.position)) := by
        rcases target_cases c h d m ch obj.position with ⟨hn, ht⟩ | ⟨hn, ht⟩
        · rw [ht, if_pos ((isNull_iff _).2 hn)]; rfl
        · rw [ht, if_neg (fun e => hn ((isNull_iff _).1 e))]
      rw [← htarget]
      refine ⟨rfl, ?_⟩
      exact (allObjects_insert obj _ (target_ne_null _ _ _ _ _ _)).mem_iff.2
        (List.mem_cons_self _ _)
    · intro j hj
      have hjs : j ≠ slot c obj.position := fun e => hj (by rw [e]; rfl)
      rw [Function.update_noteq hjs]

/-- C7 at a concrete input: on the scene manager's empty root, an object placed
exactly at the center `(0,0,0)` is routed to slot `0`. -/
theorem insert_routes_to_octant_witness :
    (0 : Int) < 5 ∧ getChildIndex (⟨0, 0, 0⟩ : Vec3) (⟨0, 0, 0⟩ : Vec3) = 0 :=
  ⟨by norm_num,
    (insert_routes_to_octant ⟨0, 0, 0⟩ 10 0 5 [] (fun _ => null) ⟨⟨0, 0, 0⟩, 1, 1⟩
      (by norm_num)).2.2.1 rfl⟩

/-- C8 (depth bound): in every tree reached by `insert` and `remove` from a root
constructed with depth `0` and `maxDepth = m ≥ 0`, every node carries
`maxDepth = m`, has a depth between `0` and `m`, and has no child once its
depth has reached `maxDepth`; the tree has at most `m + 1` levels; and an
`insert` arriving at a node whose depth has reached `maxDepth` appends the
object to that node's own list and touches nothing else. -/
theorem depth_bound (c : Vec3) (h : ℚ) (m : Int) (ops : List Op) (hm : 0 ≤ m) :
    AllNodes (fun _ _ d mx _ ch => mx = m ∧ 0 ≤ d ∧ d ≤ m ∧ (d ≥ mx → ∀ i, ch i = null))
        (run (ctor c h 0 m) ops) ∧
      levels (run (ctor c h 0 m) ops) ≤ m.toNat + 1 ∧
      (∀ (c2 : Vec3) (h2 : ℚ) (d mx : Int) (objs : List SceneObject) (ch : Fin 8 → Octree)
          (obj : SceneObject), d ≥ mx →
        insert (node c2 h2 d mx objs ch) obj = node c2 h2 d mx (objs ++ [obj]) ch) := by
  have hs := shaped_run c h 0 m ops
  refine ⟨allNodes_of_shaped 0 _ c h 0 m hs (le_refl _) hm, ?_, ?_⟩
  · simpa using levels_le_of_shaped _ c h 0 m hs
  · intro c2 h2 d mx objs ch obj hd
    exact insert_leaf c2 h2 d mx objs ch obj hd

/-- C8 at a concrete input: with `maxDepth = 5` the tree reached by three calls
has at most six levels. -/
theorem depth_bound_witness :
    (0 : Int) ≤ 5 ∧
      levels (run (ctor ⟨0, 0, 0⟩ 10 0 5)
        [Op.insert ⟨⟨1, 1, 1⟩, 1, 1⟩, Op.insert ⟨⟨-20, 3, 4⟩, 1, 2⟩, Op.remove 1]) ≤ 6 :=
  ⟨by norm_num, (depth_bound ⟨0, 0, 0⟩ 10 5 _ (by norm_num)).2.1⟩

/-- C9 (scenario): on the empty root with center `(0,0,0)`, half size `10`,
depth `0` and `maxDepth = 5`, after the insertion of object `1` at
`(9.9, 9.9, 9.9)` the query of `(9,9,9)..(10,10,10)` on an empty results list
yields exactly `[1]` and the query of `(-10,-10,-10)..(-9,-9,-9)` yields the
empty list, whatever the object's bounding radius. -/
theorem scenario_queries (r : ℚ) :
    query (insert (ctor ⟨0, 0, 0⟩ 10 0 5) ⟨⟨99 / 10, 99 / 10, 99 / 10⟩, r, 1⟩)
        ⟨9, 9, 9⟩ ⟨10, 10, 10⟩ [] = [1] ∧
      query (insert (ctor ⟨0, 0, 0⟩ 10 0 5) ⟨⟨99 / 10, 99 / 10, 99 / 10⟩, r, 1⟩)
        ⟨-10, -10, -10⟩ ⟨-9, -9, -9⟩ [] = [] := by
  have hin : inCube ⟨0, 0, 0⟩ 10 (⟨99 / 10, 99 / 10, 99 / 10⟩ : Vec3) :=
    (inCube_scene _).2 (by norm_num)
  have hb : Bounded (insert (ctor ⟨0, 0, 0⟩ 10 0 5) ⟨⟨99 / 10, 99 / 10, 99 / 10⟩, r, 1⟩) :=
    bounded_insert _ _ _ _ _ _ (shaped_ctor _ _ _ _) exactTree_scene_root (bounded_ctor _ _ _ _)
      hin
  have hperm := allObjects_insert ⟨⟨99 / 10, 99 / 10, 99 / 10⟩, r, 1⟩ (ctor ⟨0, 0, 0⟩ 10 0 5)
    (by simp [ctor])
  have hall : allObjects (insert (ctor ⟨0, 0, 0⟩ 10 0 5) ⟨⟨99 / 10, 99 / 10, 99 / 10⟩, r, 1⟩)
      = [⟨⟨99 / 10, 99 / 10, 99 / 10⟩, r, 1⟩] := by
    apply List.perm_singleton.1
    simpa [ctor, allObjects] using hperm
  rw [query_eq_linearScan _ _ _ hb, query_eq_linearScan _ _ _ hb, hall]
  constructor
  · simp only [linearScan, inBox]; norm_num
  · simp only [linearScan, inBox]; norm_num

/-- C10 (`clear`): after `clear()` the node has no children and an empty object
list while its four scalars are unchanged, so it is the node the constructor
builds from them; a query on it appends nothing, and it accepts an insert
exactly like such a freshly constructed node. -/
theorem clear_resets (c : Vec3) (h : ℚ) (d m : Int) (objs : List SceneObject)
    (ch : Fin 8 → Octree) (min max : Vec3) (results : List Int) (obj : SceneObject) :
    clear (node c h d m objs ch) = node c h d m [] (fun _ => null) ∧
      clear (node c h d m objs ch) = ctor c h d m ∧
      query (clear (node c h d m objs ch)) min max results = results ∧
      insert (clear (node c h d m objs ch)) obj = insert (ctor c h d m) obj := by
  refine ⟨rfl, rfl, ?_, rfl⟩
  rw [query_append]
  simp only [clear]
  rw [query_node]
  by_cases ho : outside c h min max
  · simp [ho]
  · simp [ho, linearScan, query, List.finRange]

end Octree

/-! ## Where objects are stored, and the geometry of children -/

namespace Octree

/-- Objects live only in leaves: at every node, a depth below `maxDepth` goes
with an empty object list and a depth that has reached `maxDepth` with an
empty child array. -/
def LeafOnly (t : Octree) : Prop :=
  AllNodes (fun _ _ d m objs ch => (d < m → objs = []) ∧ (d ≥ m → ∀ i, ch i = null)) t

/-- Child geometry as `Octree::insert` computes it: at every node, the child in
slot `i`, when present, has the half size `halfSize * 0.5f`, the parent's depth
plus one, the parent's `maxDepth`, and the center `center + offset`, all in
`float` arithmetic. -/
def ComputedChildGeometry (t : Octree) : Prop :=
  AllNodes (fun c h d m _ ch => ∀ i : Fin 8, ch i = null ∨
    ∃ objs2 ch2, ch i =
      node (c.add (childOffset h i.val)) (Float32.mul h (1 / 2)) (d + 1) m objs2 ch2) t

/-- Child geometry: at every node, the child in slot `i`, when present, has half
the parent's half size, the parent's depth plus one, the parent's `maxDepth`,
and the parent's center moved by the signed half-steps of slot `i`. -/
def ChildGeometry (t : Octree) : Prop :=
  AllNodes (fun c h d m _ ch => ∀ i : Fin 8, ch i = null ∨
    ∃ objs2 ch2, ch i =
      node ⟨c.x + signedHalf i.val 1 h, c.y + signedHalf i.val 2 h, c.z + signedHalf i.val 4 h⟩
        (h / 2) (d + 1) m objs2 ch2) t

/-- The tree with every object list emptied: the nodes, their scalars and the
occupied slots remain. -/
def stripObjects : Octree → Octree
  | null => null
  | node c h d m _ ch => node c h d m [] (fun i => stripObjects (ch i))

/-- The object is stored in a leaf, and the cube of that leaf and of every node
above it contains the object's position. -/
def StoredInLeaf : Octree → SceneObject → Prop
  | null, _ => False
  | node c h d m objs ch, o =>
    inCube c h o.position ∧ ((d ≥ m ∧ o ∈ objs) ∨ ∃ i, StoredInLeaf (ch i) o)

/-- The position lies in the closed cube of the node a pointer owns. -/
def inCubeOf : Octree → Vec3 → Prop
  | null, _ => False
  | node c h _ _ _ _, p => inCube c h p

theorem leafOnly_node {c : Vec3} {h : ℚ} {d m : Int} {objs : List SceneObject}
    {ch : Fin 8 → Octree} :
    LeafOnly (node c h d m objs ch) ↔
      ((d < m → objs = []) ∧ (d ≥ m → ∀ i, ch i = null)) ∧ ∀ i, LeafOnly (ch i) := by
  unfold LeafOnly
  exact allNodes_node

theorem leafOnly_null : LeafOnly null := by
  simp [LeafOnly, AllNodes]

theorem leafOnly_ctor (c : Vec3) (h : ℚ) (d m : Int) : LeafOnly (ctor c h d m) := by
  unfold ctor
  exact leafOnly_node.2 ⟨⟨fun _ => rfl, fun _ _ => rfl⟩, fun _ => leafOnly_null⟩

theorem leafOnly_target {c : Vec3} {h : ℚ} {d m : Int} {ch : Fin 8 → Octree}
    (hch : ∀ i, LeafOnly (ch i)) (p : Vec3) : LeafOnly (target c h d m ch p) := by
  rcases target_cases c h d m ch p with ⟨_, ht⟩ | ⟨_, ht⟩
  · rw [ht]; exact leafOnly_ctor _ _ _ _
  · rw [ht]; exact hch _

theorem leafOnly_insert (obj : SceneObject) (t : Octree) :
    LeafOnly t → LeafOnly (insert t obj) := by
  refine insert_induction obj (fun t => LeafOnly t → LeafOnly (insert t obj)) ?_ ?_ ?_ t
  · intro _
    rw [insert_null]; exact leafOnly_null
  · intro c h d m objs ch hd hl
    rw [insert_leaf _ _ _ _ _ _ _ hd]
    obtain ⟨⟨_, hleaf⟩, hch⟩ := leafOnly_node.1 hl
    exact leafOnly_node.2 ⟨⟨fun hlt => absurd hd (not_le.2 hlt), hleaf⟩, hch⟩
  · intro c h d m objs ch hd ih hl
    rw [insert_inner _ _ _ _ _ _ _ hd]
    obtain ⟨⟨hobjs, _⟩, hch⟩ := leafOnly_node.1 hl
    refine leafOnly_node.2 ⟨⟨hobjs, fun hge => absurd hd (not_lt.2 hge)⟩, ?_⟩
    intro i
    by_cases hi : i = slot c obj.position
    · subst hi
      rw [Function.update_same]
      exact ih (leafOnly_target hch obj.position)
    · rw [Function.update_noteq hi]
      exact hch i

theorem leafOnly_remove (objectId : Int) (t : Octree) :
    LeafOnly t → LeafOnly (remove t objectId) := by
  induction t with
  | null => intro _; simpa [remove] using leafOnly_null
  | node c h d m objs ch ih =>
    intro hl
    rw [remove_node]
    obtain ⟨⟨hobjs, hleaf⟩, hch⟩ := leafOnly_node.1 hl
    refine leafOnly_node.2 ⟨⟨?_, ?_⟩, fun i => ih i (hch i)⟩
    · intro hlt
      rw [hobjs hlt]; rfl
    · intro hge i
      rw [hleaf hge i]; simp [remove]

theorem leafOnly_run (t : Octree) (hl : LeafOnly t) (ops : List Op) : LeafOnly (run t ops) := by
  induction ops using List.reverseRecOn with
  | nil => simpa [run] using hl
  | append_singleton ops op ih =>
    rw [run_append]
    cases op with
    | insert obj => exact leafOnly_insert obj _ ih
    | remove objectId => exact leafOnly_remove objectId _ ih

theorem computedChildGeometry_of_shaped (t : Octree) :
    ∀ c0 h0 d0 m0, Shaped t c0 h0 d0 m0 → ComputedChildGeometry t := by
  unfold ComputedChildGeometry
  induction t with
  | null => intro _ _ _ _ _; simp [AllNodes]
  | node c h d m objs ch ih =>
    intro c0 h0 d0 m0 hs
    obtain ⟨rfl, rfl, rfl, rfl, _, hch⟩ := shaped_node.1 hs
    refine allNodes_node.2 ⟨?_, fun i => ih i _ _ _ _ (hch i)⟩
    intro i
    have hsi := hch i
    cases hci : ch i with
    | null => exact Or.inl rfl
    | node c2 h2 d2 m2 o2 ch2 =>
      rw [hci] at hsi
      obtain ⟨rfl, rfl, rfl, rfl, _, _⟩ := shaped_node.1 hsi
      exact Or.inr ⟨o2, ch2, rfl⟩

theorem childGeometry_of_shaped (t : Octree) :
    ∀ c0 h0 d0 m0, Shaped t c0 h0 d0 m0 → ExactTree (m0 - d0).toNat c0 h0 →
      ChildGeometry t := by
  unfold ChildGeometry
  induction t with
  | null => intro _ _ _ _ _ _; simp [AllNodes]
  | node c h d m objs ch ih =>
    intro c0 h0 d0 m0 hs hex
    obtain ⟨rfl, rfl, rfl, rfl, hleaf, hch⟩ := shaped_node.1 hs
    by_cases hd : d ≥ m
    · refine allNodes_node.2 ⟨fun i => Or.inl (hleaf hd i), fun i => ?_⟩
      rw [hleaf hd i]; simp [AllNodes]
    · have hlt : d < m := not_le.1 hd
      rw [toNat_succ_of_lt hlt] at hex
      refine allNodes_node.2 ⟨?_, fun i => ih i _ _ _ _ (hch i) (exactTree_child hex i)⟩
      intro i
      have hsi := hch i
      cases hci : ch i with
      | null => exact Or.inl rfl
      | node c2 h2 d2 m2 o2 ch2 =>
        rw [hci] at hsi
        obtain ⟨rfl, rfl, rfl, rfl, _, _⟩ := shaped_node.1 hsi
        refine Or.inr ⟨o2, ch2, ?_⟩
        rw [ExactTree] at hex
        rw [(hex.2.2.2 i).1, hex.2.2.1]

theorem stripObjects_remove (t : Octree) (objectId : Int) :
    stripObjects (remove t objectId) = stripObjects t := by
  induction t with
  | null => simp [remove]
  | node c h d m objs ch ih =>
    rw [remove_node]
    simp only [stripObjects]
    congr 1
    funext i
    exact ih i

theorem storedInLeaf_node {c : Vec3} {h : ℚ} {d m : Int} {objs : List SceneObject}
    {ch : Fin 8 → Octree} {o : SceneObject} :
    StoredInLeaf (node c h d m objs ch) o ↔
      inCube c h o.position ∧ ((d ≥ m ∧ o ∈ objs) ∨ ∃ i, StoredInLeaf (ch i) o) := by
  rw [StoredInLeaf]

/-- An object inserted at a node whose cube contains it ends in a leaf below
that node, inside the cubes of all nodes on the way. -/
theorem storedInLeaf_insert (obj : SceneObject) (t : Octree) :
    ∀ c0 h0 d0 m0, t ≠ null → Shaped t c0 h0 d0 m0 → ExactTree (m0 - d0).toNat c0 h0 →
      inCube c0 h0 obj.position → StoredInLeaf (insert t obj) obj := by
  refine insert_induction obj
    (fun t => ∀ c0 h0 d0 m0, t ≠ null → Shaped t c0 h0 d0 m0 →
      ExactTree (m0 - d0).toNat c0 h0 → inCube c0 h0 obj.position →
      StoredInLeaf (insert t obj) obj) ?_ ?_ ?_ t
  · intro c0 h0 d0 m0 hne _ _ _
    exact absurd rfl hne
  · intro c h d m objs ch hd c0 h0 d0 m0 _ hs _ hin
    obtain ⟨rfl, rfl, rfl, rfl, _, _⟩ := shaped_node.1 hs
    rw [insert_leaf _ _ _ _ _ _ _ hd]
    exact storedInLeaf_node.2 ⟨hin, Or.inl ⟨hd, by simp⟩⟩
  · intro c h d m objs ch hd ih c0 h0 d0 m0 _ hs hex hin
    obtain ⟨rfl, rfl, rfl, rfl, _, hsch⟩ := shaped_node.1 hs
    rw [toNat_succ_of_lt hd] at hex
    rw [insert_inner _ _ _ _ _ _ _ hd]
    refine storedInLeaf_node.2 ⟨hin, Or.inr ⟨slot c obj.position, ?_⟩⟩
    rw [Function.update_same]
    exact ih _ _ _ _ (target_ne_null _ _ _ _ _ _) (shaped_target hsch obj.position)
      (exactTree_child hex (slot c obj.position)) (inCube_child c h obj.position hex hin)

/-- The child `insert` descends into has the cube of the routed octant. -/
theorem inCubeOf_target {n : ℕ} {c : Vec3} {h : ℚ} {d m : Int} {ch : Fin 8 → Octree}
    (hch : ∀ i : Fin 8,
      Shaped (ch i) (c.add (childOffset h i.val)) (Float32.mul h (1 / 2)) (d + 1) m)
    (p : Vec3) (hex : ExactTree (n + 1) c h) (hp : inCube c h p) :
    inCubeOf (target c h d m ch p) p := by
  have hs := shaped_target hch p
  have hne := target_ne_null c h d m ch p
  cases ht : target c h d m ch p with
  | null => exact absurd ht hne
  | node c2 h2 d2 m2 o2 ch2 =>
    rw [ht] at hs
    obtain ⟨rfl, rfl, _, _, _, _⟩ := shaped_node.1 hs
    exact inCube_child c h p hex hp

end Octree

namespace Octree

/-- C18 (objects live only in leaves): in every tree reached by `insert` and
`remove` from an empty root, a node with depth below `maxDepth` has an empty
object list and a node whose depth has reached `maxDepth` has no children;
`insert` and `remove` each preserve this on any tree. -/
theorem objects_only_in_leaves (c : Vec3) (h : ℚ) (d m : Int) (ops : List Op) :
    LeafOnly (run (ctor c h d m) ops) ∧
      (∀ t obj, LeafOnly t → LeafOnly (insert t obj)) ∧
      (∀ t objectId, LeafOnly t → LeafOnly (remove t objectId)) :=
  ⟨leafOnly_run _ (leafOnly_ctor c h d m) ops,
    fun t obj => leafOnly_insert obj t, fun t objectId => leafOnly_remove objectId t⟩

/-- C19, as stated, fails: on the root `(2^24,0,0)` with half size `2` and
maximal depth `1`, the insertion of an object at `(2^24+2,0,0)` creates the
child in slot `1`, whose center the code computes as the `float` sum
`2^24 + 1`, which is `2^24`; the child's center is `(2^24,-1,-1)` and not
`c + (h/2,-h/2,-h/2) = (2^24+1,-1,-1)`. -/
theorem child_geometry_counterexample :
    run (ctor ⟨16777216, 0, 0⟩ 2 0 1) [Op.insert roundingObject] =
        node ⟨16777216, 0, 0⟩ 2 0 1 [] (Function.update (fun _ => null) 1
          (node ⟨16777216, -1, -1⟩ 1 1 1 [roundingObject] (fun _ => null))) ∧
      (16777216 : ℚ) + signedHalf 1 1 2 = 16777217 ∧
      ¬ ChildGeometry (run (ctor ⟨16777216, 0, 0⟩ 2 0 1) [Op.insert roundingObject]) := by
  have hrun : run (ctor ⟨16777216, 0, 0⟩ 2 0 1) [Op.insert roundingObject] =
      insert roundingRoot roundingObject := rfl
  have hhalf : (16777216 : ℚ) + signedHalf 1 1 2 = 16777217 := by
    have hb : (1 &&& 1 : Nat) ≠ 0 := by decide
    simp only [signedHalf, if_pos hb]
    norm_num
  refine ⟨by rw [hrun, insert_rounding], hhalf, ?_⟩
  rw [hrun, insert_rounding]
  intro hg
  unfold ChildGeometry at hg
  have h1 := (allNodes_node.1 hg).1 1
  rw [Function.update_same] at h1
  rcases h1 with h1 | ⟨objs2, ch2, h1⟩
  · simp at h1
  · simp only [node.injEq, Vec3.mk.injEq] at h1
    have hx := h1.1.1
    change (16777216 : ℚ) = 16777216 + signedHalf 1 1 2 at hx
    rw [hhalf] at hx
    norm_num at hx

/-- C19 (child geometry, amended): in every tree reached by `insert` and
`remove` from a constructed root, the child in slot `i` of a node with center
`c`, half size `h`, depth `d` and `maxDepth` `m` has depth `d+1`, `maxDepth`
`m`, the half size `h * 0.5f` and the center `c + offset` that `float`
arithmetic gives; when the root's geometry is computed without rounding these
are `h/2` and `c + (sx*h/2, sy*h/2, sz*h/2)` with the signs given by bits 1, 2,
4 of `i`; and `remove` leaves the nodes, their scalars and the occupied slots
of any tree as they are. -/
theorem child_geometry (c : Vec3) (h : ℚ) (d m : Int) (ops : List Op) :
    ComputedChildGeometry (run (ctor c h d m) ops) ∧
      (ExactTree (m - d).toNat c h → ChildGeometry (run (ctor c h d m) ops)) ∧
      (∀ t objectId, stripObjects (remove t objectId) = stripObjects t) :=
  ⟨computedChildGeometry_of_shaped _ c h d m (shaped_run c h d m ops),
    childGeometry_of_shaped _ c h d m (shaped_run c h d m ops), stripObjects_remove⟩

/-- C19 at a concrete input: the scene manager's root is computed without
rounding, so after two insertions and a removal every child has half of its
parent's half size and the center of its octant. -/
theorem child_geometry_witness :
    ExactTree ((5 : Int) - 0).toNat ⟨0, 0, 0⟩ 10 ∧
      ChildGeometry (run (ctor ⟨0, 0, 0⟩ 10 0 5)
        [Op.insert ⟨⟨1, 1, 1⟩, 1, 1⟩, Op.insert ⟨⟨-20, 3, 4⟩, 1, 2⟩, Op.remove 1]) :=
  ⟨exactTree_scene_root, (child_geometry ⟨0, 0, 0⟩ 10 0 5 _).2.1 exactTree_scene_root⟩

/-- C20, as stated, fails: the root `(2^24,0,0)` has half size `2 ≥ 0` and
maximal depth `1`; the position `(2^24+2,0,0)` lies in its closed cube and
`getChildIndex` selects slot `1` for it, but the child created there has the
rounded center `(2^24,-1,-1)` and half size `1`, and its closed cube does not
contain the position; the object is then stored in that leaf, so it does not
end in a leaf whose cube contains its position. -/
theorem routing_stays_in_cube_counterexample :
    (0 : ℚ) ≤ 2 ∧
      inCube ⟨16777216, 0, 0⟩ 2 roundingObject.position ∧
      getChildIndex ⟨16777216, 0, 0⟩ roundingObject.position = 1 ∧
      (⟨16777216, 0, 0⟩ : Vec3).add
          (childOffset 2 (getChildIndex ⟨16777216, 0, 0⟩ roundingObject.position)) =
        ⟨16777216, -1, -1⟩ ∧
      Float32.mul 2 (1 / 2) = 1 ∧
      ¬ inCube
          ((⟨16777216, 0, 0⟩ : Vec3).add
            (childOffset 2 (getChildIndex ⟨16777216, 0, 0⟩ roundingObject.position)))
          (Float32.mul 2 (1 / 2)) roundingObject.position ∧
      ¬ StoredInLeaf (insert (run (ctor ⟨16777216, 0, 0⟩ 2 0 1) []) roundingObject)
          roundingObject := by
  have hgeo := child_rounding
  refine ⟨by norm_num, inCube_rounding, index_rounding, ?_, hgeo.2, ?_, ?_⟩
  · rw [index_rounding]; exact hgeo.1
  · rw [index_rounding, hgeo.1, hgeo.2]
    exact not_inCube_rounding_leaf
  · have hrun : insert (run (ctor ⟨16777216, 0, 0⟩ 2 0 1) []) roundingObject =
        insert roundingRoot roundingObject := rfl
    rw [hrun, insert_rounding]
    intro hs
    rcases (storedInLeaf_node.1 hs).2 with ⟨hge, _⟩ | ⟨i, hi⟩
    · norm_num at hge
    · by_cases h1 : i = 1
      · subst h1
        rw [Function.update_same] at hi
        exact not_inCube_rounding_leaf (storedInLeaf_node.1 hi).1
      · rw [Function.update_noteq h1] at hi
        simp [StoredInLeaf] at hi

/-- C20 (routing stays inside the cube, amended): when the geometry is computed
without rounding, a position in the closed cube of a node lies in the closed
cube of the octant that `getChildIndex` selects for it, which is the cube of
the child `insert` descends into; hence an object inserted inside the root
cube of a tree reached from such a root ends in a leaf whose closed cube
contains its position, as do the cubes of all the leaf's ancestors. -/
theorem routing_stays_in_cube (c : Vec3) (h : ℚ) (m : Int) (ops : List Op)
    (obj : SceneObject) (hex : ExactTree m.toNat c h) (hin : inCube c h obj.position) :
    (∀ (n : ℕ) (c2 : Vec3) (h2 : ℚ) (p : Vec3), ExactTree (n + 1) c2 h2 → inCube c2 h2 p →
        inCube (c2.add (childOffset h2 (getChildIndex c2 p))) (Float32.mul h2 (1 / 2)) p) ∧
      (∀ (n : ℕ) (c2 : Vec3) (h2 : ℚ) (d2 m2 : Int) (objs : List SceneObject)
          (ch : Fin 8 → Octree) (p : Vec3),
        Shaped (node c2 h2 d2 m2 objs ch) c2 h2 d2 m2 → ExactTree (n + 1) c2 h2 →
          inCube c2 h2 p → inCubeOf (target c2 h2 d2 m2 ch p) p) ∧
      StoredInLeaf (insert (run (ctor c h 0 m) ops) obj) obj := by
  refine ⟨fun n c2 h2 p hex2 hp => inCube_child c2 h2 p hex2 hp, ?_, ?_⟩
  · intro n c2 h2 d2 m2 objs ch p hs hex2 hp
    exact inCubeOf_target (shaped_node.1 hs).2.2.2.2.2 p hex2 hp
  · exact storedInLeaf_insert obj _ c h 0 m (run_ne_null _ (by simp [ctor]) ops)
      (shaped_run c h 0 m ops) (by simpa using hex) hin

/-- C20 at a concrete input: object `1` at `(9.9, 9.9, 9.9)` inserted into the
scene manager's root, whose geometry is computed without rounding, after
another insertion and a removal. -/
theorem routing_stays_in_cube_witness :
    ExactTree (5 : Int).toNat ⟨0, 0, 0⟩ 10 ∧
      inCube ⟨0, 0, 0⟩ 10 (⟨99 / 10, 99 / 10, 99 / 10⟩ : Vec3) ∧
      StoredInLeaf
        (insert (run (ctor ⟨0, 0, 0⟩ 10 0 5) [Op.insert ⟨⟨1, 1, 1⟩, 1, 2⟩, Op.remove 2])
          ⟨⟨99 / 10, 99 / 10, 99 / 10⟩, 1, 1⟩)
        ⟨⟨99 / 10, 99 / 10, 99 / 10⟩, 1, 1⟩ :=
  ⟨exactTree_scene, (inCube_scene _).2 (by norm_num),
    (routing_stays_in_cube ⟨0, 0, 0⟩ 10 5 _ ⟨⟨99 / 10, 99 / 10, 99 / 10⟩, 1, 1⟩
      exactTree_scene ((inCube_scene _).2 (by norm_num))).2.2⟩

end Octree

/-! # Scene graph nodes (`SceneNode.h` / `SceneNode.cpp`)

Nodes are shared through `std::shared_ptr` and refer to their parent by a raw
pointer, so they are modelled in a store indexed by addresses: a child list
is a list of addresses and two lists may hold the same address.  The member
functions take the store and the address of `this` and return the new store.
`update` and `findChild` recurse along child lists, which in a store may
form a cycle; they carry a recursion budget and return `none` when it is used
up.  `float` entries of `glm::mat4` are exact rationals, and the `glm`
routines are the matrices they are documented to build.
-/

/-- A `glm::mat4`, with `*` the matrix product `glm` implements. -/
abbrev Mat4 := Matrix (Fin 4) (Fin 4) ℚ

/-- The scalar routines of the math library that `updateLocalTransform` calls:
`glm::radians` and the cosine and sine that `glm::rotate` takes of the angle. -/
structure MathLib where
  radians : ℚ → ℚ
  cos : ℚ → ℚ
  sin : ℚ → ℚ

namespace glm

/-- The call `glm::translate(m, v)`: `m` times the translation by `v`. -/
def translate (m : Mat4) (v : Vec3) : Mat4 :=
  m * !![1, 0, 0, v.x; 0, 1, 0, v.y; 0, 0, 1, v.z; 0, 0, 0, 1]

/-- The call `glm::rotate(m, angle, axis)` for an axis of length one (which
`normalize` leaves as it is): `m` times the rotation about the axis, with
`c`, `s` the cosine and sine of the angle and `temp = (1 - c) * axis`. -/
def rotate (lib : MathLib) (m : Mat4) (angle : ℚ) (axis : Vec3) : Mat4 :=
  let c := lib.cos angle
  let s := lib.sin angle
  let temp : Vec3 := ⟨(1 - c) * axis.x, (1 - c) * axis.y, (1 - c) * axis.z⟩
  m * !![c + temp.x * axis.x, temp.y * axis.x - s * axis.z, temp.z * axis.x + s * axis.y, 0;
         temp.x * axis.y + s * axis.z, c + temp.y * axis.y, temp.z * axis.y - s * axis.x, 0;
         temp.x * axis.z - s * axis.y, temp.y * axis.z + s * axis.x, c + temp.z * axis.z, 0;
         0, 0, 0, 1]

/-- The call `glm::scale(m, v)`: `m` times the scaling by `v`. -/
def scale (m : Mat4) (v : Vec3) : Mat4 :=
  m * !![v.x, 0, 0, 0; 0, v.y, 0, 0; 0, 0, v.z, 0; 0, 0, 0, 1]

end glm

/-- The data members of a `SceneNode`.  `m_parent` is the raw back pointer
(`none` for `nullptr`), `m_children` the addresses held by the vector of shared
pointers. -/
structure SceneNode where
  m_name : String
  m_parent : Option Nat
  m_children : List Nat
  m_localTransform : Mat4
  m_worldTransform : Mat4
  m_position : Vec3
  m_rotation : Vec3
  m_scale : Vec3
  objectId : Int
  visible : Bool

/-- The store of scene nodes: the node at every address. -/
abbrev SceneStore := Nat → SceneNode

namespace SceneNode

/-- The constructor `SceneNode::SceneNode(name)`. -/
def ctor (name : String) : SceneNode :=
  { m_name := name, m_parent := none, m_children := [],
    m_localTransform := 1, m_worldTransform := 1,
    m_position := Vec3.splat 0, m_rotation := Vec3.splat 0, m_scale := Vec3.splat 1,
    objectId := -1, visible := true }

/-- The member `SceneNode::addChild`; `child` is `none` for a null shared pointer. -/
def addChild (st : SceneStore) (this : Nat) (child : Option Nat) : SceneStore :=
  match child with
  | none => st
  | some c =>
    let st1 := Function.update st c { st c with m_parent := some this }
    Function.update st1 this { st1 this with m_children := (st1 this).m_children ++ [c] }

/-- The member `SceneNode::removeChild`: erase-remove of the children whose name is
`name`. -/
def removeChild (st : SceneStore) (this : Nat) (name : String) : SceneStore :=
  Function.update st this
    { st this with
      m_children := (st this).m_children.filter (fun node => !decide ((st node).m_name = name)) }

/-- The loop of `SceneNode::findChild` over the child list; `recurse` is the
recursive call on a child.  The outer `none` is an exhausted recursion budget,
`some none` the null result. -/
def findChildLoop (recurse : Nat → Option (Option Nat)) (st : SceneStore) (name : String) :
    List Nat → Option (Option Nat)
  | [] => some none
  | child :: rest =>
    if (st child).m_name = name then some (some child)
    else
      match recurse child with
      | none => none
      | some (some found) => some (some found)
      | some none => findChildLoop recurse st name rest

/-- The member `SceneNode::findChild`, with a budget for the recursion depth. -/
def findChild : Nat → SceneStore → Nat → String → Option (Option Nat)
  | 0, _, _, _ => none
  | fuel + 1, st, this, name =>
    findChildLoop (fun child => findChild fuel st child name) st name (st this).m_children

/-- The member `SceneNode::setLocalTransform`. -/
def setLocalTransform (st : SceneStore) (this : Nat) (transform : Mat4) : SceneStore :=
  Function.update st this { st this with m_localTransform := transform }

/-- The member `SceneNode::updateLocalTransform`. -/
def updateLocalTransform (lib : MathLib) (st : SceneStore) (this : Nat) : SceneStore :=
  let translation := glm.translate 1 (st this).m_position
  let rotX := glm.rotate lib 1 (lib.radians (st this).m_rotation.x) ⟨1, 0, 0⟩
  let rotY := glm.rotate lib 1 (lib.radians (st this).m_rotation.y) ⟨0, 1, 0⟩
  let rotZ := glm.rotate lib 1 (lib.radians (st this).m_rotation.z) ⟨0, 0, 1⟩
  let scale := glm.scale 1 (st this).m_scale
  Function.update st this
    { st this with m_localTransform := translation * rotX * rotY * rotZ * scale }

/-- The member `SceneNode::setPosition`. -/
def setPosition (lib : MathLib) (st : SceneStore) (this : Nat) (position : Vec3) : SceneStore :=
  updateLocalTransform lib (Function.update st this { st this with m_position := position }) this

/-- The member `SceneNode::setRotation`. -/
def setRotation (lib : MathLib) (st : SceneStore) (this : Nat) (rotation : Vec3) : SceneStore :=
  updateLocalTransform lib (Function.update st this { st this with m_rotation := rotation }) this

/-- The member `SceneNode::setScale`. -/
def setScale (lib : MathLib) (st : SceneStore) (this : Nat) (scale : Vec3) : SceneStore :=
  updateLocalTransform lib (Function.update st this { st this with m_scale := scale }) this

/-- The member `SceneNode::getWorldTransform`. -/
def getWorldTransform (st : SceneStore) (this : Nat) : Mat4 := (st this).m_worldTransform

/-- The loop of `SceneNode::update` over the child list; `recurse` is the recursive
call on a child, which receives a reference to `this->m_worldTransform`. -/
def updateLoop (recurse : SceneStore → Nat → Mat4 → Option SceneStore) (this : Nat) :
    List Nat → SceneStore → Option SceneStore
  | [], st => some st
  | child :: rest, st =>
    match recurse st child (st this).m_worldTransform with
    | none => none
    | some st2 => updateLoop recurse this rest st2

/-- The member `SceneNode::update`, with a budget for the recursion depth. -/
def update : Nat → SceneStore → Nat → Mat4 → Option SceneStore
  | 0, _, _, _ => none
  | fuel + 1, st, this, parentTransform =>
    let st1 := Function.update st this
      { st this with m_worldTransform := parentTransform * (st this).m_localTransform }
    updateLoop (update fuel) this (st1 this).m_children st1

/-- Pre-order listing of the nodes below an address, the address first, down to
the given number of levels. -/
def subtree : Nat → SceneStore → Nat → List Nat
  | 0, _, _ => []
  | n + 1, st, a => a :: (st a).m_children.flatMap (subtree n st)

/-- Pre-order listing of the proper descendants of an address. -/
def descendants : Nat → SceneStore → Nat → List Nat
  | 0, _, _ => []
  | n + 1, st, a => (st a).m_children.flatMap (subtree n st)

/-- Every chain of child links from the address ends within `n` levels. -/
def WithinDepth (st : SceneStore) : Nat → Nat → Prop
  | 0, _ => False
  | n + 1, a => ∀ c ∈ (st a).m_children, WithinDepth st n c

/-- The child relation of the store: `c` is in the child list of `a`. -/
def IsChild (st : SceneStore) (a c : Nat) : Prop := c ∈ (st a).m_children

/-- Two stores agree except for the cached world transforms. -/
def OnlyWorld (st st2 : SceneStore) : Prop :=
  ∀ b, st2 b = { st b with m_worldTransform := (st2 b).m_worldTransform }

end SceneNode

/-! ## Trees in the store -/

namespace SceneNode

theorem onlyWorld_refl (st : SceneStore) : OnlyWorld st st := fun _ => rfl

theorem onlyWorld_children {st st2 : SceneStore} (h : OnlyWorld st st2) (b : Nat) :
    (st2 b).m_children = (st b).m_children := by
  rw [h b]

theorem onlyWorld_local {st st2 : SceneStore} (h : OnlyWorld st st2) (b : Nat) :
    (st2 b).m_localTransform = (st b).m_localTransform := by
  rw [h b]

theorem onlyWorld_trans {st st2 st3 : SceneStore} (h12 : OnlyWorld st st2)
    (h23 : OnlyWorld st2 st3) : OnlyWorld st st3 := by
  intro b
  rw [h23 b, h12 b]

theorem subtree_congr {st st2 : SceneStore}
    (h : ∀ b, (st2 b).m_children = (st b).m_children) (n : Nat) (a : Nat) :
    subtree n st2 a = subtree n st a := by
  induction n generalizing a with
  | zero => rfl
  | succ n ih =>
    simp only [subtree, h a]
    congr 1
    exact List.flatMap_congr (fun c _ => ih c) |>.trans rfl

theorem withinDepth_congr {st st2 : SceneStore}
    (h : ∀ b, (st2 b).m_children = (st b).m_children) (n : Nat) (a : Nat) :
    WithinDepth st2 n a ↔ WithinDepth st n a := by
  induction n generalizing a with
  | zero => simp [WithinDepth]
  | succ n ih =>
    simp only [WithinDepth, h a]
    exact forall₂_congr (fun c _ => ih c)

theorem withinDepth_pos {st : SceneStore} {n a : Nat} (h : WithinDepth st n a) : 0 < n := by
  cases n with
  | zero => exact absurd h (by simp [WithinDepth])
  | succ n => exact Nat.succ_pos n

theorem mem_subtree_self {st : SceneStore} {n a : Nat} (h : WithinDepth st n a) :
    a ∈ subtree n st a := by
  cases n with
  | zero => exact absurd h (by simp [WithinDepth])
  | succ n => simp [subtree]

theorem subtree_succ (st : SceneStore) (n a : Nat) :
    subtree (n + 1) st a = a :: descendants (n + 1) st a := rfl

theorem descendants_subset {st : SceneStore} {n a b : Nat} (h : b ∈ descendants n st a) :
    b ∈ subtree n st a := by
  cases n with
  | zero => simp [descendants] at h
  | succ n => rw [subtree_succ]; exact List.mem_cons_of_mem _ h

/-- The listing is closed under child links. -/
theorem child_mem_descendants {st : SceneStore} (n : Nat) :
    ∀ a b c, WithinDepth st n a → b ∈ subtree n st a → c ∈ (st b).m_children →
      c ∈ descendants n st a := by
  induction n with
  | zero => intro a b c h; exact absurd h (by simp [WithinDepth])
  | succ n ih =>
    intro a b c hd hb hc
    rw [subtree_succ] at hb
    simp only [descendants, List.mem_flatMap]
    rcases List.mem_cons.1 hb with rfl | hb
    · exact ⟨c, hc, mem_subtree_self (hd c hc)⟩
    · simp only [descendants, List.mem_flatMap] at hb
      obtain ⟨c0, hc0, hb0⟩ := hb
      exact ⟨c0, hc0, descendants_subset (ih c0 b c (hd c0 hc0) hb0 hc)⟩

end SceneNode

/-! ## `update` on a tree -/

namespace SceneNode

/-- What `update` with budget `n` does on a tree of at most `n` levels: it
returns, changes nothing but world transforms, touches no node outside the
tree, and leaves every node of the tree with the world transform of the node
above it times its own local transform. -/
def UpdateSpec (n : Nat) : Prop :=
  ∀ (st : SceneStore) (a : Nat) (P : Mat4), WithinDepth st n a → (subtree n st a).Nodup →
    ∃ st2, update n st a P = some st2 ∧ OnlyWorld st st2 ∧
      (∀ b, b ∉ subtree n st a → st2 b = st b) ∧
      (st2 a).m_worldTransform = P * (st a).m_localTransform ∧
      ∀ b ∈ subtree n st a, ∀ c ∈ (st b).m_children,
        (st2 c).m_worldTransform = (st2 b).m_worldTransform * (st c).m_localTransform

theorem updateLoop_spec (n : Nat) (H : UpdateSpec n) (st : SceneStore) (this : Nat) :
    ∀ (cs : List Nat) (st0 : SceneStore), (∀ c ∈ cs, WithinDepth st n c) →
      (cs.flatMap (subtree n st)).Nodup → this ∉ cs.flatMap (subtree n st) →
      OnlyWorld st st0 →
      ∃ st2, updateLoop (update n) this cs st0 = some st2 ∧ OnlyWorld st st2 ∧
        (∀ b, b ∉ cs.flatMap (subtree n st) → st2 b = st0 b) ∧
        (∀ c ∈ cs, (st2 c).m_worldTransform =
          (st0 this).m_worldTransform * (st c).m_localTransform) ∧
        ∀ b ∈ cs.flatMap (subtree n st), ∀ c ∈ (st b).m_children,
          (st2 c).m_worldTransform = (st2 b).m_worldTransform * (st c).m_localTransform := by
  intro cs
  induction cs with
  | nil =>
    intro st0 _ _ _ how
    exact ⟨st0, rfl, how, fun _ _ => rfl, by simp, by simp⟩
  | cons c cs ih =>
    intro st0 hd hnd hthis how
    rw [List.flatMap_cons] at hnd hthis
    have hnd2 := List.nodup_append.1 hnd
    have hch0 : ∀ b, (st0 b).m_children = (st b).m_children := onlyWorld_children how
    have hdc : WithinDepth st n c := hd c (List.mem_cons_self _ _)
    have hsub0 : subtree n st0 c = subtree n st c := subtree_congr hch0 n c
    obtain ⟨st1, hupd, how01, hframe1, hroot1, hin1⟩ :=
      H st0 c (st0 this).m_worldTransform ((withinDepth_congr hch0 n c).2 hdc)
        (by rw [hsub0]; exact hnd2.1)
    rw [hsub0] at hframe1 hin1
    have hthis1 : st1 this = st0 this :=
      hframe1 this (fun hm => hthis (List.mem_append_left _ hm))
    obtain ⟨st2, hloop, how2, hframe2, hroots2, hin2⟩ :=
      ih st1 (fun c2 hc2 => hd c2 (List.mem_cons_of_mem _ hc2)) hnd2.2.1
        (fun hm => hthis (List.mem_append_right _ hm)) (onlyWorld_trans how how01)
    have hkeep : ∀ b, b ∈ subtree n st c → st2 b = st1 b :=
      fun b hb => hframe2 b (fun hm => hnd2.2.2 hb hm)
    refine ⟨st2, ?_, how2, ?_, ?_, ?_⟩
    · simp only [updateLoop, hupd]
      exact hloop
    · intro b hb
      rw [List.flatMap_cons] at hb
      rw [hframe2 b (fun hm => hb (List.mem_append_right _ hm)),
        hframe1 b (fun hm => hb (List.mem_append_left _ hm))]
    · intro c2 hc2
      rcases List.mem_cons.1 hc2 with rfl | hc2
      · rw [hkeep c2 (mem_subtree_self hdc), hroot1, onlyWorld_local how]
      · rw [hroots2 c2 hc2, hthis1]
    · intro b hb c2 hc2
      rw [List.flatMap_cons] at hb
      rcases List.mem_append.1 hb with hb | hb
      · have hc2s : c2 ∈ subtree n st c :=
          descendants_subset (child_mem_descendants n c b c2 hdc hb hc2)
        rw [hkeep b hb, hkeep c2 hc2s]
        have := hin1 b hb c2 (by rw [hch0]; exact hc2)
        rw [this, onlyWorld_local how]
      · exact hin2 b hb c2 hc2

theorem update_spec (n : Nat) : UpdateSpec n := by
  induction n with
  | zero => intro st a P h; exact absurd h (by simp [WithinDepth])
  | succ n ih =>
    intro st a P hd hnd
    rw [subtree_succ] at hnd
    have hnd2 := List.nodup_cons.1 hnd
    have how1 : OnlyWorld st (Function.update st a
        { st a with m_worldTransform := P * (st a).m_localTransform }) := by
      intro b
      by_cases hb : b = a
      · subst hb; simp
      · simp [Function.update_noteq hb]
    obtain ⟨st2, hloop, how2, hframe2, hroots2, hin2⟩ :=
      updateLoop_spec n ih st a (st a).m_children _ (fun c hc => hd c hc) hnd2.2 hnd2.1 how1
    have hself : st2 a = Function.update st a
        { st a with m_worldTransform := P * (st a).m_localTransform } a := hframe2 a hnd2.1
    rw [Function.update_same] at hself
    refine ⟨st2, ?_, how2, ?_, ?_, ?_⟩
    · simp only [update, Function.update_same]
      exact hloop
    · intro b hb
      rw [subtree_succ] at hb
      have hba : b ≠ a := fun e => hb (e ▸ List.mem_cons_self _ _)
      rw [hframe2 b (fun hm => hb (List.mem_cons_of_mem _ hm)), Function.update_noteq hba]
    · rw [hself]
    · intro b hb c hc
      rw [subtree_succ] at hb
      rcases List.mem_cons.1 hb with rfl | hb
      · rw [hroots2 c hc, hself, Function.update_same]
      · exact hin2 b hb c hc

end SceneNode

/-! ## Paths, descendants and `findChild` -/

namespace SceneNode

/-- Along a chain of child links inside an updated tree, the world transform of
the last node is the world transform of the first times the local transforms
of the nodes after it, in order. -/
theorem world_along_path {st st2 : SceneStore} {n r : Nat} (hd : WithinDepth st n r)
    (hin : ∀ b ∈ subtree n st r, ∀ c ∈ (st b).m_children,
      (st2 c).m_worldTransform = (st2 b).m_worldTransform * (st c).m_localTransform) :
    ∀ (path : List Nat) (b : Nat), b ∈ subtree n st r → List.Chain (IsChild st) b path →
      (st2 (path.getLastD b)).m_worldTransform =
        (st2 b).m_worldTransform * (path.map (fun x => (st x).m_localTransform)).prod := by
  intro path
  induction path with
  | nil => intro b _ _; simp
  | cons c path ih =>
    intro b hb hchain
    obtain ⟨hbc, hrest⟩ := List.chain_cons.1 hchain
    have hc : c ∈ subtree n st r := descendants_subset (child_mem_descendants n r b c hd hb hbc)
    rw [List.getLastD_cons, List.map_cons, List.prod_cons, ih c hc hrest, hin b hb c hbc,
      mul_assoc]

theorem transGen_of_mem_descendants {st : SceneStore} (n : Nat) :
    ∀ a b, b ∈ descendants n st a → Relation.TransGen (IsChild st) a b := by
  induction n with
  | zero => intro a b h; simp [descendants] at h
  | succ n ih =>
    intro a b h
    simp only [descendants, List.mem_flatMap] at h
    obtain ⟨c, hc, hb⟩ := h
    cases n with
    | zero => simp [subtree] at hb
    | succ n =>
      rw [subtree_succ] at hb
      rcases List.mem_cons.1 hb with rfl | hb
      · exact Relation.TransGen.single hc
      · exact Relation.TransGen.head hc (ih c b hb)

theorem mem_descendants_of_transGen {st : SceneStore} {n a : Nat} (hd : WithinDepth st n a)
    {b : Nat} (h : Relation.TransGen (IsChild st) a b) : b ∈ descendants n st a := by
  induction h with
  | single hc => exact child_mem_descendants n a a _ hd (mem_subtree_self hd) hc
  | tail _ hc ih => exact child_mem_descendants n a _ _ hd (descendants_subset ih) hc

/-- The listing holds exactly the proper descendants. -/
theorem mem_descendants_iff {st : SceneStore} {n a : Nat} (hd : WithinDepth st n a) (b : Nat) :
    b ∈ descendants n st a ↔ Relation.TransGen (IsChild st) a b :=
  ⟨transGen_of_mem_descendants n a b, mem_descendants_of_transGen hd⟩

theorem depth_of_transGen {st : SceneStore} {n a b : Nat} (hd : WithinDepth st n a)
    (h : Relation.TransGen (IsChild st) a b) : ∃ k, k < n ∧ WithinDepth st k b := by
  induction h with
  | single hc =>
    cases n with
    | zero => exact absurd hd (by simp [WithinDepth])
    | succ n => exact ⟨n, Nat.lt_succ_self n, hd _ hc⟩
  | tail _ hc ih =>
    obtain ⟨k, hk, hdk⟩ := ih
    cases k with
    | zero => exact absurd hdk (by simp [WithinDepth])
    | succ k => exact ⟨k, by omega, hdk _ hc⟩

/-- A node of a tree of bounded depth is not its own descendant. -/
theorem not_transGen_self {st : SceneStore} (n : Nat) :
    ∀ a, WithinDepth st n a → ¬ Relation.TransGen (IsChild st) a a := by
  induction n using Nat.strong_induction_on with
  | _ n ih =>
    intro a hd h
    obtain ⟨k, hk, hdk⟩ := depth_of_transGen hd h
    exact ih k hk a hdk h

theorem findChildLoop_eq {st : SceneStore} {name : String} {n : Nat}
    (recurse : Nat → Option (Option Nat)) :
    ∀ cs : List Nat, (∀ c ∈ cs, WithinDepth st n c) →
      (∀ c ∈ cs, recurse c =
        some ((descendants n st c).find? (fun b => decide ((st b).m_name = name)))) →
      findChildLoop recurse st name cs =
        some ((cs.flatMap (subtree n st)).find? (fun b => decide ((st b).m_name = name))) := by
  intro cs
  induction cs with
  | nil => intro _ _; simp [findChildLoop]
  | cons c cs ih =>
    intro hd hrec
    have hdc := hd c (List.mem_cons_self _ _)
    have ih2 := ih (fun c2 hc2 => hd c2 (List.mem_cons_of_mem _ hc2))
      (fun c2 hc2 => hrec c2 (List.mem_cons_of_mem _ hc2))
    obtain ⟨k, rfl⟩ : ∃ k, n = k + 1 := ⟨n - 1, by have := withinDepth_pos hdc; omega⟩
    rw [List.flatMap_cons, subtree_succ, List.cons_append, List.find?_cons]
    simp only [findChildLoop]
    by_cases hname : (st c).m_name = name
    · simp [hname]
    · simp only [hname, if_false, decide_False]
      rw [hrec c (List.mem_cons_self _ _), List.find?_append]
      cases hfind : (descendants (k + 1) st c).find? (fun b => decide ((st b).m_name = name)) with
      | none => simpa using ih2
      | some found => simp

/-- With a budget covering the depth of the tree, `findChild` returns the first
proper descendant in pre-order that carries the name. -/
theorem findChild_eq {st : SceneStore} {name : String} (n : Nat) :
    ∀ a, WithinDepth st n a →
      findChild n st a name =
        some ((descendants n st a).find? (fun b => decide ((st b).m_name = name))) := by
  induction n with
  | zero => intro a h; exact absurd h (by simp [WithinDepth])
  | succ n ih =>
    intro a hd
    simp only [findChild, descendants]
    exact findChildLoop_eq _ _ (fun c hc => hd c hc) (fun c hc => ih c (hd c hc))

end SceneNode

/-! ## Setters, `addChild`, `removeChild` -/

namespace SceneNode

/-- The translation matrix `T(v)`. -/
def T (v : Vec3) : Mat4 := !![1, 0, 0, v.x; 0, 1, 0, v.y; 0, 0, 1, v.z; 0, 0, 0, 1]

/-- The rotation `Rx` about the x axis by an angle in degrees. -/
def Rx (lib : MathLib) (deg : ℚ) : Mat4 :=
  !![1, 0, 0, 0;
     0, lib.cos (lib.radians deg), -lib.sin (lib.radians deg), 0;
     0, lib.sin (lib.radians deg), lib.cos (lib.radians deg), 0;
     0, 0, 0, 1]

/-- The rotation `Ry` about the y axis by an angle in degrees. -/
def Ry (lib : MathLib) (deg : ℚ) : Mat4 :=
  !![lib.cos (lib.radians deg), 0, lib.sin (lib.radians deg), 0;
     0, 1, 0, 0;
     -lib.sin (lib.radians deg), 0, lib.cos (lib.radians deg), 0;
     0, 0, 0, 1]

/-- The rotation `Rz` about the z axis by an angle in degrees. -/
def Rz (lib : MathLib) (deg : ℚ) : Mat4 :=
  !![lib.cos (lib.radians deg), -lib.sin (lib.radians deg), 0, 0;
     lib.sin (lib.radians deg), lib.cos (lib.radians deg), 0, 0;
     0, 0, 1, 0;
     0, 0, 0, 1]

/-- The scaling matrix `S(v)`. -/
def S (v : Vec3) : Mat4 := !![v.x, 0, 0, 0; 0, v.y, 0, 0; 0, 0, v.z, 0; 0, 0, 0, 1]

/-- The local matrix of a node with the given position, rotation (Euler angles
in degrees) and scale: `T * Rx * Ry * Rz * S`. -/
def composed (lib : MathLib) (position rotation scale : Vec3) : Mat4 :=
  T position * Rx lib rotation.x * Ry lib rotation.y * Rz lib rotation.z * S scale

theorem translate_one (v : Vec3) : glm.translate 1 v = T v := by
  simp [glm.translate, T]

theorem scale_one (v : Vec3) : glm.scale 1 v = S v := by
  simp [glm.scale, S]

theorem rotate_one_x (lib : MathLib) (deg : ℚ) :
    glm.rotate lib 1 (lib.radians deg) ⟨1, 0, 0⟩ = Rx lib deg := by
  simp [glm.rotate, Rx]

theorem rotate_one_y (lib : MathLib) (deg : ℚ) :
    glm.rotate lib 1 (lib.radians deg) ⟨0, 1, 0⟩ = Ry lib deg := by
  simp [glm.rotate, Ry]

theorem rotate_one_z (lib : MathLib) (deg : ℚ) :
    glm.rotate lib 1 (lib.radians deg) ⟨0, 0, 1⟩ = Rz lib deg := by
  simp [glm.rotate, Rz]

theorem updateLocalTransform_eq (lib : MathLib) (st : SceneStore) (a : Nat) :
    updateLocalTransform lib st a =
      Function.update st a
        { st a with
          m_localTransform := composed lib (st a).m_position (st a).m_rotation (st a).m_scale } := by
  simp only [updateLocalTransform, translate_one, scale_one, rotate_one_x, rotate_one_y,
    rotate_one_z, composed]

theorem setPosition_eq (lib : MathLib) (st : SceneStore) (a : Nat) (v : Vec3) :
    setPosition lib st a v =
      Function.update st a
        { st a with
          m_position := v,
          m_localTransform := composed lib v (st a).m_rotation (st a).m_scale } := by
  simp [setPosition, updateLocalTransform_eq]

theorem setRotation_eq (lib : MathLib) (st : SceneStore) (a : Nat) (v : Vec3) :
    setRotation lib st a v =
      Function.update st a
        { st a with
          m_rotation := v,
          m_localTransform := composed lib (st a).m_position v (st a).m_scale } := by
  simp [setRotation, updateLocalTransform_eq]

theorem setScale_eq (lib : MathLib) (st : SceneStore) (a : Nat) (v : Vec3) :
    setScale lib st a v =
      Function.update st a
        { st a with
          m_scale := v,
          m_localTransform := composed lib (st a).m_position (st a).m_rotation v } := by
  simp [setScale, updateLocalTransform_eq]

/-- C12 (setters recompute the local matrix eagerly): each of `setPosition`,
`setRotation`, `setScale` changes, in the node it is called on, the component
it names and the local transform, which becomes `T * Rx * Ry * Rz * S` of the
three components as they stand after the call; every other member of the node
and every other node stay as they are. -/
theorem setters_recompute_local (lib : MathLib) (st : SceneStore) (a : Nat) (v : Vec3) :
    setPosition lib st a v =
        Function.update st a
          { st a with
            m_position := v,
            m_localTransform := composed lib v (st a).m_rotation (st a).m_scale } ∧
      setRotation lib st a v =
        Function.update st a
          { st a with
            m_rotation := v,
            m_localTransform := composed lib (st a).m_position v (st a).m_scale } ∧
      setScale lib st a v =
        Function.update st a
          { st a with
            m_scale := v,
            m_localTransform := composed lib (st a).m_position (st a).m_rotation v } := by
  exact ⟨setPosition_eq lib st a v, setRotation_eq lib st a v, setScale_eq lib st a v⟩

/-- A node with three children: `1` and `2` both named `a`, and `3` named `b`. -/
def twins : SceneStore := fun a =>
  if a = 0 then { ctor "root" with m_children := [1, 2, 3] }
  else if a = 3 then ctor "b" else ctor "a"

/-- C13, as stated, fails: children `1` and `2` of node `0` both carry the name
`a`; after `removeChild("a")` neither is left in the child list, while the
claim keeps the later one. -/
theorem removeChild_first_only_counterexample :
    (twins 0).m_children = [1, 2, 3] ∧ (twins 1).m_name = "a" ∧ (twins 2).m_name = "a" ∧
      (removeChild twins 0 "a" 0).m_children = [3] := by
  simp [twins, removeChild, ctor]

/-- C13 (amended): `removeChild(name)` removes every direct child whose name
matches and keeps the others in their relative order; it changes nothing but
the child list of the node it is called on (no descendant is searched), and
nothing at all when no direct child carries the name. -/
theorem removeChild_removes_all_matching (st : SceneStore) (a : Nat) (name : String) :
    (removeChild st a name a).m_children =
        (st a).m_children.filter (fun c => decide ((st c).m_name ≠ name)) ∧
      (removeChild st a name a).m_children.Sublist (st a).m_children ∧
      (∀ c, c ∈ (removeChild st a name a).m_children ↔
        c ∈ (st a).m_children ∧ (st c).m_name ≠ name) ∧
      (∀ b, removeChild st a name b =
        { st b with m_children := (removeChild st a name b).m_children }) ∧
      (∀ b, b ≠ a → removeChild st a name b = st b) ∧
      ((∀ c ∈ (st a).m_children, (st c).m_name ≠ name) → removeChild st a name = st) := by
  have hchildren : (removeChild st a name a).m_children =
      (st a).m_children.filter (fun c => decide ((st c).m_name ≠ name)) := by
    simp only [removeChild, Function.update_same]
    congr 1
    funext c
    simp
  refine ⟨hchildren, ?_, ?_, ?_, ?_, ?_⟩
  · rw [hchildren]; exact List.filter_sublist _
  · intro c
    rw [hchildren]; simp
  · intro b
    by_cases hb : b = a
    · subst hb; simp [removeChild]
    · simp [removeChild, Function.update_noteq hb]
  · intro b hb
    simp [removeChild, Function.update_noteq hb]
  · intro habs
    funext b
    by_cases hb : b = a
    · subst hb
      have hfil : (st b).m_children.filter (fun node => !decide ((st node).m_name = name))
          = (st b).m_children := by
        rw [List.filter_eq_self]
        intro c hc
        simpa using habs c hc
      simp [removeChild, hfil]
    · simp [removeChild, Function.update_noteq hb]

/-- C13 at a concrete input: no child of node `0` carries the name `zz`, so
removing it leaves the store as it is. -/
theorem removeChild_removes_all_matching_witness :
    removeChild twins 0 "zz" = twins := by
  refine (removeChild_removes_all_matching twins 0 "zz").2.2.2.2.2 ?_
  intro c hc
  simp only [twins, if_true, List.mem_cons, List.mem_singleton, List.not_mem_nil, or_false] at hc
  rcases hc with rfl | rfl | rfl <;> simp [twins, ctor]

/-- C15 (`addChild`): with a non-null node `n`, `a.addChild(n)` appends `n` to the
child list of `a`, sets the parent pointer of `n` to `a`, and changes no other
child list, no other parent pointer and no other member; a null pointer
changes nothing.  After `a.addChild(n)` and then `b.addChild(n)`, `n` is in the
child lists of both `a` and `b` and its parent pointer is `b`. -/
theorem addChild_appends_and_reparents (st : SceneStore) (a b n : Nat) :
    (addChild st a (some n) a).m_children = (st a).m_children ++ [n] ∧
      (addChild st a (some n) n).m_parent = some a ∧
      (∀ x, x ≠ a → (addChild st a (some n) x).m_children = (st x).m_children) ∧
      (∀ x, x ≠ n → (addChild st a (some n) x).m_parent = (st x).m_parent) ∧
      (∀ x, addChild st a (some n) x =
        { st x with m_children := (addChild st a (some n) x).m_children,
                    m_parent := (addChild st a (some n) x).m_parent }) ∧
      addChild st a none = st ∧
      n ∈ (addChild (addChild st a (some n)) b (some n) a).m_children ∧
      n ∈ (addChild (addChild st a (some n)) b (some n) b).m_children ∧
      (addChild (addChild st a (some n)) b (some n) n).m_parent = some b := by
  have hchildren : ∀ (s : SceneStore) (p c : Nat),
      (addChild s p (some c) p).m_children = (s p).m_children ++ [c] := by
    intro s p c
    by_cases hpc : p = c
    · subst hpc; simp [addChild]
    · simp [addChild, Function.update_noteq hpc]
  have hparent : ∀ (s : SceneStore) (p c : Nat), (addChild s p (some c) c).m_parent = some p := by
    intro s p c
    by_cases hpc : c = p
    · subst hpc; simp [addChild]
    · simp [addChild, Function.update_noteq hpc]
  have hother : ∀ (s : SceneStore) (p c x : Nat), x ≠ p →
      (addChild s p (some c) x).m_children = (s x).m_children := by
    intro s p c x hx
    by_cases hxc : x = c
    · subst hxc; simp [addChild, Function.update_noteq hx]
    · simp [addChild, Function.update_noteq hx, Function.update_noteq hxc]
  refine ⟨hchildren st a n, hparent st a n, fun x hx => hother st a n x hx, ?_, ?_, rfl, ?_,
    ?_, hparent _ b n⟩
  · intro x hx
    by_cases hxa : x = a
    · subst hxa; simp [addChild, Function.update_noteq hx]
    · simp [addChild, Function.update_noteq hx, Function.update_noteq hxa]
  · intro x
    by_cases hxa : x = a <;> by_cases hxn : x = n
    · subst hxa; subst hxn; simp [addChild]
    · subst hxa; simp [addChild, Function.update_noteq hxn]
    · subst hxn; simp [addChild, Function.update_noteq hxa]
    · simp [addChild, Function.update_noteq hxa, Function.update_noteq hxn]
  · by_cases hab : a = b
    · subst hab
      rw [hchildren, hchildren]; simp
    · rw [hother _ b n a hab, hchildren]; simp
  · rw [hchildren]; simp

end SceneNode

/-! ## World transforms and search on trees -/

namespace SceneNode

/-- A root `0` named `root` with the children `1` and `2`; `1` has the child `3`.
Node `3` is named `leaf`, the others below the root `mid`. -/
def sampleStore : SceneStore := fun a =>
  if a = 0 then { ctor "root" with m_children := [1, 2] }
  else if a = 1 then { ctor "mid" with m_children := [3], m_parent := some 0 }
  else if a = 2 then { ctor "mid" with m_parent := some 0 }
  else { ctor "leaf" with m_parent := some 1 }

theorem sampleStore_depth : WithinDepth sampleStore 3 0 := by
  simp [WithinDepth, sampleStore, ctor]

theorem sampleStore_nodup : (subtree 3 sampleStore 0).Nodup := by
  simp [subtree, sampleStore, ctor]

/-- C11 (`update` composes along paths): on a tree (no node listed twice below
the root, depth within the recursion budget) `root.update(P)` returns, changes
nothing but world transforms, gives the root `P * localTransform(root)`, gives
every node below a node `a` of the tree the world transform of `a` times its
own local transform, and so gives the last node of every chain of child links
from the root `P` times the product of the local transforms along the chain,
root first. -/
theorem update_composes_along_paths (st : SceneStore) (n root : Nat) (P : Mat4)
    (hdepth : WithinDepth st n root) (htree : (subtree n st root).Nodup) :
    ∃ st2, update n st root P = some st2 ∧ OnlyWorld st st2 ∧
      (st2 root).m_worldTransform = P * (st2 root).m_localTransform ∧
      (∀ a c, a ∈ subtree n st root → IsChild st a c →
        (st2 c).m_worldTransform = (st2 a).m_worldTransform * (st2 c).m_localTransform) ∧
      (∀ path, List.Chain (IsChild st) root path →
        (st2 (path.getLastD root)).m_worldTransform =
          P * ((root :: path).map (fun x => (st2 x).m_localTransform)).prod) := by
  obtain ⟨st2, hupd, how, _, hroot, hin⟩ := update_spec n st root P hdepth htree
  have hlocal : (fun x => (st2 x).m_localTransform) = (fun x => (st x).m_localTransform) :=
    funext (onlyWorld_local how)
  refine ⟨st2, hupd, how, ?_, ?_, ?_⟩
  · rw [hroot, onlyWorld_local how]
  · intro a c ha hc
    rw [hin a ha c hc, onlyWorld_local how]
  · intro path hchain
    rw [world_along_path hdepth hin path root (mem_subtree_self hdepth) hchain, hroot, hlocal,
      List.map_cons, List.prod_cons, mul_assoc]

/-- C11 at a concrete tree: after `update` with the identity on the sample
store, node `3`, reached by the chain `0, 1, 3`, has the product of the three
local transforms. -/
theorem update_composes_along_paths_witness :
    ∃ st2, update 3 sampleStore 0 1 = some st2 ∧
      (st2 3).m_worldTransform =
        1 * ([0, 1, 3].map (fun x => (st2 x).m_localTransform)).prod := by
  obtain ⟨st2, hupd, _, _, _, hpath⟩ :=
    update_composes_along_paths sampleStore 3 0 1 sampleStore_depth sampleStore_nodup
  refine ⟨st2, hupd, ?_⟩
  have := hpath [1, 3] (by simp [IsChild, sampleStore, ctor])
  simpa using this

/-- C14 (`findChild`): on a structure whose depth is within the recursion budget,
`findChild(name)` returns the first node carrying the name in the pre-order
listing of the proper descendants (children in list order, each child followed
by its own descendants); that listing holds exactly the nodes reachable by
one or more child links; the result is null exactly when no proper descendant
carries the name; and the node itself is never returned. -/
theorem findChild_first_in_preorder (st : SceneStore) (n a : Nat) (name : String)
    (hdepth : WithinDepth st n a) :
    findChild n st a name =
        some ((descendants n st a).find? (fun b => decide ((st b).m_name = name))) ∧
      (∀ k, descendants (k + 2) st a =
        (st a).m_children.flatMap (fun c => c :: descendants (k + 1) st c)) ∧
      (∀ b, b ∈ descendants n st a ↔ Relation.TransGen (IsChild st) a b) ∧
      (findChild n st a name = some none ↔
        ∀ b, Relation.TransGen (IsChild st) a b → (st b).m_name ≠ name) ∧
      findChild n st a name ≠ some (some a) := by
  have heq := @findChild_eq st name n a hdepth
  refine ⟨heq, fun k => rfl, mem_descendants_iff hdepth, ?_, ?_⟩
  · rw [heq]
    simp only [Option.some.injEq, List.find?_eq_none, decide_eq_true_eq]
    constructor
    · intro h b hb
      exact h b (mem_descendants_of_transGen hdepth hb)
    · intro h b hb
      exact h b (transGen_of_mem_descendants n a b hb)
  · rw [heq]
    intro h
    have hmem := List.mem_of_find?_eq_some (Option.some.inj h)
    exact not_transGen_self n a hdepth (transGen_of_mem_descendants n a a hmem)

/-- C14 at a concrete tree: below the root of the sample store the name `mid` is
first met at node `1`, and the name `leaf` at node `3`, which is listed before
the second child `2`. -/
theorem findChild_first_in_preorder_witness :
    findChild 3 sampleStore 0 "mid" = some (some 1) ∧
      findChild 3 sampleStore 0 "leaf" = some (some 3) := by
  constructor
  · rw [(findChild_first_in_preorder sampleStore 3 0 "mid" sampleStore_depth).1]
    simp [descendants, subtree, sampleStore, ctor]
  · rw [(findChild_first_in_preorder sampleStore 3 0 "leaf" sampleStore_depth).1]
    simp [descendants, subtree, sampleStore, ctor]

end SceneNode

/-! ## Scenario and propagation -/

namespace SceneNode

theorem identity_entries : (!![1, 0, 0, 0; 0, 1, 0, 0; 0, 0, 1, 0; 0, 0, 0, 1] : Mat4) = 1 := by
  ext i j
  fin_cases i <;> fin_cases j <;> rfl

theorem composed_no_rotation (lib : MathLib) (v : Vec3)
    (hcos : lib.cos (lib.radians 0) = 1) (hsin : lib.sin (lib.radians 0) = 0) :
    composed lib v (Vec3.splat 0) (Vec3.splat 1) = T v := by
  simp only [composed, Rx, Ry, Rz, S, Vec3.splat, hcos, hsin, neg_zero, identity_entries, mul_one]

theorem translate_origin (v w : Vec3) :
    Matrix.mulVec (T v * T w) ![0, 0, 0, 1] = ![v.x + w.x, v.y + w.y, v.z + w.z, 1] := by
  ext i
  fin_cases i <;>
    simp [T, Matrix.mulVec, Matrix.mul_apply, Matrix.dotProduct, Fin.sum_univ_four] <;> ring

/-- A math library with `radians d = d * (355/113) / 180`, `cos x = 1 - x*x/2`
and `sin x = x`: crude, but exact at the angle `0`. -/
def sampleLib : MathLib :=
  ⟨fun d => d * (355 / 113) / 180, fun x => 1 - x * x / 2, fun x => x⟩

/-- C16 (transform composition scenario): a freshly constructed parent with
`setPosition((0,2,0))` and a freshly constructed child with
`setPosition((1,0,0))`, rotation and scale left at their defaults, the child
added to the parent; after `parent.update(identity)` the child's world
transform maps the homogeneous origin `(0,0,0,1)` to `(1,2,0,1)`.  The cosine
and sine of `radians(0)` are taken to be `1` and `0`. -/
theorem transform_composition_scenario (lib : MathLib) (st : SceneStore) (p c : Nat)
    (pn cn : String) (hne : p ≠ c) (hp : st p = ctor pn) (hc : st c = ctor cn)
    (hcos : lib.cos (lib.radians 0) = 1) (hsin : lib.sin (lib.radians 0) = 0) :
    ∃ st4,
      update 2 (addChild (setPosition lib (setPosition lib st p ⟨0, 2, 0⟩) c ⟨1, 0, 0⟩) p (some c))
        p 1 = some st4 ∧
      Matrix.mulVec (st4 c).m_worldTransform ![0, 0, 0, 1] = ![1, 2, 0, 1] := by
  have hcp : c ≠ p := fun e => hne e.symm
  have hch_p : (addChild (setPosition lib (setPosition lib st p ⟨0, 2, 0⟩) c ⟨1, 0, 0⟩) p
      (some c) p).m_children = [c] := by
    simp [addChild, setPosition_eq, Function.update_noteq hne, Function.update_noteq hcp, hp, ctor]
  have hch_c : (addChild (setPosition lib (setPosition lib st p ⟨0, 2, 0⟩) c ⟨1, 0, 0⟩) p
      (some c) c).m_children = [] := by
    simp [addChild, setPosition_eq, Function.update_noteq hne, Function.update_noteq hcp, hc, ctor]
  have hloc_p : (addChild (setPosition lib (setPosition lib st p ⟨0, 2, 0⟩) c ⟨1, 0, 0⟩) p
      (some c) p).m_localTransform = T ⟨0, 2, 0⟩ := by
    simp [addChild, setPosition_eq, Function.update_noteq hne, Function.update_noteq hcp, hp, ctor,
      composed_no_rotation lib _ hcos hsin]
  have hloc_c : (addChild (setPosition lib (setPosition lib st p ⟨0, 2, 0⟩) c ⟨1, 0, 0⟩) p
      (some c) c).m_localTransform = T ⟨1, 0, 0⟩ := by
    simp [addChild, setPosition_eq, Function.update_noteq hne, Function.update_noteq hcp, hc, ctor,
      composed_no_rotation lib _ hcos hsin]
  obtain ⟨st4, hupd, _, _, hroot, hin⟩ := update_spec 2 _ p 1
    (show WithinDepth (addChild (setPosition lib (setPosition lib st p ⟨0, 2, 0⟩) c ⟨1, 0, 0⟩) p
        (some c)) 2 p by simp [WithinDepth, hch_p, hch_c])
    (by simp [subtree, hch_p, hch_c, hne])
  refine ⟨st4, hupd, ?_⟩
  have hworld := hin p (by simp [subtree]) c (by simp [hch_p])
  rw [hworld, hroot, hloc_p, hloc_c, one_mul, translate_origin]
  simp

/-- C16 at a concrete input: parent at address `0`, child at address `1`, with the
sample math library. -/
theorem transform_composition_scenario_witness :
    ∃ st4,
      update 2 (addChild (setPosition sampleLib
          (setPosition sampleLib (fun a => ctor (if a = 0 then "parent" else "child")) 0 ⟨0, 2, 0⟩)
          1 ⟨1, 0, 0⟩) 0 (some 1)) 0 1 = some st4 ∧
      Matrix.mulVec (st4 1).m_worldTransform ![0, 0, 0, 1] = ![1, 2, 0, 1] :=
  transform_composition_scenario sampleLib (fun a => ctor (if a = 0 then "parent" else "child"))
    0 1 "parent" "child" (by decide) (by simp) (by simp) (by simp [sampleLib]) (by simp [sampleLib])

theorem setPosition_children (lib : MathLib) (st : SceneStore) (a : Nat) (v : Vec3) (b : Nat) :
    (setPosition lib st a v b).m_children = (st b).m_children := by
  rw [setPosition_eq]
  by_cases hb : b = a
  · subst hb; simp
  · simp [Function.update_noteq hb]

theorem setPosition_other (lib : MathLib) (st : SceneStore) (a : Nat) (v : Vec3) (b : Nat)
    (hb : b ≠ a) : setPosition lib st a v b = st b := by
  rw [setPosition_eq, Function.update_noteq hb]

/-- C17 (update propagation): in a tree, after `setPosition` on a node `a` and
`update` at the root, the new world transform of `a` is the new world
transform of its parent (the matrix passed to `update` when `a` is the root)
times the local transform recomposed from the new position; the last node of
every chain of child links from `a` has that new world transform of `a` times
the product of the local transforms along the chain below `a`; the last node
of every chain from the root has the matrix passed to `update` times the
product of the local transforms from the root down the chain, so every world
transform of the tree is determined; `setPosition` changes no node other than
`a`, `update` changes nothing but world transforms, so the local transform,
position, rotation and scale of every node other than `a` are as before both
calls. -/
theorem update_propagates (lib : MathLib) (st : SceneStore) (n root a : Nat) (v : Vec3)
    (P : Mat4) (hdepth : WithinDepth st n root) (htree : (subtree n st root).Nodup)
    (ha : a ∈ subtree n st root) :
    ∃ st2, update n (setPosition lib st a v) root P = some st2 ∧
      (∀ path, List.Chain (IsChild st) a path →
        (st2 (path.getLastD a)).m_worldTransform =
          (st2 a).m_worldTransform * (path.map (fun x => (st2 x).m_localTransform)).prod) ∧
      (st2 a).m_localTransform = composed lib v (st a).m_rotation (st a).m_scale ∧
      (a = root →
        (st2 a).m_worldTransform = P * composed lib v (st a).m_rotation (st a).m_scale) ∧
      (∀ p ∈ subtree n st root, a ∈ (st p).m_children →
        (st2 a).m_worldTransform =
          (st2 p).m_worldTransform * composed lib v (st a).m_rotation (st a).m_scale) ∧
      (∀ path, List.Chain (IsChild st) root path →
        (st2 (path.getLastD root)).m_worldTransform =
          P * (st2 root).m_localTransform *
            (path.map (fun x => (st2 x).m_localTransform)).prod) ∧
      (∀ b, b ≠ a → setPosition lib st a v b = st b) ∧
      OnlyWorld (setPosition lib st a v) st2 ∧
      (∀ b, b ≠ a →
        (st2 b).m_localTransform = (st b).m_localTransform ∧
          (st2 b).m_position = (st b).m_position ∧
          (st2 b).m_rotation = (st b).m_rotation ∧ (st2 b).m_scale = (st b).m_scale) := by
  have hch := setPosition_children lib st a v
  have hdepth1 : WithinDepth (setPosition lib st a v) n root :=
    (withinDepth_congr hch n root).2 hdepth
  have hsub : subtree n (setPosition lib st a v) root = subtree n st root :=
    subtree_congr hch n root
  obtain ⟨st2, hupd, how, _, hroot, hin⟩ := update_spec n (setPosition lib st a v) root P hdepth1
    (by rw [hsub]; exact htree)
  have hlocal : (fun x => (st2 x).m_localTransform) =
      (fun x => (setPosition lib st a v x).m_localTransform) := funext (onlyWorld_local how)
  have hrel : IsChild (setPosition lib st a v) = IsChild st := by
    funext x y
    simp only [IsChild, hch]
  have hnew : (setPosition lib st a v a).m_localTransform =
      composed lib v (st a).m_rotation (st a).m_scale := by
    rw [setPosition_eq]; simp
  refine ⟨st2, hupd, ?_, ?_, ?_, ?_, ?_, setPosition_other lib st a v, how, ?_⟩
  · intro path hchain
    rw [hlocal]
    exact world_along_path hdepth1 hin path a (by rw [hsub]; exact ha) (by rw [hrel]; exact hchain)
  · rw [onlyWorld_local how, hnew]
  · intro haroot
    subst haroot
    rw [hroot, hnew]
  · intro p hp hap
    rw [hin p (by rw [hsub]; exact hp) a (by rw [hch]; exact hap), hnew]
  · intro path hchain
    rw [hlocal]
    have hw := world_along_path hdepth1 hin path root (mem_subtree_self hdepth1)
      (by rw [hrel]; exact hchain)
    rw [hw, hroot, onlyWorld_local how root]
  · intro b hb
    rw [how b, setPosition_other lib st a v b hb]
    exact ⟨rfl, rfl, rfl, rfl⟩

/-- C17 at a concrete tree: node `1` of the sample store is moved to `(5,0,0)`
and the root is updated with the identity; node `1` then has the world
transform of the root times the translation by `(5,0,0)`, and node `3` below
it has the new world transform of `1` times its own local transform. -/
theorem update_propagates_witness :
    ∃ st2, update 3 (setPosition sampleLib sampleStore 1 ⟨5, 0, 0⟩) 0 1 = some st2 ∧
      (st2 1).m_worldTransform = (st2 0).m_worldTransform * T ⟨5, 0, 0⟩ ∧
      (st2 3).m_worldTransform = (st2 1).m_worldTransform * (st2 3).m_localTransform := by
  obtain ⟨st2, hupd, hpath, _, _, hparent, _⟩ :=
    update_propagates sampleLib sampleStore 3 0 1 ⟨5, 0, 0⟩ 1
      sampleStore_depth sampleStore_nodup (by simp [subtree, sampleStore, ctor])
  refine ⟨st2, hupd, ?_, ?_⟩
  · have h := hparent 0 (by simp [subtree, sampleStore, ctor]) (by simp [sampleStore, ctor])
    rw [h]
    congr 1
    have hrot : (sampleStore 1).m_rotation = Vec3.splat 0 := by simp [sampleStore, ctor]
    have hsc : (sampleStore 1).m_scale = Vec3.splat 1 := by simp [sampleStore, ctor]
    rw [hrot, hsc]
    exact composed_no_rotation sampleLib _ (by simp [sampleLib]) (by simp [sampleLib])
  · have := hpath [3] (by simp [IsChild, sampleStore, ctor])
    simpa using this

end SceneNode

/-! ## Monotonicity in the box, and independence of the bounding radius -/

namespace Octree

/-- Box `A` lies inside box `B`: `B.min ≤ A.min` and `A.max ≤ B.max` on every axis. -/
def boxWithin (amin amax bmin bmax : Vec3) : Prop :=
  bmin.x ≤ amin.x ∧ bmin.y ≤ amin.y ∧ bmin.z ≤ amin.z ∧
    amax.x ≤ bmax.x ∧ amax.y ≤ bmax.y ∧ amax.z ≤ bmax.z

theorem outside_of_within {c : Vec3} {h : ℚ} {amin amax bmin bmax : Vec3}
    (hw : boxWithin amin amax bmin bmax) (ho : outside c h bmin bmax) :
    outside c h amin amax := by
  simp only [outside, boxWithin, Vec3.add, Vec3.sub, Vec3.splat] at hw ho ⊢
  obtain ⟨w1, w2, w3, w4, w5, w6⟩ := hw
  rcases ho with ho | ho | ho | ho | ho | ho
  · exact Or.inl (lt_of_lt_of_le ho w1)
  · exact Or.inr (Or.inl (lt_of_le_of_lt w4 ho))
  · exact Or.inr (Or.inr (Or.inl (lt_of_lt_of_le ho w2)))
  · exact Or.inr (Or.inr (Or.inr (Or.inl (lt_of_le_of_lt w5 ho))))
  · exact Or.inr (Or.inr (Or.inr (Or.inr (Or.inl (lt_of_lt_of_le ho w3)))))
  · exact Or.inr (Or.inr (Or.inr (Or.inr (Or.inr (lt_of_le_of_lt w6 ho)))))

theorem inBox_of_within {amin amax bmin bmax p : Vec3}
    (hw : boxWithin amin amax bmin bmax) (hp : inBox amin amax p) : inBox bmin bmax p := by
  simp only [inBox, boxWithin] at hw hp ⊢
  obtain ⟨w1, w2, w3, w4, w5, w6⟩ := hw
  obtain ⟨p1, p2, p3, p4, p5, p6⟩ := hp
  exact ⟨le_trans w1 p1, le_trans p2 w4, le_trans w2 p3, le_trans p4 w5, le_trans w3 p5,
    le_trans p6 w6⟩

theorem linearScan_sublist {amin amax bmin bmax : Vec3} (hw : boxWithin amin amax bmin bmax)
    (objs : List SceneObject) :
    (linearScan objs amin amax).Sublist (linearScan objs bmin bmax) := by
  induction objs with
  | nil => simp [linearScan]
  | cons o objs ih =>
    simp only [linearScan] at ih ⊢
    by_cases ha : inBox amin amax o.position
    · have hb := inBox_of_within hw ha
      simpa [List.filter_cons, ha, hb] using ih
    · by_cases hb : inBox bmin bmax o.position
      · simpa [List.filter_cons, ha, hb] using List.Sublist.cons _ ih
      · simpa [List.filter_cons, ha, hb] using ih

theorem sublist_flatten_map {α β : Type} (f g : α → List β) (l : List α)
    (h : ∀ a ∈ l, (f a).Sublist (g a)) : ((l.map f).flatten).Sublist ((l.map g).flatten) := by
  induction l with
  | nil => simp
  | cons a l ih =>
    simp only [List.map_cons, List.flatten_cons]
    exact (h a (List.mem_cons_self _ _)).append (ih (fun b hb => h b (List.mem_cons_of_mem _ hb)))

theorem query_sublist (t : Octree) {amin amax bmin bmax : Vec3}
    (hw : boxWithin amin amax bmin bmax) :
    (query t amin amax []).Sublist (query t bmin bmax []) := by
  induction t with
  | null => simp [query]
  | node c h d m objs ch ih =>
    rw [query_node, query_node]
    by_cases hb : outside c h bmin bmax
    · rw [if_pos hb, if_pos (outside_of_within hw hb)]
    · rw [if_neg hb]
      by_cases ha : outside c h amin amax
      · rw [if_pos ha]; exact List.nil_sublist _
      · rw [if_neg ha]
        exact (linearScan_sublist hw objs).append
          (sublist_flatten_map _ _ _ (fun i _ => ih i))

/-- C30 (query is monotone in the box): for every tree and boxes `A`, `B` with
`B.min ≤ A.min` and `A.max ≤ B.max` on every axis, the id list of `query(A)` on
an empty results list is a subsequence of the id list of `query(B)`. -/
theorem query_monotone_in_box (t : Octree) (amin amax bmin bmax : Vec3)
    (hx : bmin.x ≤ amin.x ∧ amax.x ≤ bmax.x) (hy : bmin.y ≤ amin.y ∧ amax.y ≤ bmax.y)
    (hz : bmin.z ≤ amin.z ∧ amax.z ≤ bmax.z) :
    (query t amin amax []).Sublist (query t bmin bmax []) :=
  query_sublist t ⟨hx.1, hy.1, hz.1, hx.2, hy.2, hz.2⟩

/-- C30 at a concrete input: on the sample leaf the box `(0,0,0)..(2,2,2)` lies
inside `(-6,-6,-6)..(2,2,2)`. -/
theorem query_monotone_in_box_witness :
    (query sampleLeaf ⟨0, 0, 0⟩ ⟨2, 2, 2⟩ []).Sublist
      (query sampleLeaf ⟨-6, -6, -6⟩ ⟨2, 2, 2⟩ []) :=
  query_monotone_in_box sampleLeaf ⟨0, 0, 0⟩ ⟨2, 2, 2⟩ ⟨-6, -6, -6⟩ ⟨2, 2, 2⟩
    (by norm_num) (by norm_num) (by norm_num)

/-- The object with its bounding radius set to `0`. -/
def dropRadius (o : SceneObject) : SceneObject := { o with boundingRadius := 0 }

/-- The tree with the bounding radius of every stored object set to `0`. -/
def forgetRadius : Octree → Octree
  | null => null
  | node c h d m objs ch => node c h d m (objs.map dropRadius) (fun i => forgetRadius (ch i))

/-- Two calls agree up to the bounding radius: both insert objects with the same
position and id, or both remove the same id. -/
def sameUpToRadius : Op → Op → Prop
  | Op.insert o1, Op.insert o2 => o1.position = o2.position ∧ o1.id = o2.id
  | Op.remove i1, Op.remove i2 => i1 = i2
  | _, _ => False

theorem forgetRadius_target (c : Vec3) (h : ℚ) (d m : Int) (ch : Fin 8 → Octree) (p : Vec3) :
    target c h d m (fun i => forgetRadius (ch i)) p = forgetRadius (target c h d m ch p) := by
  unfold target
  cases hc : ch (slot c p) with
  | null => simp [hc, forgetRadius, newChild, ctor]
  | node c2 h2 d2 m2 o2 ch2 => simp [hc, forgetRadius]

theorem forgetRadius_insert (obj : SceneObject) (t : Octree) :
    ∀ obj2 : SceneObject, obj2.position = obj.position → dropRadius obj2 = dropRadius obj →
      insert (forgetRadius t) (dropRadius obj2) = forgetRadius (insert t obj) := by
  refine insert_induction obj
    (fun t => ∀ obj2 : SceneObject, obj2.position = obj.position →
      dropRadius obj2 = dropRadius obj →
      insert (forgetRadius t) (dropRadius obj2) = forgetRadius (insert t obj)) ?_ ?_ ?_ t
  · intro obj2 _ _
    simp [forgetRadius, insert_null]
  · intro c h d m objs ch hd obj2 _ hdrop
    simp only [forgetRadius]
    rw [insert_leaf _ _ _ _ _ _ _ hd, insert_leaf _ _ _ _ _ _ _ hd]
    simp [forgetRadius, hdrop]
  · intro c h d m objs ch hd ih obj2 hpos hdrop
    have hp : (dropRadius obj2).position = obj.position := by simpa [dropRadius] using hpos
    simp only [forgetRadius]
    rw [insert_inner _ _ _ _ _ _ _ hd, insert_inner _ _ _ _ _ _ _ hd, hp, forgetRadius_target,
      ih obj2 hpos hdrop]
    simp only [forgetRadius]
    congr 1
    funext i
    by_cases hi : i = slot c obj.position
    · subst hi; simp
    · simp [Function.update_noteq hi]

theorem forgetRadius_remove (objectId : Int) (t : Octree) :
    remove (forgetRadius t) objectId = forgetRadius (remove t objectId) := by
  induction t with
  | null => simp [forgetRadius, remove]
  | node c h d m objs ch ih =>
    simp only [forgetRadius, remove_node, List.filter_map]
    congr 1
    funext i
    exact ih i

theorem linearScan_dropRadius (objs : List SceneObject) (min max : Vec3) :
    linearScan (objs.map dropRadius) min max = linearScan objs min max := by
  induction objs with
  | nil => rfl
  | cons o objs ih =>
    simp only [linearScan] at ih ⊢
    by_cases hb : inBox min max o.position
    · simp [List.filter_cons, dropRadius, hb, ih]
    · simp [List.filter_cons, dropRadius, hb, ih]

theorem query_forgetRadius (t : Octree) (min max : Vec3) :
    query (forgetRadius t) min max [] = query t min max [] := by
  induction t with
  | null => simp [forgetRadius]
  | node c h d m objs ch ih =>
    simp only [forgetRadius]
    rw [query_node, query_node, linearScan_dropRadius]
    have hch : (fun i => query (forgetRadius (ch i)) min max []) =
        (fun i => query (ch i) min max []) := funext ih
    rw [hch]

theorem stripObjects_forgetRadius (t : Octree) :
    stripObjects (forgetRadius t) = stripObjects t := by
  induction t with
  | null => simp [forgetRadius]
  | node c h d m objs ch ih =>
    simp only [forgetRadius, stripObjects]
    congr 1
    funext i
    exact ih i

theorem forgetRadius_run (ops1 : List Op) :
    ∀ (ops2 : List Op) (t1 t2 : Octree), List.Forall₂ sameUpToRadius ops1 ops2 →
      forgetRadius t1 = forgetRadius t2 →
      forgetRadius (run t1 ops1) = forgetRadius (run t2 ops2) := by
  induction ops1 with
  | nil =>
    intro ops2 t1 t2 hops ht
    rw [List.forall₂_nil_left_iff.1 hops]
    simpa [run] using ht
  | cons op1 ops1 ih =>
    intro ops2 t1 t2 hops ht
    obtain ⟨op2, rest2, hop, hrest, rfl⟩ := List.forall₂_cons_left_iff.1 hops
    simp only [run, List.foldl_cons]
    apply ih rest2 _ _ hrest
    cases op1 with
    | insert o1 =>
      cases op2 with
      | insert o2 =>
        simp only [sameUpToRadius] at hop
        have hdrop : dropRadius o1 = dropRadius o2 := by
          cases o1; cases o2; simp only [dropRadius] at *; simp [hop.1, hop.2]
        simp only [step]
        rw [← forgetRadius_insert o1 t1 o1 rfl rfl, ← forgetRadius_insert o2 t2 o2 rfl rfl, ht,
          hdrop]
      | remove i2 => simp [sameUpToRadius] at hop
    | remove i1 =>
      cases op2 with
      | insert o2 => simp [sameUpToRadius] at hop
      | remove i2 =>
        simp only [sameUpToRadius] at hop
        simp only [step]
        rw [← forgetRadius_remove, ← forgetRadius_remove, ht, hop]

/-- C22 (the bounding radius does not influence queries): two runs from the same
tree whose calls agree pairwise up to the bounding radius of the inserted
objects end in trees that differ at most in bounding radii, so they have the
same nodes, scalars and occupied slots, and every query yields the same list
of ids in both. -/
theorem radius_does_not_influence_queries (t : Octree) (ops1 ops2 : List Op)
    (min max : Vec3) (hops : List.Forall₂ sameUpToRadius ops1 ops2) :
    forgetRadius (run t ops1) = forgetRadius (run t ops2) ∧
      stripObjects (run t ops1) = stripObjects (run t ops2) ∧
      query (run t ops1) min max [] = query (run t ops2) min max [] := by
  have h := forgetRadius_run ops1 ops2 t t hops rfl
  refine ⟨h, ?_, ?_⟩
  · rw [← stripObjects_forgetRadius (run t ops1), h, stripObjects_forgetRadius]
  · rw [← query_forgetRadius (run t ops1), h, query_forgetRadius]

/-- C22 at a concrete input: the same object inserted with radius `1` and with
radius `7`, then id `2` removed, on the scene manager's root. -/
theorem radius_does_not_influence_queries_witness :
    query (run (ctor ⟨0, 0, 0⟩ 10 0 5) [Op.insert ⟨⟨1, 1, 1⟩, 1, 1⟩, Op.remove 2])
        ⟨0, 0, 0⟩ ⟨2, 2, 2⟩ [] =
      query (run (ctor ⟨0, 0, 0⟩ 10 0 5) [Op.insert ⟨⟨1, 1, 1⟩, 7, 1⟩, Op.remove 2])
        ⟨0, 0, 0⟩ ⟨2, 2, 2⟩ [] :=
  (radius_does_not_influence_queries (ctor ⟨0, 0, 0⟩ 10 0 5) _ _ ⟨0, 0, 0⟩ ⟨2, 2, 2⟩
    (List.Forall₂.cons (by simp [sameUpToRadius])
      (List.Forall₂.cons (by simp [sameUpToRadius]) List.Forall₂.nil))).2.2

end Octree

/-! ## Where `insert` puts an object, and how far the operations go -/

namespace Octree

/-- The pointer found by following child slots from a pointer; `null` when the
way ends early. -/
def nodeAt : Octree → List (Fin 8) → Octree
  | t, [] => t
  | null, _ :: _ => null
  | node _ _ _ _ _ ch, i :: p => nodeAt (ch i) p

/-- The object list `m_objects` of the node a pointer owns; empty for `null`. -/
def objectsOf : Octree → List SceneObject
  | null => []
  | node _ _ _ _ objs _ => objs

/-- The object list of the node reached by following child slots. -/
def objectsAt (t : Octree) (p : List (Fin 8)) : List SceneObject := objectsOf (nodeAt t p)

theorem nodeAt_null (p : List (Fin 8)) : nodeAt null p = null := by
  cases p <;> rfl

theorem objectsAt_target (c : Vec3) (h : ℚ) (d m : Int) (ch : Fin 8 → Octree) (pos : Vec3)
    (p : List (Fin 8)) :
    objectsAt (target c h d m ch pos) p = objectsAt (ch (slot c pos)) p := by
  rcases target_cases c h d m ch pos with ⟨hn, ht⟩ | ⟨_, ht⟩
  · rw [ht, hn]
    cases p with
    | nil => simp [objectsAt, nodeAt, newChild, ctor, objectsOf]
    | cons i p => simp [objectsAt, nodeAt, newChild, ctor, nodeAt_null, objectsOf]
  · rw [ht]

/-- On a tree with the layout whose root depth does not exceed `maxDepth`,
`insert` appends the object to the list of one node of depth `maxDepth` and
leaves every other object list as it was. -/
theorem insert_places_once (obj : SceneObject) (t : Octree) :
    ∀ c0 h0 d0 m0, t ≠ null → Shaped t c0 h0 d0 m0 → d0 ≤ m0 →
      ∃ p : List (Fin 8),
        (∃ c2 h2 ch2, nodeAt (insert t obj) p = node c2 h2 m0 m0 (objectsAt t p ++ [obj]) ch2) ∧
        ∀ q, q ≠ p → objectsAt (insert t obj) q = objectsAt t q := by
  refine insert_induction obj
    (fun t => ∀ c0 h0 d0 m0, t ≠ null → Shaped t c0 h0 d0 m0 → d0 ≤ m0 →
      ∃ p : List (Fin 8),
        (∃ c2 h2 ch2, nodeAt (insert t obj) p = node c2 h2 m0 m0 (objectsAt t p ++ [obj]) ch2) ∧
        ∀ q, q ≠ p → objectsAt (insert t obj) q = objectsAt t q) ?_ ?_ ?_ t
  · intro c0 h0 d0 m0 hne _ _
    exact absurd rfl hne
  · intro c h d m objs ch hd c0 h0 d0 m0 _ hs hle
    obtain ⟨rfl, rfl, rfl, rfl, _, _⟩ := shaped_node.1 hs
    have hdm : d = m := le_antisymm hle hd
    subst hdm
    rw [insert_leaf _ _ _ _ _ _ _ hd]
    refine ⟨[], ⟨c, h, ch, by simp [nodeAt, objectsAt, objectsOf]⟩, ?_⟩
    intro q hq
    cases q with
    | nil => exact absurd rfl hq
    | cons i q => simp [objectsAt, nodeAt]
  · intro c h d m objs ch hd ih c0 h0 d0 m0 _ hs _
    obtain ⟨rfl, rfl, rfl, rfl, _, hsch⟩ := shaped_node.1 hs
    obtain ⟨p, ⟨c2, h2, ch2, hat⟩, hother⟩ :=
      ih _ _ _ _ (target_ne_null _ _ _ _ _ _) (shaped_target hsch obj.position) (by omega)
    rw [insert_inner _ _ _ _ _ _ _ hd]
    refine ⟨slot c obj.position :: p, ⟨c2, h2, ch2, ?_⟩, ?_⟩
    · simp only [nodeAt, Function.update_same, objectsAt]
      rw [hat, objectsAt_target]
      rfl
    · intro q hq
      cases q with
      | nil => simp [objectsAt, nodeAt, objectsOf]
      | cons i q =>
        by_cases hi : i = slot c obj.position
        · subst hi
          have hqp : q ≠ p := fun e => hq (by rw [e])
          have := hother q hqp
          rw [objectsAt_target] at this
          simpa [objectsAt, nodeAt] using this
        · simp [objectsAt, nodeAt, Function.update_noteq hi]

/-- C21 (`insert` never rejects or clamps): on every tree reached from a root
constructed with depth at most `maxDepth`, and for every object whatever its
position, `insert` returns a tree in which one node of depth `maxDepth` has the
object, unmodified, appended at the end of its object list, every other object
list is as before, and the number of stored objects has grown by one. -/
theorem insert_never_rejects (c : Vec3) (h : ℚ) (d m : Int) (ops : List Op)
    (obj : SceneObject) (hd : d ≤ m) :
    ∃ p : List (Fin 8),
      (∃ c2 h2 ch2, nodeAt (insert (run (ctor c h d m) ops) obj) p =
        node c2 h2 m m (objectsAt (run (ctor c h d m) ops) p ++ [obj]) ch2) ∧
      (∀ q, q ≠ p → objectsAt (insert (run (ctor c h d m) ops) obj) q =
        objectsAt (run (ctor c h d m) ops) q) ∧
      (allObjects (insert (run (ctor c h d m) ops) obj)).length =
        (allObjects (run (ctor c h d m) ops)).length + 1 := by
  have hne : run (ctor c h d m) ops ≠ null := run_ne_null _ (by simp [ctor]) ops
  obtain ⟨p, hat, hother⟩ :=
    insert_places_once obj _ c h d m hne (shaped_run c h d m ops) hd
  refine ⟨p, hat, hother, ?_⟩
  rw [(allObjects_insert obj _ hne).length_eq]
  simp

/-- C21 at a concrete input: an object at `(20,20,20)`, outside the cube of the
scene manager's root, is stored all the same. -/
theorem insert_never_rejects_witness :
    (allObjects (insert (run (ctor ⟨0, 0, 0⟩ 10 0 5) [Op.insert ⟨⟨1, 1, 1⟩, 1, 2⟩])
        ⟨⟨20, 20, 20⟩, 1, 1⟩)).length =
      (allObjects (run (ctor ⟨0, 0, 0⟩ 10 0 5) [Op.insert ⟨⟨1, 1, 1⟩, 1, 2⟩])).length + 1 := by
  obtain ⟨_, _, _, hlen⟩ := insert_never_rejects ⟨0, 0, 0⟩ 10 0 5 [Op.insert ⟨⟨1, 1, 1⟩, 1, 2⟩]
    ⟨⟨20, 20, 20⟩, 1, 1⟩ (by norm_num)
  exact hlen

theorem potential_target_lt (c : Vec3) (h : ℚ) (d m : Int) (objs : List SceneObject)
    (ch : Fin 8 → Octree) (p : Vec3) (hd : d < m) :
    potential (target c h d m ch p) < potential (node c h d m objs ch) := by
  have hmax : ∀ (l : List (Fin 8)) (i : Fin 8), i ∈ l →
      potential (ch i) ≤ (l.map (fun i => potential (ch i))).foldr max 0 := by
    intro l i
    induction l with
    | nil => simp
    | cons a l ih =>
      intro hi
      simp only [List.map_cons, List.foldr_cons]
      rcases List.mem_cons.1 hi with e | e
      · subst e; exact le_max_left _ _
      · exact le_trans (ih e) (le_max_right _ _)
  have hi := hmax (List.finRange 8) (slot c p) (List.mem_finRange _)
  rcases target_cases c h d m ch p with ⟨_, ht⟩ | ⟨_, ht⟩
  · rw [ht]
    simp only [newChild, ctor, potential]
    have : ((List.finRange 8).map (fun _ : Fin 8 => 0)).foldr max 0 = 0 := by decide
    rw [this]
    omega
  · rw [ht]
    simp only [potential]
    omega

/-- The number of recursive calls `m_children[idx]->insert(obj)` that one call of
`Octree::insert` leads to: one for the child it descends into, plus those of
that call. -/
def descents (t : Octree) (obj : SceneObject) : Nat :=
  match t with
  | null => 0
  | node c h d m _ ch =>
    if hl : isLeaf d m then 0
    else 1 + descents (target c h d m ch obj.position) obj
termination_by potential t
decreasing_by
  exact potential_target_lt _ _ _ _ _ _ _ (by simpa [isLeaf] using hl)

/-- The nodes `Octree::remove` is called on, each given by the child slots that lead
to it from the node of the first call; the loop skips null children. -/
def removeVisited : Octree → List (List (Fin 8))
  | null => []
  | node _ _ _ _ _ ch =>
    [] :: ((List.finRange 8).map (fun i => (removeVisited (ch i)).map (List.cons i))).flatten

/-- The nodes `Octree::query` is called on, given in the same way; a node the
rejection test discards is visited, its children are not. -/
def queryVisited : Octree → Vec3 → Vec3 → List (List (Fin 8))
  | null, _, _ => []
  | node c h _ _ _ ch, min, max =>
    [] :: (if outside c h min max then []
      else ((List.finRange 8).map (fun i => (queryVisited (ch i) min max).map (List.cons i))).flatten)

theorem descents_leaf (c : Vec3) (h : ℚ) (d m : Int) (objs : List SceneObject)
    (ch : Fin 8 → Octree) (obj : SceneObject) (hd : d ≥ m) :
    descents (node c h d m objs ch) obj = 0 := by
  rw [descents]
  simp [isLeaf, hd]

theorem descents_inner (c : Vec3) (h : ℚ) (d m : Int) (objs : List SceneObject)
    (ch : Fin 8 → Octree) (obj : SceneObject) (hd : d < m) :
    descents (node c h d m objs ch) obj = 1 + descents (target c h d m ch obj.position) obj := by
  rw [descents]
  have hnl : ¬ (m ≤ d) := not_le.2 hd
  simp [isLeaf, hnl]

theorem descents_of_shaped (obj : SceneObject) (t : Octree) :
    ∀ c0 h0 d0 m0, t ≠ null → Shaped t c0 h0 d0 m0 → descents t obj = (m0 - d0).toNat := by
  refine insert_induction obj
    (fun t => ∀ c0 h0 d0 m0, t ≠ null → Shaped t c0 h0 d0 m0 →
      descents t obj = (m0 - d0).toNat) ?_ ?_ ?_ t
  · intro c0 h0 d0 m0 hne _
    exact absurd rfl hne
  · intro c h d m objs ch hd c0 h0 d0 m0 _ hs
    obtain ⟨rfl, rfl, rfl, rfl, _, _⟩ := shaped_node.1 hs
    rw [descents_leaf _ _ _ _ _ _ _ hd]
    omega
  · intro c h d m objs ch hd ih c0 h0 d0 m0 _ hs
    obtain ⟨rfl, rfl, rfl, rfl, _, hsch⟩ := shaped_node.1 hs
    rw [descents_inner _ _ _ _ _ _ _ hd,
      ih _ _ _ _ (target_ne_null _ _ _ _ _ _) (shaped_target hsch obj.position)]
    omega

theorem mem_removeVisited (t : Octree) : ∀ p, p ∈ removeVisited t ↔ nodeAt t p ≠ null := by
  induction t with
  | null => intro p; simp [removeVisited, nodeAt_null]
  | node c h d m objs ch ih =>
    intro p
    cases p with
    | nil => simp [removeVisited, nodeAt]
    | cons i p =>
      simp only [removeVisited, nodeAt, List.mem_cons, List.mem_flatten, List.mem_map,
        List.mem_finRange, true_and, exists_exists_eq_and, reduceCtorEq, false_or,
        List.cons.injEq]
      constructor
      · rintro ⟨j, q, hq, rfl, rfl⟩
        exact (ih j q).1 hq
      · intro hn
        exact ⟨i, p, (ih i p).2 hn, rfl, rfl⟩

theorem nodup_visits (f : Fin 8 → List (List (Fin 8))) (hf : ∀ i, (f i).Nodup)
    (l : List (Fin 8)) (hl : l.Nodup) :
    ((l.map (fun i => (f i).map (List.cons i))).flatten).Nodup := by
  induction l with
  | nil => simp
  | cons a l ih =>
    have hnd := List.nodup_cons.1 hl
    simp only [List.map_cons, List.flatten_cons]
    refine List.nodup_append.2 ⟨(hf a).map (List.cons_injective), ih hnd.2, ?_⟩
    intro p hp1 hp2
    obtain ⟨q, _, rfl⟩ := List.mem_map.1 hp1
    simp only [List.mem_flatten, List.mem_map] at hp2
    obtain ⟨_, ⟨j, hj, rfl⟩, hmem⟩ := hp2
    obtain ⟨q2, _, he⟩ := List.mem_map.1 hmem
    have : j = a := (List.cons.inj he).1
    exact hnd.1 (this ▸ hj)

theorem removeVisited_nodup (t : Octree) : (removeVisited t).Nodup := by
  induction t with
  | null => simp [removeVisited]
  | node c h d m objs ch ih =>
    simp only [removeVisited]
    refine List.nodup_cons.2 ⟨?_, nodup_visits _ ih _ (List.nodup_finRange 8)⟩
    simp

theorem queryVisited_sub (t : Octree) (min max : Vec3) :
    ∀ p, p ∈ queryVisited t min max → p ∈ removeVisited t := by
  induction t with
  | null => intro p hp; simp [queryVisited] at hp
  | node c h d m objs ch ih =>
    intro p hp
    simp only [queryVisited, List.mem_cons] at hp
    simp only [removeVisited, List.mem_cons]
    rcases hp with rfl | hp
    · exact Or.inl rfl
    · right
      by_cases ho : outside c h min max
      · simp [ho] at hp
      · simp only [ho, if_false, List.mem_flatten, List.mem_map] at hp ⊢
        obtain ⟨_, ⟨i, hi, rfl⟩, hmem⟩ := hp
        obtain ⟨q, hq, rfl⟩ := List.mem_map.1 hmem
        exact ⟨_, ⟨i, hi, rfl⟩, List.mem_map.2 ⟨q, ih i q hq, rfl⟩⟩

theorem queryVisited_nodup (t : Octree) (min max : Vec3) : (queryVisited t min max).Nodup := by
  induction t with
  | null => simp [queryVisited]
  | node c h d m objs ch ih =>
    simp only [queryVisited]
    by_cases ho : outside c h min max
    · simp [ho]
    · simp only [ho, if_false]
      refine List.nodup_cons.2 ⟨?_, nodup_visits _ ih _ (List.nodup_finRange 8)⟩
      simp

/-- The member `Octree::insert` with a counter: the tree it returns, and the
number of recursive calls `m_children[idx]->insert(obj)` made on the way. -/
def insertCounted (t : Octree) (obj : SceneObject) : Octree × Nat :=
  match t with
  | null => (null, 0)
  | node c h d m objs ch =>
    if isLeaf d m then (node c h d m (objs ++ [obj]) ch, 0)
    else
      let idx := getChildIndex c obj.position
      if hidx : idx < 8 then
        let child := match ch ⟨idx, hidx⟩ with
          | null => newChild c h d m idx
          | t => t
        let r := insertCounted child obj
        (node c h d m objs (Function.update ch ⟨idx, hidx⟩ r.1), r.2 + 1)
      else (node c h d m objs ch, 0)
termination_by potential t
decreasing_by
  rename_i hleaf
  exact potential_target_lt _ _ _ _ _ _ _ (by simpa [isLeaf] using hleaf)

/-- The member `Octree::remove` with a trace: the tree it returns, and the nodes
it was called on, each given by the child slots that lead to it from the node
of the first call; the loop skips null children. -/
def removeTraced : Octree → Int → Octree × List (List (Fin 8))
  | null, _ => (null, [])
  | node c h d m objs ch, objectId =>
    (node c h d m (objs.filter (fun o => !decide (o.id = objectId)))
        (fun i => (removeTraced (ch i) objectId).1),
      [] :: ((List.finRange 8).map
        (fun i => (removeTraced (ch i) objectId).2.map (List.cons i))).flatten)

/-- The member `Octree::query` with a trace: the results it returns, and the
nodes it was called on, given in the same way; a node the rejection test
discards is visited, its children are not. -/
def queryTraced : Octree → Vec3 → Vec3 → List Int → List Int × List (List (Fin 8))
  | null, _, _, results => (results, [])
  | node c h _ _ objs ch, min, max, results =>
    if outside c h min max then (results, [[]])
    else
      let results := objs.foldl
        (fun r obj => if inBox min max obj.position then r ++ [obj.id] else r) results
      (List.finRange 8).foldl
        (fun acc i =>
          let r := queryTraced (ch i) min max acc.1
          (r.1, acc.2 ++ r.2.map (List.cons i)))
        (results, [[]])

theorem descents_null (obj : SceneObject) : descents null obj = 0 := by
  rw [descents.eq_def]

theorem insertCounted_null (obj : SceneObject) : insertCounted null obj = (null, 0) := by
  rw [insertCounted]

theorem insertCounted_leaf (c : Vec3) (h : ℚ) (d m : Int) (objs : List SceneObject)
    (ch : Fin 8 → Octree) (obj : SceneObject) (hd : d ≥ m) :
    insertCounted (node c h d m objs ch) obj = (node c h d m (objs ++ [obj]) ch, 0) := by
  rw [insertCounted]
  simp [isLeaf, hd]

theorem insertCounted_inner (c : Vec3) (h : ℚ) (d m : Int) (objs : List SceneObject)
    (ch : Fin 8 → Octree) (obj : SceneObject) (hd : d < m) :
    insertCounted (node c h d m objs ch) obj =
      (node c h d m objs (Function.update ch (slot c obj.position)
          (insertCounted (target c h d m ch obj.position) obj).1),
        (insertCounted (target c h d m ch obj.position) obj).2 + 1) := by
  rw [insertCounted]
  have hnl : ¬ (m ≤ d) := not_le.2 hd
  simp only [isLeaf, ge_iff_le, hnl, decide_False, Bool.false_eq_true, if_false,
    getChildIndex_lt, dite_true]
  rfl

/-- The counting `insert` returns the tree `insert` returns, and its counter is
the number of descents. -/
theorem insertCounted_eq (obj : SceneObject) (t : Octree) :
    insertCounted t obj = (insert t obj, descents t obj) := by
  refine insert_induction obj (fun t => insertCounted t obj = (insert t obj, descents t obj))
    ?_ ?_ ?_ t
  · show insertCounted null obj = (insert null obj, descents null obj)
    rw [insertCounted_null, insert_null, descents_null]
  · intro c h d m objs ch hd
    rw [insertCounted_leaf _ _ _ _ _ _ _ hd, insert_leaf _ _ _ _ _ _ _ hd,
      descents_leaf _ _ _ _ _ _ _ hd]
  · intro c h d m objs ch hd ih
    rw [insertCounted_inner _ _ _ _ _ _ _ hd, insert_inner _ _ _ _ _ _ _ hd,
      descents_inner _ _ _ _ _ _ _ hd, ih, add_comm]

/-- The number of descents never exceeds the termination measure. -/
theorem descents_le_potential (obj : SceneObject) (t : Octree) : descents t obj ≤ potential t := by
  refine insert_induction obj (fun t => descents t obj ≤ potential t) ?_ ?_ ?_ t
  · show descents null obj ≤ potential null
    rw [descents_null]; exact Nat.zero_le _
  · intro c h d m objs ch hd
    rw [descents_leaf _ _ _ _ _ _ _ hd]; exact Nat.zero_le _
  · intro c h d m objs ch hd ih
    rw [descents_inner _ _ _ _ _ _ _ hd]
    have := potential_target_lt c h d m objs ch obj.position hd
    omega

/-- The tracing `remove` returns the tree `remove` returns, and its trace is the
list of visited nodes. -/
theorem removeTraced_eq (t : Octree) (objectId : Int) :
    removeTraced t objectId = (remove t objectId, removeVisited t) := by
  induction t with
  | null => simp [removeTraced, remove, removeVisited]
  | node c h d m objs ch ih =>
    simp only [removeTraced, remove, removeVisited, ih]

theorem queryTraced_children (ch : Fin 8 → Octree) (min max : Vec3)
    (ih : ∀ (i : Fin 8) (results : List Int),
      queryTraced (ch i) min max results = (query (ch i) min max results, queryVisited (ch i) min max))
    (l : List (Fin 8)) :
    ∀ acc : List Int × List (List (Fin 8)),
      l.foldl
          (fun acc i =>
            let r := queryTraced (ch i) min max acc.1
            (r.1, acc.2 ++ r.2.map (List.cons i)))
          acc =
        (l.foldl (fun r i => query (ch i) min max r) acc.1,
          acc.2 ++ (l.map (fun i => (queryVisited (ch i) min max).map (List.cons i))).flatten) := by
  induction l with
  | nil => intro acc; simp
  | cons a l ihl =>
    intro acc
    simp only [List.foldl_cons, List.map_cons, List.flatten_cons]
    rw [ihl]
    simp only [ih, List.append_assoc]

/-- The tracing `query` returns the results `query` returns, and its trace is the
list of visited nodes. -/
theorem queryTraced_eq (t : Octree) (min max : Vec3) :
    ∀ results, queryTraced t min max results = (query t min max results, queryVisited t min max) := by
  induction t with
  | null => intro results; simp [queryTraced, query, queryVisited]
  | node c h d m objs ch ih =>
    intro results
    simp only [queryTraced, query, queryVisited]
    by_cases ho : outside c h min max
    · simp [ho]
    · simp only [ho, if_false]
      rw [queryTraced_children ch min max ih]
      simp

/-- C29 (termination): `insert` is defined by recursion on a measure that
strictly decreases at its one recursive call, `remove` and `query` by recursion
on the finite tree, so all three return on every tree and input; the
instrumented versions return the same results together with a counter or a
trace.  On every tree the number of recursive descents of `insert` is bounded
by the measure; on a tree reached from a root constructed with any depth `d`
and any `maxDepth` `m`, also `d > m` or `m < 0`, `insert` makes exactly
`max(0, m - d)` recursive descents; `remove` visits every existing node exactly
once and `query` visits existing nodes only, none of them twice. -/
theorem operations_terminate (c : Vec3) (h : ℚ) (d m : Int) (ops : List Op)
    (obj : SceneObject) (t : Octree) (objectId : Int) (min max : Vec3) (results : List Int) :
    (insertCounted t obj).1 = insert t obj ∧
      (removeTraced t objectId).1 = remove t objectId ∧
      (queryTraced t min max results).1 = query t min max results ∧
      (∀ (c2 : Vec3) (h2 : ℚ) (d2 m2 : Int) (objs : List SceneObject) (ch : Fin 8 → Octree),
        d2 < m2 →
          insert (node c2 h2 d2 m2 objs ch) obj =
              node c2 h2 d2 m2 objs (Function.update ch (slot c2 obj.position)
                (insert (target c2 h2 d2 m2 ch obj.position) obj)) ∧
            potential (target c2 h2 d2 m2 ch obj.position) <
              potential (node c2 h2 d2 m2 objs ch)) ∧
      (insertCounted t obj).2 ≤ potential t ∧
      ((insertCounted (run (ctor c h d m) ops) obj).2 : Int) = Max.max 0 (m - d) ∧
      (removeTraced t objectId).2.Nodup ∧
      (∀ p, p ∈ (removeTraced t objectId).2 ↔ nodeAt t p ≠ null) ∧
      (queryTraced t min max results).2.Nodup ∧
      (∀ p, p ∈ (queryTraced t min max results).2 → nodeAt t p ≠ null) := by
  rw [insertCounted_eq, insertCounted_eq, removeTraced_eq, queryTraced_eq]
  refine ⟨rfl, rfl, rfl, ?_, descents_le_potential obj t, ?_, removeVisited_nodup t,
    mem_removeVisited t, queryVisited_nodup t min max, ?_⟩
  · intro c2 h2 d2 m2 objs ch hd
    exact ⟨insert_inner c2 h2 d2 m2 objs ch obj hd,
      potential_target_lt c2 h2 d2 m2 objs ch obj.position hd⟩
  · show (descents (run (ctor c h d m) ops) obj : Int) = Max.max 0 (m - d)
    rw [descents_of_shaped obj _ c h d m (run_ne_null _ (by simp [ctor]) ops)
      (shaped_run c h d m ops)]
    rw [Int.toNat_eq_max, max_comm]
  · intro p hp
    exact (mem_removeVisited t p).1 (queryVisited_sub t min max p hp)

end Octree

/-! ## Search order, direct matrix set, and what touches world transforms -/

namespace SceneNode

/-- A root `0` with the children `1` and `2`; `1` is named `a` and has the child
`3`; `2` and `3` are both named `x`. -/
def cousins : SceneStore := fun a =>
  if a = 0 then { ctor "root" with m_children := [1, 2] }
  else if a = 1 then { ctor "a" with m_children := [3], m_parent := some 0 }
  else if a = 2 then { ctor "x" with m_parent := some 0 }
  else { ctor "x" with m_parent := some 1 }

/-- C23, as stated, fails: the direct child `2` of the root carries the name `x`,
but `findChild("x")` returns node `3`, a child of the earlier sibling `1` and not
a direct child of the root. -/
theorem findChild_direct_first_counterexample :
    2 ∈ (cousins 0).m_children ∧ (cousins 2).m_name = "x" ∧
      findChild 3 cousins 0 "x" = some (some 3) ∧ 3 ∉ (cousins 0).m_children := by
  simp [cousins, findChild, findChildLoop, ctor]

/-- C23 (amended): when a direct child `c` carries the name, `findChild(name)`
returns the first node carrying the name in the pre-order listing of the
subtrees of the earlier siblings of `c` (each sibling followed by its
descendants) when that listing holds such a node, and returns `c` itself when
it holds none. -/
theorem findChild_earlier_subtrees_first (st : SceneStore) (n a c : Nat) (name : String)
    (before after : List Nat) (hdepth : WithinDepth st (n + 1) a)
    (hch : (st a).m_children = before ++ c :: after) (hname : (st c).m_name = name) :
    findChild (n + 1) st a name =
        some (some (((before.flatMap (subtree n st)).find?
          (fun b => decide ((st b).m_name = name))).getD c)) ∧
      ((∀ b ∈ before.flatMap (subtree n st), (st b).m_name ≠ name) →
        findChild (n + 1) st a name = some (some c)) ∧
      ((∃ b ∈ before.flatMap (subtree n st), (st b).m_name = name) →
        ∃ b ∈ before.flatMap (subtree n st), (st b).m_name = name ∧
          (before.flatMap (subtree n st)).find? (fun b => decide ((st b).m_name = name)) =
            some b ∧
          findChild (n + 1) st a name = some (some b)) := by
  have hdc : WithinDepth st n c := hdepth c (by rw [hch]; simp)
  obtain ⟨k, rfl⟩ : ∃ k, n = k + 1 := ⟨n - 1, by have := withinDepth_pos hdc; omega⟩
  have hmain : findChild (k + 1 + 1) st a name =
      some (some (((before.flatMap (subtree (k + 1) st)).find?
        (fun b => decide ((st b).m_name = name))).getD c)) := by
    rw [findChild_eq (k + 1 + 1) a hdepth]
    simp only [descendants, hch, List.flatMap_append, List.flatMap_cons, List.find?_append]
    rw [subtree_succ, List.find?_cons]
    simp only [hname, decide_True]
    cases (before.flatMap (subtree (k + 1) st)).find? (fun b => decide ((st b).m_name = name))
      <;> simp
  refine ⟨hmain, ?_, ?_⟩
  · intro hnone
    rw [hmain]
    have : (before.flatMap (subtree (k + 1) st)).find? (fun b => decide ((st b).m_name = name))
        = none := by
      rw [List.find?_eq_none]
      intro b hb
      simpa using hnone b hb
    rw [this]
    rfl
  · rintro ⟨b0, hb0, hn0⟩
    cases hfind : (before.flatMap (subtree (k + 1) st)).find?
        (fun b => decide ((st b).m_name = name)) with
    | none =>
      rw [List.find?_eq_none] at hfind
      exact absurd hn0 (by simpa using hfind b0 hb0)
    | some b =>
      refine ⟨b, List.mem_of_find?_eq_some hfind, by simpa using List.find?_some hfind, rfl, ?_⟩
      rw [hmain, hfind]
      rfl

/-- C23 at a concrete input: in the store `cousins` the direct child `2` of the
root carries the name `x`; its earlier sibling `1` does not, but the child `3`
of `1` does, and `findChild("x")` returns `3`. -/
theorem findChild_earlier_subtrees_first_witness :
    WithinDepth cousins 3 0 ∧ (cousins 0).m_children = [1] ++ 2 :: [] ∧
      (cousins 2).m_name = "x" ∧
      (∃ b ∈ [1].flatMap (subtree 2 cousins), (cousins b).m_name = "x") ∧
      ∃ b ∈ [1].flatMap (subtree 2 cousins), b = 3 ∧
        findChild 3 cousins 0 "x" = some (some b) := by
  have hdepth : WithinDepth cousins 3 0 := by simp [WithinDepth, cousins, ctor]
  have hch : (cousins 0).m_children = [1] ++ 2 :: [] := by simp [cousins, ctor]
  have hname : (cousins 2).m_name = "x" := by simp [cousins, ctor]
  have hex : ∃ b ∈ [1].flatMap (subtree 2 cousins), (cousins b).m_name = "x" :=
    ⟨3, by simp [subtree, cousins, ctor], by simp [cousins, ctor]⟩
  obtain ⟨b, hb, _, hfind, hres⟩ :=
    (findChild_earlier_subtrees_first cousins 2 0 2 "x" [1] [] hdepth hch hname).2.2 hex
  refine ⟨hdepth, hch, hname, hex, b, hb, ?_, hres⟩
  have h3 : ([1].flatMap (subtree 2 cousins)).find?
      (fun b => decide ((cousins b).m_name = "x")) = some 3 := by
    simp [subtree, cousins, ctor, List.find?]
  rw [h3] at hfind
  exact (Option.some.inj hfind).symm

/-- C24 (direct matrix set and component setters can disagree):
`setLocalTransform(M)` replaces the local transform of the node by `M` and
nothing else, so position, rotation, scale and world transform stay; a later
`setPosition`, `setRotation` or `setScale` gives the same store as if `M` had
never been set, with the local transform `T * Rx * Ry * Rz * S` of the stored
components. -/
theorem setLocalTransform_is_overwritten (lib : MathLib) (st : SceneStore) (a : Nat)
    (M : Mat4) (v : Vec3) :
    setLocalTransform st a M = Function.update st a { st a with m_localTransform := M } ∧
      (setLocalTransform st a M a).m_localTransform = M ∧
      (setLocalTransform st a M a).m_position = (st a).m_position ∧
      (setLocalTransform st a M a).m_rotation = (st a).m_rotation ∧
      (setLocalTransform st a M a).m_scale = (st a).m_scale ∧
      (setLocalTransform st a M a).m_worldTransform = (st a).m_worldTransform ∧
      setPosition lib (setLocalTransform st a M) a v = setPosition lib st a v ∧
      setRotation lib (setLocalTransform st a M) a v = setRotation lib st a v ∧
      setScale lib (setLocalTransform st a M) a v = setScale lib st a v ∧
      (setPosition lib (setLocalTransform st a M) a v a).m_localTransform =
        composed lib v (st a).m_rotation (st a).m_scale := by
  refine ⟨rfl, ?_, ?_, ?_, ?_, ?_, ?_, ?_, ?_, ?_⟩ <;>
    simp [setLocalTransform, setPosition_eq, setRotation_eq, setScale_eq]

theorem updateLoop_onlyWorld (n : Nat)
    (H : ∀ st a P st2, update n st a P = some st2 → OnlyWorld st st2) (this : Nat) :
    ∀ (cs : List Nat) (st0 st2 : SceneStore),
      updateLoop (update n) this cs st0 = some st2 → OnlyWorld st0 st2 := by
  intro cs
  induction cs with
  | nil =>
    intro st0 st2 h
    simp only [updateLoop, Option.some.injEq] at h
    rw [← h]
    exact onlyWorld_refl st0
  | cons c cs ih =>
    intro st0 st2 h
    simp only [updateLoop] at h
    cases hu : update n st0 c (st0 this).m_worldTransform with
    | none => simp [hu] at h
    | some st1 =>
      simp only [hu] at h
      exact onlyWorld_trans (H _ _ _ _ hu) (ih st1 st2 h)

/-- Whenever `update` returns, on any store, it has changed nothing but world
transforms. -/
theorem update_onlyWorld (n : Nat) :
    ∀ st a P st2, update n st a P = some st2 → OnlyWorld st st2 := by
  induction n with
  | zero => intro st a P st2 h; simp [update] at h
  | succ n ih =>
    intro st a P st2 h
    simp only [update] at h
    refine onlyWorld_trans ?_ (updateLoop_onlyWorld n ih a _ _ _ h)
    intro b
    by_cases hb : b = a
    · subst hb; simp
    · simp [Function.update_noteq hb]

/-- C25 (`update` is the only operation that changes a world transform): a
freshly constructed node reports the identity; `addChild`, `removeChild`,
`setLocalTransform`, `setPosition`, `setRotation` and `setScale` leave the
world transform of every node as it is (`findChild` returns an address and no
store); and whenever `update` returns it has changed nothing but world
transforms, so names, parents, child lists, components and local transforms of
all nodes are as before. -/
theorem only_update_changes_world (lib : MathLib) (st : SceneStore) (a : Nat)
    (child : Option Nat) (name : String) (M : Mat4) (v : Vec3) (n : Nat) (P : Mat4) :
    (ctor name).m_worldTransform = 1 ∧
      (∀ b, (addChild st a child b).m_worldTransform = (st b).m_worldTransform) ∧
      (∀ b, (removeChild st a name b).m_worldTransform = (st b).m_worldTransform) ∧
      (∀ b, (setLocalTransform st a M b).m_worldTransform = (st b).m_worldTransform) ∧
      (∀ b, (setPosition lib st a v b).m_worldTransform = (st b).m_worldTransform) ∧
      (∀ b, (setRotation lib st a v b).m_worldTransform = (st b).m_worldTransform) ∧
      (∀ b, (setScale lib st a v b).m_worldTransform = (st b).m_worldTransform) ∧
      (∀ st2, update n st a P = some st2 →
        ∀ b, (st2 b).m_name = (st b).m_name ∧ (st2 b).m_parent = (st b).m_parent ∧
          (st2 b).m_children = (st b).m_children ∧
          (st2 b).m_localTransform = (st b).m_localTransform ∧
          (st2 b).m_position = (st b).m_position ∧ (st2 b).m_rotation = (st b).m_rotation ∧
          (st2 b).m_scale = (st b).m_scale ∧ (st2 b).objectId = (st b).objectId ∧
          (st2 b).visible = (st b).visible) := by
  refine ⟨rfl, ?_, ?_, ?_, ?_, ?_, ?_, ?_⟩
  · intro b
    cases child with
    | none => rfl
    | some c =>
      by_cases hba : b = a <;> by_cases hbc : b = c
      · subst hba; subst hbc; simp [addChild]
      · subst hba; simp [addChild, Function.update_noteq hbc]
      · subst hbc; simp [addChild, Function.update_noteq hba]
      · simp [addChild, Function.update_noteq hba, Function.update_noteq hbc]
  · intro b
    by_cases hb : b = a
    · subst hb; simp [removeChild]
    · simp [removeChild, Function.update_noteq hb]
  · intro b
    by_cases hb : b = a
    · subst hb; simp [setLocalTransform]
    · simp [setLocalTransform, Function.update_noteq hb]
  · intro b
    by_cases hb : b = a
    · subst hb; simp [setPosition_eq]
    · simp [setPosition_eq, Function.update_noteq hb]
  · intro b
    by_cases hb : b = a
    · subst hb; simp [setRotation_eq]
    · simp [setRotation_eq, Function.update_noteq hb]
  · intro b
    by_cases hb : b = a
    · subst hb; simp [setScale_eq]
    · simp [setScale_eq, Function.update_noteq hb]
  · intro st2 h b
    have how := update_onlyWorld n st a P st2 h b
    rw [how]
    exact ⟨rfl, rfl, rfl, rfl, rfl, rfl, rfl, rfl, rfl⟩

/-- C25 at a concrete input: `update` on the sample store keeps the child list of
the root. -/
theorem only_update_changes_world_witness :
    ∃ st2, update 3 sampleStore 0 1 = some st2 ∧ (st2 0).m_children = [1, 2] := by
  obtain ⟨st2, hupd, _⟩ := update_spec 3 sampleStore 0 1 sampleStore_depth sampleStore_nodup
  refine ⟨st2, hupd, ?_⟩
  rw [((only_update_changes_world sampleLib sampleStore 0 none "" 1 ⟨0, 0, 0⟩ 3 1).2.2.2.2.2.2.2
    st2 hupd 0).2.2.1]
  simp [sampleStore, ctor]

end SceneNode

/-! # Scene manager (`SceneManager.cpp`): frames and the built hierarchy

Only what touches the octree, the scene graph and the profiler's counters is
kept; shader, texture and mesh calls are outside.  A `size_t` count passed
through `static_cast<int>` is taken as the count itself (it is below `2^31`
for any number of frames a machine can hold the objects of).
-/

/-- The local struct `RenderObj` of `SceneManager::RenderScene`. -/
structure RenderObj where
  id : Int
  pos : Vec3
  scale : Vec3
  xrot : ℚ
  yrot : ℚ
  zrot : ℚ
  texture : String
  material : String
  meshType : String
  boundingRadius : ℚ

/-- The counters of `PerformanceProfiler` that `RenderScene` writes. -/
structure PerformanceProfiler where
  m_objectCount : Int
  m_drawCalls : Int
  m_visibleObjects : Int

/-- The state a `SceneManager` works on: its octree pointer, the scene graph
root and the store its nodes live in (with the next unused address), the
profiler singleton, and what the last call of `RenderScene` left behind: its
local vector `visibleObjectIds` and the ids its draw calls were issued for. -/
structure SceneManager where
  m_octree : Octree
  m_sceneRoot : Option Nat
  nodes : SceneStore
  unused : Nat
  profiler : PerformanceProfiler
  visibleObjectIds : List Int
  drawn : List Int

namespace SceneManager

/-- The constructor `SceneManager::SceneManager` (with the profiler as its own constructor
leaves it): the octree root `(0,0,0)`, half size `10`, depth `0`, maximal depth
`5`, and a scene graph root named `root`. -/
def ctor : SceneManager :=
  { m_octree := Octree.ctor ⟨0, 0, 0⟩ 10 0 5,
    m_sceneRoot := some 0,
    nodes := Function.update (fun _ => SceneNode.ctor "") 0 (SceneNode.ctor "root"),
    unused := 1,
    profiler := ⟨0, 0, 0⟩,
    visibleObjectIds := [],
    drawn := [] }

/-- The member `SceneManager::RegisterSceneObject`. -/
def RegisterSceneObject (sm : SceneManager) (obj : SceneObject) : SceneManager :=
  { sm with m_octree := sm.m_octree.insert obj }

/-- The member `SceneManager::QueryObjectsInRegion`. -/
def QueryObjectsInRegion (sm : SceneManager) (min max : Vec3) (results : List Int) : List Int :=
  sm.m_octree.query min max results

/-- The corner `frustumMin` of `RenderScene`. -/
def frustumMin : Vec3 := ⟨-8, -2, -8⟩

/-- The corner `frustumMax` of `RenderScene`. -/
def frustumMax : Vec3 := ⟨8, 8, 8⟩

/-- The vector `objects` of `RenderScene`. -/
def objects : List RenderObj :=
  [⟨1, ⟨0, 0, 0⟩, ⟨12, 1, 7⟩, 0, 0, 0, "desk_wood", "wood", "plane", 7⟩,
   ⟨2, ⟨0, 6 / 100, 8 / 10⟩, ⟨28 / 10, 12 / 100, 2⟩, 0, 0, 0, "laptop_base", "metal", "box", 15 / 10⟩,
   ⟨3, ⟨0, 1, 2 / 10⟩, ⟨3, 18 / 10, 8 / 100⟩, -20, 0, 0, "laptop_screen", "screen", "box", 18 / 10⟩,
   ⟨4, ⟨-22 / 10, 35 / 100, 15 / 10⟩, ⟨5 / 10, 7 / 10, 5 / 10⟩, 0, 0, 0, "mug_ceramic", "ceramic",
     "cylinder", 7 / 10⟩,
   ⟨5, ⟨-17 / 10, 35 / 100, 15 / 10⟩, ⟨4 / 10, 4 / 10, 4 / 10⟩, 0, 90, 0, "mug_ceramic", "ceramic",
     "halftorus", 4 / 10⟩,
   ⟨6, ⟨35 / 10, 125 / 1000, -5 / 10⟩, ⟨1, 25 / 100, 15 / 10⟩, 0, 0, 0, "book_cover", "paper", "box", 1⟩,
   ⟨7, ⟨35 / 10, 365 / 1000, -5 / 10⟩, ⟨95 / 100, 23 / 100, 145 / 100⟩, 0, 3, 0, "book_spine", "wood",
     "box", 1⟩,
   ⟨8, ⟨35 / 10, 575 / 1000, -5 / 10⟩, ⟨9 / 10, 2 / 10, 14 / 10⟩, 0, -5, 0, "book_cover", "paper",
     "box", 1⟩,
   ⟨9, ⟨-35 / 10, 75 / 1000, -2⟩, ⟨7 / 10, 15 / 100, 7 / 10⟩, 0, 0, 0, "lamp_metal", "metal",
     "cylinder", 7 / 10⟩,
   ⟨10, ⟨-28 / 10, 11 / 10, -2⟩, ⟨12 / 100, 2, 12 / 100⟩, 0, 0, 30, "lamp_metal", "metal",
     "cylinder", 2⟩,
   ⟨11, ⟨-22 / 10, 2, -2⟩, ⟨8 / 10, 6 / 10, 8 / 10⟩, 180, 0, 30, "lamp_metal", "metal", "cone",
     8 / 10⟩,
   ⟨12, ⟨-45 / 10, 25 / 100, -8 / 10⟩, ⟨6 / 10, 5 / 10, 6 / 10⟩, 0, 0, 0, "plant_pot", "ceramic",
     "cylinder", 6 / 10⟩,
   ⟨13, ⟨-45 / 10, 65 / 100, -8 / 10⟩, ⟨5 / 10, 4 / 10, 5 / 10⟩, 0, 0, 0, "plant_foliage", "fabric",
     "sphere", 5 / 10⟩]

/-- The scene object `so` that `RenderScene` registers for an entry of `objects`. -/
def toSceneObject (obj : RenderObj) : SceneObject := ⟨obj.pos, obj.boundingRadius, obj.id⟩

/-- The registration loop of `RenderScene`. -/
def registerAll (sm : SceneManager) (objs : List RenderObj) : SceneManager :=
  objs.foldl (fun s obj => RegisterSceneObject s (toSceneObject obj)) sm

/-- The drawing loop of `RenderScene`: an object whose id is not in
`visibleObjectIds` is skipped, for any other a draw call is recorded and
issued. -/
def drawVisible (sm : SceneManager) (visibleObjectIds : List Int) (objs : List RenderObj) :
    SceneManager :=
  objs.foldl (fun s obj =>
    if obj.id ∉ visibleObjectIds then s
    else { s with profiler := { s.profiler with m_drawCalls := s.profiler.m_drawCalls + 1 },
                  drawn := s.drawn ++ [obj.id] }) sm

/-- The member `SceneManager::RenderScene`, one frame: the region query, the recording of
the two counts, the registration loop, the drawing loop, in this order. -/
def RenderScene (sm : SceneManager) : SceneManager :=
  let sm1 := { sm with profiler := { sm.profiler with m_drawCalls := 0 }, drawn := [] }
  let visibleObjectIds := QueryObjectsInRegion sm1 frustumMin frustumMax []
  let sm2 := { sm1 with
    profiler := { sm1.profiler with
      m_objectCount := (objects.length : Int),
      m_visibleObjects := (visibleObjectIds.length : Int) },
    visibleObjectIds := visibleObjectIds }
  let sm3 := registerAll sm2 objects
  drawVisible sm3 visibleObjectIds objects

/-- The manager after the given number of frames, starting freshly constructed. -/
def frames : Nat → SceneManager
  | 0 => ctor
  | k + 1 => RenderScene (frames k)

/-- The objects one frame registers, in order. -/
def registered : List SceneObject := objects.map toSceneObject

/-- The call `std::make_shared<SceneNode>(name)`: a node is constructed at the next
unused address, which is returned. -/
def makeShared (sm : SceneManager) (name : String) : SceneManager × Nat :=
  ({ sm with nodes := Function.update sm.nodes sm.unused (SceneNode.ctor name),
             unused := sm.unused + 1 }, sm.unused)

/-- The assignment `node->objectId = id`. -/
def setObjectId (st : SceneStore) (a : Nat) (id : Int) : SceneStore :=
  Function.update st a { st a with objectId := id }

/-- The member `SceneManager::BuildSceneGraph`.  `m_sceneRoot` is dereferenced without a
test; for a null root the model skips the call. -/
def BuildSceneGraph (lib : MathLib) (sm : SceneManager) : SceneManager :=
  let (sm, lampBase) := makeShared sm "lamp_base"
  let st := SceneNode.setPosition lib sm.nodes lampBase ⟨-35 / 10, 75 / 1000, -2⟩
  let st := SceneNode.setScale lib st lampBase ⟨7 / 10, 15 / 100, 7 / 10⟩
  let st := setObjectId st lampBase 9
  let (sm, lampNeck) := makeShared { sm with nodes := st } "lamp_neck"
  let st := SceneNode.setPosition lib sm.nodes lampNeck ⟨7 / 10, 1025 / 1000, 0⟩
  let st := SceneNode.setScale lib st lampNeck ⟨12 / 100, 2, 12 / 100⟩
  let st := SceneNode.setRotation lib st lampNeck ⟨0, 0, 30⟩
  let st := setObjectId st lampNeck 10
  let (sm, lampShade) := makeShared { sm with nodes := st } "lamp_shade"
  let st := SceneNode.setPosition lib sm.nodes lampShade ⟨6 / 10, 9 / 10, 0⟩
  let st := SceneNode.setScale lib st lampShade ⟨8 / 10, 6 / 10, 8 / 10⟩
  let st := SceneNode.setRotation lib st lampShade ⟨180, 0, 30⟩
  let st := setObjectId st lampShade 11
  let st := SceneNode.addChild st lampBase (some lampNeck)
  let st := SceneNode.addChild st lampNeck (some lampShade)
  let st := match sm.m_sceneRoot with
    | some root => SceneNode.addChild st root (some lampBase)
    | none => st
  let (sm, plantPot) := makeShared { sm with nodes := st } "plant_pot"
  let st := SceneNode.setPosition lib sm.nodes plantPot ⟨-45 / 10, 25 / 100, -8 / 10⟩
  let st := SceneNode.setScale lib st plantPot ⟨6 / 10, 5 / 10, 6 / 10⟩
  let st := setObjectId st plantPot 12
  let (sm, plantFoliage) := makeShared { sm with nodes := st } "plant_foliage"
  let st := SceneNode.setPosition lib sm.nodes plantFoliage ⟨0, 4 / 10, 0⟩
  let st := SceneNode.setScale lib st plantFoliage ⟨5 / 10, 4 / 10, 5 / 10⟩
  let st := setObjectId st plantFoliage 13
  let st := SceneNode.addChild st plantPot (some plantFoliage)
  let st := match sm.m_sceneRoot with
    | some root => SceneNode.addChild st root (some plantPot)
    | none => st
  { sm with nodes := st }

/-- The member `SceneManager::UpdateSceneGraph`: `m_sceneRoot->update()` with the default
argument, the identity, when the root is not null; `fuel` is the recursion
budget of `update`. -/
def UpdateSceneGraph (fuel : Nat) (sm : SceneManager) : Option SceneManager :=
  match sm.m_sceneRoot with
  | none => some sm
  | some root =>
    match SceneNode.update fuel sm.nodes root 1 with
    | none => none
    | some st => some { sm with nodes := st }

end SceneManager

/-! ## Frames: what is visible, what accumulates -/

namespace SceneManager

/-- The calls on the octree that one frame makes. -/
def registerOps : List Octree.Op := registered.map Octree.Op.insert

theorem registerAll_fields (objs : List RenderObj) :
    ∀ sm : SceneManager,
      (registerAll sm objs).m_octree =
          Octree.run sm.m_octree (objs.map (fun o => Octree.Op.insert (toSceneObject o))) ∧
        (registerAll sm objs).profiler = sm.profiler ∧
        (registerAll sm objs).visibleObjectIds = sm.visibleObjectIds ∧
        (registerAll sm objs).drawn = sm.drawn := by
  induction objs with
  | nil => intro sm; simp [registerAll, Octree.run]
  | cons o objs ih =>
    intro sm
    have := ih (RegisterSceneObject sm (toSceneObject o))
    simp only [registerAll, List.foldl_cons, List.map_cons, Octree.run] at this ⊢
    simpa [RegisterSceneObject, Octree.step] using this

theorem drawVisible_fields (visible : List Int) (objs : List RenderObj) :
    ∀ sm : SceneManager,
      (drawVisible sm visible objs).m_octree = sm.m_octree ∧
        (drawVisible sm visible objs).profiler.m_objectCount = sm.profiler.m_objectCount ∧
        (drawVisible sm visible objs).profiler.m_visibleObjects = sm.profiler.m_visibleObjects ∧
        (drawVisible sm visible objs).visibleObjectIds = sm.visibleObjectIds := by
  induction objs with
  | nil => intro sm; simp [drawVisible]
  | cons o objs ih =>
    intro sm
    simp only [drawVisible, List.foldl_cons] at ih ⊢
    by_cases hv : o.id ∈ visible
    · simpa [hv] using ih _
    · simpa [hv] using ih _

theorem drawVisible_none (objs : List RenderObj) :
    ∀ sm : SceneManager, drawVisible sm [] objs = sm := by
  induction objs with
  | nil => intro sm; rfl
  | cons o objs ih =>
    intro sm
    simp only [drawVisible, List.foldl_cons] at ih ⊢
    simp only [List.not_mem_nil, not_false_eq_true, if_true]
    exact ih sm

theorem renderScene_octree (sm : SceneManager) :
    (RenderScene sm).m_octree = Octree.run sm.m_octree registerOps := by
  simp only [RenderScene]
  rw [(drawVisible_fields _ _ _).1, (registerAll_fields _ _).1]
  simp only [registerOps, registered, List.map_map]
  rfl

theorem renderScene_counts (sm : SceneManager) :
    (RenderScene sm).profiler.m_objectCount = 13 ∧
      (RenderScene sm).profiler.m_visibleObjects =
        ((QueryObjectsInRegion sm frustumMin frustumMax []).length : Int) ∧
      (RenderScene sm).visibleObjectIds = QueryObjectsInRegion sm frustumMin frustumMax [] := by
  simp only [RenderScene]
  rw [(drawVisible_fields _ _ _).2.1, (drawVisible_fields _ _ _).2.2.1,
    (drawVisible_fields _ _ _).2.2.2, (registerAll_fields _ _).2.1, (registerAll_fields _ _).2.2.1]
  simp [QueryObjectsInRegion, objects]

theorem run_concat (t : Octree) (ops1 ops2 : List Octree.Op) :
    Octree.run t (ops1 ++ ops2) = Octree.run (Octree.run t ops1) ops2 := by
  simp [Octree.run, List.foldl_append]

theorem frames_octree (k : Nat) :
    (frames k).m_octree =
      Octree.run (Octree.ctor ⟨0, 0, 0⟩ 10 0 5) ((List.replicate k registerOps).flatten) := by
  induction k with
  | zero => simp [frames, ctor, Octree.run]
  | succ k ih =>
    have hrep : (List.replicate (k + 1) registerOps).flatten =
        (List.replicate k registerOps).flatten ++ registerOps := by
      rw [List.replicate_succ']
      simp
    rw [frames, renderScene_octree, ih, hrep, run_concat]

theorem registered_ids : registered.map (fun o => o.id) = [1, 2, 3, 4, 5, 6, 7, 8, 9, 10, 11, 12, 13] := by
  simp [registered, objects, toSceneObject]

set_option maxRecDepth 8000 in
theorem registered_inside (o : SceneObject) (ho : o ∈ registered) :
    Octree.inCube ⟨0, 0, 0⟩ 10 o.position ∧ Octree.inBox frustumMin frustumMax o.position := by
  obtain ⟨r, hr, rfl⟩ := List.mem_map.1 ho
  rw [Octree.inCube_scene]
  simp only [Octree.inBox, frustumMin, frustumMax, toSceneObject]
  unfold objects at hr
  repeat' rw [List.mem_cons] at hr
  rcases hr with rfl | rfl | rfl | rfl | rfl | rfl | rfl | rfl | rfl | rfl | rfl | rfl | rfl | hr
  all_goals first | (exact absurd hr (List.not_mem_nil _)) | norm_num

theorem mem_replicate_ops {k : Nat} {obj : SceneObject}
    (h : Octree.Op.insert obj ∈ (List.replicate k registerOps).flatten) : obj ∈ registered := by
  simp only [List.mem_flatten, List.mem_replicate] at h
  obtain ⟨l, ⟨_, rfl⟩, hmem⟩ := h
  simp only [registerOps, List.mem_map, Octree.Op.insert.injEq] at hmem
  obtain ⟨o, ho, rfl⟩ := hmem
  exact ho

theorem linearModel_inserts (objs : List SceneObject) :
    Octree.linearModel (objs.map Octree.Op.insert) = objs := by
  induction objs using List.reverseRecOn with
  | nil => simp [Octree.linearModel]
  | append_singleton objs o ih =>
    rw [List.map_append, List.map_singleton, Octree.linearModel_append, ih]

theorem flatten_replicate_map {α β : Type} (f : α → β) (k : Nat) (l : List α) :
    (List.replicate k (l.map f)).flatten = ((List.replicate k l).flatten).map f := by
  induction k with
  | zero => simp
  | succ k ih =>
    simp only [List.replicate_succ, List.flatten_cons, List.map_append, ih]

theorem count_flatten_replicate {α : Type} [DecidableEq α] (a : α) (k : Nat) (l : List α) :
    ((List.replicate k l).flatten).count a = k * l.count a := by
  induction k with
  | zero => simp
  | succ k ih =>
    simp only [List.replicate_succ, List.flatten_cons, List.count_append, ih]
    ring

/-- After `k` frames the octree holds the registered objects `k` times over, and
the query of the frustum box yields the ids of all of them. -/
theorem frames_objects (k : Nat) :
    (Octree.allObjects (frames k).m_octree).Perm ((List.replicate k registered).flatten) ∧
      QueryObjectsInRegion (frames k) frustumMin frustumMax [] =
        (Octree.allObjects (frames k).m_octree).map (fun o => o.id) := by
  have hin : ∀ obj, Octree.Op.insert obj ∈ (List.replicate k registerOps).flatten →
      Octree.inCube ⟨0, 0, 0⟩ 10 obj.position :=
    fun obj h => (registered_inside obj (mem_replicate_ops h)).1
  have hperm := Octree.allObjects_run ⟨0, 0, 0⟩ 10 0 5 ((List.replicate k registerOps).flatten)
  have hmodel : Octree.linearModel ((List.replicate k registerOps).flatten) =
      (List.replicate k registered).flatten := by
    rw [registerOps, flatten_replicate_map, linearModel_inserts]
  rw [hmodel] at hperm
  constructor
  · rw [frames_octree]; exact hperm
  · simp only [QueryObjectsInRegion]
    rw [frames_octree, Octree.query_eq_linearScan _ _ _
        (Octree.bounded_run _ _ _ _ _ Octree.exactTree_scene_root hin),
      Octree.linearScan_eq_map]
    intro o ho
    have hmem := hperm.mem_iff.1 ho
    simp only [List.mem_flatten, List.mem_replicate] at hmem
    obtain ⟨l, ⟨_, rfl⟩, hol⟩ := hmem
    exact (registered_inside o hol).2

theorem frames_query_count (k : Nat) (id : Int) :
    (QueryObjectsInRegion (frames k) frustumMin frustumMax []).count id =
      k * (registered.map (fun o => o.id)).count id := by
  obtain ⟨hperm, hq⟩ := frames_objects k
  rw [hq, (hperm.map (fun o => o.id)).count_eq, ← flatten_replicate_map, count_flatten_replicate]

theorem frames_query_length (k : Nat) :
    (QueryObjectsInRegion (frames k) frustumMin frustumMax []).length = 13 * k := by
  obtain ⟨hperm, hq⟩ := frames_objects k
  rw [hq, List.length_map, hperm.length_eq]
  have : ∀ n : Nat, ((List.replicate n registered).flatten).length = 13 * n := by
    intro n
    induction n with
    | zero => simp
    | succ n ih =>
      simp only [List.replicate_succ, List.flatten_cons, List.length_append, ih]
      simp [registered, objects]
      ring
  exact this k

theorem renderScene_nothing_visible (sm : SceneManager)
    (hq : sm.m_octree.query frustumMin frustumMax [] = []) :
    (RenderScene sm).drawn = [] ∧ (RenderScene sm).profiler.m_drawCalls = 0 := by
  simp only [RenderScene, QueryObjectsInRegion, hq]
  rw [drawVisible_none, (registerAll_fields _ _).2.2.2, (registerAll_fields _ _).2.1]
  exact ⟨rfl, rfl⟩

theorem query_fresh_octree :
    ctor.m_octree.query frustumMin frustumMax [] = [] := by
  simp [ctor, Octree.ctor, Octree.query_node, Octree.linearScan, Octree.query, List.finRange]

/-- C26: on the first frame of a freshly constructed manager the region query
is made on the still empty octree, before the registration loop, so
`visibleObjectIds` is empty and no draw call is issued, although the frame
then registers all thirteen objects. -/
theorem first_frame_draws_nothing :
    (frames 1).visibleObjectIds = [] ∧ (frames 1).drawn = [] ∧
      (frames 1).profiler.m_drawCalls = 0 ∧ (frames 1).profiler.m_visibleObjects = 0 ∧
      (Octree.allObjects (frames 1).m_octree).length = 13 := by
  have hq := query_fresh_octree
  have hlen := (frames_objects 1).1.length_eq
  refine ⟨?_, ?_, ?_, ?_, ?_⟩
  · rw [frames, (renderScene_counts _).2.2]; exact hq
  · exact (renderScene_nothing_visible _ hq).1
  · exact (renderScene_nothing_visible _ hq).2
  · rw [frames, (renderScene_counts _).2.1]
    simp [frames, QueryObjectsInRegion, hq]
  · rw [hlen]
    simp [registered, objects]

/-- C27 (duplicates accumulate across frames): after `k` frames on a freshly
constructed manager the octree holds exactly `k` copies of each of the thirteen
scene objects, the region query over the frustum box yields each id `1..13`
exactly `k` times, and frame `k + 1` records the visible-object count `13 * k`
next to the object count `13`, which it exceeds from the third frame on. -/
theorem duplicates_accumulate (k : Nat) :
    (Octree.allObjects (frames k).m_octree).Perm ((List.replicate k registered).flatten) ∧
      registered.map (fun o => o.id) = [1, 2, 3, 4, 5, 6, 7, 8, 9, 10, 11, 12, 13] ∧
      (∀ id ∈ registered.map (fun o => o.id),
        (QueryObjectsInRegion (frames k) frustumMin frustumMax []).count id = k) ∧
      (frames (k + 1)).profiler.m_visibleObjects = 13 * (k : Int) ∧
      (frames (k + 1)).profiler.m_objectCount = 13 ∧
      (2 ≤ k →
        (frames (k + 1)).profiler.m_objectCount < (frames (k + 1)).profiler.m_visibleObjects) := by
  have hvis : (frames (k + 1)).profiler.m_visibleObjects = 13 * (k : Int) := by
    rw [frames, (renderScene_counts _).2.1, frames_query_length]
    push_cast
    ring
  have hcount : (frames (k + 1)).profiler.m_objectCount = 13 := by
    rw [frames, (renderScene_counts _).1]
  refine ⟨(frames_objects k).1, registered_ids, ?_, hvis, hcount, ?_⟩
  · intro id hid
    rw [frames_query_count]
    rw [registered_ids] at hid ⊢
    simp only [List.mem_cons, List.mem_singleton, List.not_mem_nil, or_false] at hid
    rcases hid with rfl | rfl | rfl | rfl | rfl | rfl | rfl | rfl | rfl | rfl | rfl | rfl | rfl <;>
      simp
  · intro hk
    rw [hvis, hcount]
    have : (2 : Int) ≤ k := by exact_mod_cast hk
    linarith

end SceneManager

/-! ## The built hierarchy -/

namespace SceneManager

theorem composed_no_rotation_scaled (lib : MathLib) (v s : Vec3)
    (hcos : lib.cos (lib.radians 0) = 1) (hsin : lib.sin (lib.radians 0) = 0) :
    SceneNode.composed lib v (Vec3.splat 0) s = SceneNode.T v * SceneNode.S s := by
  simp only [SceneNode.composed, SceneNode.Rx, SceneNode.Ry, SceneNode.Rz, Vec3.splat, hcos, hsin,
    neg_zero, SceneNode.identity_entries, mul_one]

theorem origin_through_two (v1 s1 v2 s2 : Vec3) :
    Matrix.mulVec (SceneNode.T v1 * SceneNode.S s1 * (SceneNode.T v2 * SceneNode.S s2))
        ![0, 0, 0, 1] =
      ![v1.x + s1.x * v2.x, v1.y + s1.y * v2.y, v1.z + s1.z * v2.z, 1] := by
  ext i
  fin_cases i <;>
    simp [SceneNode.T, SceneNode.S, Matrix.mulVec, Matrix.mul_apply, Matrix.dotProduct,
      Fin.sum_univ_four] <;> ring

/-- The store after `BuildSceneGraph` on a fresh manager: the child lists, and
the members of the root, the plant pot and the foliage that `update` reads. -/
theorem built_store (lib : MathLib) :
    (BuildSceneGraph lib ctor).m_sceneRoot = some 0 ∧
      ((BuildSceneGraph lib ctor).nodes 0).m_children = [1, 4] ∧
      ((BuildSceneGraph lib ctor).nodes 1).m_children = [2] ∧
      ((BuildSceneGraph lib ctor).nodes 2).m_children = [3] ∧
      ((BuildSceneGraph lib ctor).nodes 3).m_children = [] ∧
      ((BuildSceneGraph lib ctor).nodes 4).m_children = [5] ∧
      ((BuildSceneGraph lib ctor).nodes 5).m_children = [] ∧
      ((BuildSceneGraph lib ctor).nodes 0).m_localTransform = 1 ∧
      ((BuildSceneGraph lib ctor).nodes 4).m_localTransform =
        SceneNode.composed lib ⟨-45 / 10, 25 / 100, -8 / 10⟩ (Vec3.splat 0) ⟨6 / 10, 5 / 10, 6 / 10⟩ ∧
      ((BuildSceneGraph lib ctor).nodes 5).m_localTransform =
        SceneNode.composed lib ⟨0, 4 / 10, 0⟩ (Vec3.splat 0) ⟨5 / 10, 4 / 10, 5 / 10⟩ ∧
      ((BuildSceneGraph lib ctor).nodes 5).objectId = 13 ∧
      ((BuildSceneGraph lib ctor).nodes 5).m_name = "plant_foliage" := by
  simp [BuildSceneGraph, makeShared, ctor, setObjectId, SceneNode.setPosition_eq,
    SceneNode.setScale_eq, SceneNode.setRotation_eq, SceneNode.addChild, SceneNode.ctor,
    Function.update]

/-- A manager whose scene graph is the root `0` with the children `1` and `4`,
the chain `1, 2, 3` and the child `5` of `4`: after `UpdateSceneGraph` node `5`
has the product of the local transforms of `0`, `4` and `5` as its world
transform. -/
theorem update_built_shape (sm : SceneManager) (hroot : sm.m_sceneRoot = some 0)
    (h0 : (sm.nodes 0).m_children = [1, 4]) (h1 : (sm.nodes 1).m_children = [2])
    (h2 : (sm.nodes 2).m_children = [3]) (h3 : (sm.nodes 3).m_children = [])
    (h4 : (sm.nodes 4).m_children = [5]) (h5 : (sm.nodes 5).m_children = []) :
    ∃ sm2, UpdateSceneGraph 4 sm = some sm2 ∧
      (sm2.nodes 5).m_name = (sm.nodes 5).m_name ∧ (sm2.nodes 5).objectId = (sm.nodes 5).objectId ∧
      (sm2.nodes 5).m_worldTransform =
        (sm.nodes 0).m_localTransform * ((sm.nodes 4).m_localTransform *
          (sm.nodes 5).m_localTransform) := by
  have hdepth : SceneNode.WithinDepth sm.nodes 4 0 := by
    simp [SceneNode.WithinDepth, h0, h1, h2, h3, h4, h5]
  have htree : (SceneNode.subtree 4 sm.nodes 0).Nodup := by
    simp [SceneNode.subtree, h0, h1, h2, h3, h4, h5]
  obtain ⟨st2, hupd, how, _, hworld0, hin⟩ := SceneNode.update_spec 4 sm.nodes 0 1 hdepth htree
  have hpath := SceneNode.world_along_path hdepth hin [4, 5] 0 (SceneNode.mem_subtree_self hdepth)
    (by simp [SceneNode.IsChild, h0, h4])
  simp only [List.getLastD_cons, List.getLastD_nil, List.map_cons, List.map_nil, List.prod_cons,
    List.prod_nil, mul_one] at hpath
  refine ⟨{ sm with nodes := st2 }, ?_, ?_, ?_, ?_⟩
  · simp only [UpdateSceneGraph, hroot, hupd]
  · show (st2 5).m_name = _
    rw [how 5]
  · show (st2 5).objectId = _
    rw [how 5]
  · show (st2 5).m_worldTransform = _
    rw [hpath, hworld0, one_mul]

/-- C28: after `BuildSceneGraph` and `UpdateSceneGraph` on a fresh manager the node
`plant_foliage` (objectId 13) has a world transform that maps its local origin
to `(-4.5, 0.45, -0.8)`: its offset `0.4` is scaled by the `0.5` of the plant
pot above it.  The flat object list of `RenderScene` places id 13 at
`(-4.5, 0.65, -0.8)`.  The cosine and sine of `radians(0)` are taken to be `1`
and `0`. -/
theorem foliage_world_origin (lib : MathLib)
    (hcos : lib.cos (lib.radians 0) = 1) (hsin : lib.sin (lib.radians 0) = 0) :
    ∃ sm2, UpdateSceneGraph 4 (BuildSceneGraph lib ctor) = some sm2 ∧
      (sm2.nodes 5).m_name = "plant_foliage" ∧ (sm2.nodes 5).objectId = 13 ∧
      Matrix.mulVec (sm2.nodes 5).m_worldTransform ![0, 0, 0, 1] =
        ![-45 / 10, 45 / 100, -8 / 10, 1] ∧
      (∀ r ∈ objects, r.id = 13 → r.pos = ⟨-45 / 10, 65 / 100, -8 / 10⟩) := by
  obtain ⟨hroot, h0, h1, h2, h3, h4, h5, hl0, hl4, hl5, hid, hname⟩ := built_store lib
  obtain ⟨sm2, hupd, hn2, hid2, hw2⟩ :=
    update_built_shape (BuildSceneGraph lib ctor) hroot h0 h1 h2 h3 h4 h5
  refine ⟨sm2, hupd, hn2.trans hname, hid2.trans hid, ?_, ?_⟩
  · rw [hw2, hl0, hl4, hl5, composed_no_rotation_scaled lib _ _ hcos hsin,
      composed_no_rotation_scaled lib _ _ hcos hsin, one_mul, origin_through_two]
    norm_num
  · intro r hr hrid
    unfold objects at hr
    repeat' rw [List.mem_cons] at hr
    rcases hr with rfl | rfl | rfl | rfl | rfl | rfl | rfl | rfl | rfl | rfl | rfl | rfl | rfl | hr
    all_goals first | (exact absurd hr (List.not_mem_nil _)) | rfl | (exact absurd hrid (by decide))

/-- C28 at a concrete math library. -/
theorem foliage_world_origin_witness :
    ∃ sm2, UpdateSceneGraph 4 (BuildSceneGraph SceneNode.sampleLib ctor) = some sm2 ∧
      Matrix.mulVec (sm2.nodes 5).m_worldTransform ![0, 0, 0, 1] =
        ![-45 / 10, 45 / 100, -8 / 10, 1] := by
  obtain ⟨sm2, h1, _, _, h2, _⟩ :=
    foliage_world_origin SceneNode.sampleLib (by simp [SceneNode.sampleLib])
      (by simp [SceneNode.sampleLib])
  exact ⟨sm2, h1, h2⟩

end SceneManager
